import Mathlib

/-! # Chain Reaction game engine

A shallow embedding of `game.cpp` (class `ChainReactionGame`) and theorems about it.

Modelling conventions:

* C++ `int` values are `Int`.  No arithmetic in the engine wraps for the states considered
  here (orb counts and scores stay far below `2^31`).
* `std::vector<std::vector<Cell>> grid` is a function `Int → Int → Cell` together with the
  fields `rows` and `cols`; the engine only ever reads or writes cells after a bounds check.
* `std::vector<int> playerScores` and `std::vector<char> alive` are functions on `Int`; their
  common length, fixed by the constructor, is `playerScoresSize`.
* `std::queue<std::pair<int,int>>` is a `List (Int × Int)` (front of the queue = head).
* The `while (!q.empty())` loop of `processChainReaction` takes a fuel argument counting loop
  iterations; `none` means that the loop did not finish within the fuel.
-/

namespace ChainReaction

/-- A single cell of the grid (`struct Cell`). -/
structure Cell where
  owner : Int
  orbs : Int
deriving DecidableEq, Repr

/-- An orb moving from one cell to another (`struct OrbAnimationEvent`). -/
structure OrbAnimationEvent where
  fromRow : Int
  fromCol : Int
  toRow : Int
  toCol : Int
  playerOwner : Int
deriving DecidableEq, Repr

/-- The state members of `class ChainReactionGame`. `botStrategies` maps a player id to
the bot type installed for it (1 random, 2 greedy, 3 minimax). -/
structure ChainReactionGame where
  rows : Int
  cols : Int
  playerCount : Int
  movesMade : Int
  grid : Int → Int → Cell
  playerScores : Int → Int
  alive : Int → Bool
  aliveCount : Int
  lastAlivePlayer : Int
  lastAnimationEvents : List OrbAnimationEvent
  botStrategies : Int → Option Int

/-- Writing one cell: `grid[r][c] = v`. -/
def setCell (grid : Int → Int → Cell) (r c : Int) (v : Cell) : Int → Int → Cell :=
  fun r' c' => if r' = r ∧ c' = c then v else grid r' c'

/-- Writing one slot of a vector: `vec[i] = v`. -/
def setAt {α : Type} (vec : Int → α) (i : Int) (v : α) : Int → α :=
  fun j => if j = i then v else vec j

/-- The constructor `ChainReactionGame(pCount, botType, r, c)`. -/
def newGame (pCount botType r c : Int) : ChainReactionGame :=
  { rows := r
    cols := c
    playerCount := pCount
    movesMade := 0
    grid := fun _ _ => ⟨-1, 0⟩
    playerScores := fun _ => 0
    alive := fun _ => false
    aliveCount := 0
    lastAlivePlayer := -1
    lastAnimationEvents := []
    botStrategies :=
      if botType > 0 ∧ pCount > 1 then
        (if botType = 1 ∨ botType = 2 ∨ botType = 3 then
          fun p => if p = 1 then some botType else none
        else fun _ => none)
      else fun _ => none }

/-- The value of `static_cast<int>(playerScores.size())`, which is also `alive.size()`: the
constructor resizes both vectors to `playerCount` when it is positive and leaves them
empty otherwise. -/
def playerScoresSize (g : ChainReactionGame) : Int :=
  if g.playerCount > 0 then g.playerCount else 0

/-- The helper `markAliveIfNeeded`. -/
def markAliveIfNeeded (g : ChainReactionGame) (player : Int) : ChainReactionGame :=
  if player < 0 ∨ player ≥ playerScoresSize g then g
  else if g.alive player = false ∧ g.playerScores player > 0 then
    { g with
      alive := setAt g.alive player true
      aliveCount := g.aliveCount + 1
      lastAlivePlayer := player }
  else g

/-- The scan `for (p = 0; p < playerCount && p < alive.size(); ++p) if (alive[p]) ...` of
`markDeadIfNeeded`: the first alive player, if any. -/
def firstAlive (g : ChainReactionGame) : Option Nat :=
  (List.range (min g.playerCount (playerScoresSize g)).toNat).find? (fun p => g.alive (p : Int))

/-- The helper `markDeadIfNeeded`. -/
def markDeadIfNeeded (g : ChainReactionGame) (player : Int) : ChainReactionGame :=
  if player < 0 ∨ player ≥ playerScoresSize g then g
  else if g.alive player = true ∧ g.playerScores player ≤ 0 then
    let g1 := { g with alive := setAt g.alive player false, aliveCount := g.aliveCount - 1 }
    if g1.aliveCount = 1 then
      match firstAlive g1 with
      | some p => { g1 with lastAlivePlayer := (p : Int) }
      | none => g1
    else if g1.aliveCount = 0 then { g1 with lastAlivePlayer := -1 }
    else g1
  else g

/-- The helper `adjustPlayerScore`. -/
def adjustPlayerScore (g : ChainReactionGame) (player delta : Int) : ChainReactionGame :=
  if player < 0 ∨ player ≥ playerScoresSize g then g
  else
    let g1 := { g with playerScores := setAt g.playerScores player (g.playerScores player + delta) }
    if g1.playerScores player ≤ 0 then markDeadIfNeeded g1 player
    else markAliveIfNeeded g1 player

/-- The getter `getPlayerScore`. -/
def getPlayerScore (g : ChainReactionGame) (player : Int) : Int :=
  if player < 0 ∨ player ≥ playerScoresSize g then 0
  else g.playerScores player

/-- The helper `getCellCapacity`. -/
def getCellCapacity (g : ChainReactionGame) (r c : Int) : Int :=
  if (r = 0 ∨ r = g.rows - 1) ∧ (c = 0 ∨ c = g.cols - 1) then 1
  else if r = 0 ∨ r = g.rows - 1 ∨ c = 0 ∨ c = g.cols - 1 then 2
  else 3

/-- Move validation, `isMoveValid`. -/
def isMoveValid (g : ChainReactionGame) (r c player : Int) : Bool :=
  if r < 0 ∨ r ≥ g.rows ∨ c < 0 ∨ c ≥ g.cols then false
  else decide ((g.grid r c).owner = -1 ∨ (g.grid r c).owner = player)

/-- Body of the first loop of `clampPlayerScores`: a negative score becomes zero. -/
def clampStep (s : ChainReactionGame) (i : Nat) : ChainReactionGame :=
  if s.playerScores (i : Int) < 0 then
    { s with playerScores := setAt s.playerScores (i : Int) 0 }
  else s

/-- First loop of `clampPlayerScores`, over `i < playerScores.size()`. -/
def clampNegative (g : ChainReactionGame) : ChainReactionGame :=
  (List.range (playerScoresSize g).toNat).foldl clampStep g

/-- Body of the second loop of `clampPlayerScores`: the alive flag of player `i` is set from
its score, and alive players are counted and remembered. -/
def recountStep (s : ChainReactionGame) (i : Nat) : ChainReactionGame :=
  if s.playerScores (i : Int) > 0 then
    { s with
      alive := setAt s.alive (i : Int) true
      aliveCount := s.aliveCount + 1
      lastAlivePlayer := (i : Int) }
  else { s with alive := setAt s.alive (i : Int) false }

/-- Second loop of `clampPlayerScores`, after `aliveCount = 0; lastAlivePlayer = -1`. -/
def recountAlive (g : ChainReactionGame) : ChainReactionGame :=
  (List.range (playerScoresSize g).toNat).foldl recountStep
    { g with aliveCount := 0, lastAlivePlayer := -1 }

/-- The safety pass `clampPlayerScores`. -/
def clampPlayerScores (g : ChainReactionGame) : ChainReactionGame :=
  recountAlive (clampNegative g)

/-- The helper `flatIndex`. -/
def flatIndex (g : ChainReactionGame) (r c : Int) : Int :=
  r * g.cols + c

/-- The locals of `processChainReaction` that live across loop iterations: the game itself,
the work queue `q` and the membership flags `inQueue`. -/
structure CascadeState where
  game : ChainReactionGame
  q : List (Int × Int)
  inQueue : Int → Bool

/-- The direction tables `dr[]`, `dc[]` of `processChainReaction`, zipped. -/
def directions : List (Int × Int) :=
  [(-1, 0), (1, 0), (0, -1), (0, 1)]

/-- What one iteration of the inner `for (int i = 0; i < 4; ++i)` loop does to the game, for
an in-bounds neighbour `(nr, nc)` of the exploding cell `(r, c)` of player `owner`: the
animation event is recorded, then the neighbour and the scores are updated by the three-way
branch on `prevOwner`. -/
def feedGame (r c owner : Int) (g : ChainReactionGame) (nr nc : Int) : ChainReactionGame :=
  let g1 : ChainReactionGame :=
    { g with lastAnimationEvents := g.lastAnimationEvents ++ [⟨r, c, nr, nc, owner⟩] }
  let prevOwner := (g1.grid nr nc).owner
  let prevOrbs := (g1.grid nr nc).orbs
  if prevOwner = -1 then
    adjustPlayerScore { g1 with grid := setCell g1.grid nr nc ⟨owner, 1⟩ } owner 1
  else if prevOwner = owner then
    adjustPlayerScore { g1 with grid := setCell g1.grid nr nc ⟨prevOwner, prevOrbs + 1⟩ }
      owner 1
  else
    adjustPlayerScore
      (adjustPlayerScore { g1 with grid := setCell g1.grid nr nc ⟨owner, prevOrbs + 1⟩ }
        owner (prevOrbs + 1))
      prevOwner (-prevOrbs)

/-- One iteration of the inner `for (int i = 0; i < 4; ++i)` loop: the exploding cell
`(r, c)` of player `owner` feeds the neighbour in direction `d`, which is then queued when
it is over capacity and not queued already. -/
def feedNeighbor (r c owner : Int) (s : CascadeState) (d : Int × Int) : CascadeState :=
  let nr := r + d.1
  let nc := c + d.2
  if nr < 0 ∨ nr ≥ s.game.rows ∨ nc < 0 ∨ nc ≥ s.game.cols then s
  else
    let g2 := feedGame r c owner s.game nr nc
    let idx := flatIndex g2 nr nc
    if (g2.grid nr nc).orbs > getCellCapacity g2 nr nc ∧ s.inQueue idx = false then
      { game := g2, q := s.q ++ [(nr, nc)], inQueue := setAt s.inQueue idx true }
    else { s with game := g2 }

/-- The body of the `while (!q.empty())` loop for the popped position `(r, c)`; `s` is the
state after `q.pop()`. -/
def explodeCell (s : CascadeState) (r c : Int) : CascadeState :=
  let s1 : CascadeState := { s with inQueue := setAt s.inQueue (flatIndex s.game r c) false }
  if (s1.game.grid r c).owner = -1 ∨ (s1.game.grid r c).orbs ≤ getCellCapacity s1.game r c then s1
  else
    let owner := (s1.game.grid r c).owner
    let orbsInCell := (s1.game.grid r c).orbs
    let g1 := adjustPlayerScore s1.game owner (-orbsInCell)
    let g2 : ChainReactionGame := { g1 with grid := setCell g1.grid r c ⟨-1, 0⟩ }
    directions.foldl (feedNeighbor r c owner) { s1 with game := g2 }

/-- The `while (!q.empty())` loop; `fuel` bounds the number of iterations. -/
def cascadeLoop : Nat → CascadeState → Option CascadeState
  | _, ⟨g, [], iq⟩ => some ⟨g, [], iq⟩
  | 0, ⟨_, _ :: _, _⟩ => none
  | fuel + 1, ⟨g, pos :: rest, iq⟩ => cascadeLoop fuel (explodeCell ⟨g, rest, iq⟩ pos.1 pos.2)

/-- The chain-reaction pass `processChainReaction`. -/
def processChainReaction (fuel : Nat) (g : ChainReactionGame) (q : List (Int × Int)) :
    Option ChainReactionGame :=
  let inQueue : Int → Bool :=
    q.foldl (fun iq pos => setAt iq (flatIndex g pos.1 pos.2) true) (fun _ => false)
  match cascadeLoop fuel ⟨g, q, inQueue⟩ with
  | none => none
  | some s => some (clampPlayerScores s.game)

/-- The first part of `makeMove` after the validity check: the trace is cleared, one orb is
placed on `(r, c)` for `player`, and the player's score is adjusted. -/
def placeOrb (g : ChainReactionGame) (r c player : Int) : ChainReactionGame :=
  let g1 : ChainReactionGame := { g with lastAnimationEvents := [] }
  let g2 : ChainReactionGame :=
    { g1 with grid := setCell g1.grid r c ⟨player, (g1.grid r c).orbs + 1⟩ }
  adjustPlayerScore g2 player 1

/-- Move execution, `makeMove`: the returned boolean and the state after the call, or `none`
when the chain reaction does not finish within `fuel` loop iterations. -/
def makeMove (fuel : Nat) (g : ChainReactionGame) (r c player : Int) :
    Option (Bool × ChainReactionGame) :=
  if isMoveValid g r c player = false then some (false, g)
  else
    let g3 := placeOrb g r c player
    let unstableCells : List (Int × Int) :=
      if (g3.grid r c).orbs > getCellCapacity g3 r c then [(r, c)] else []
    if unstableCells = [] then some (true, { g3 with movesMade := g3.movesMade + 1 })
    else
      match processChainReaction fuel g3 unstableCells with
      | none => none
      | some g4 => some (true, { g4 with movesMade := g4.movesMade + 1 })

/-- The query `getWinner`. -/
def getWinner (g : ChainReactionGame) : Int :=
  if g.movesMade < g.playerCount then -1
  else if g.aliveCount = 1 then g.lastAlivePlayer
  else -1

/-- The getter `getLastAnimationEvents`. -/
def getLastAnimationEvents (g : ChainReactionGame) : List OrbAnimationEvent :=
  g.lastAnimationEvents

/-- The query `isPlayerEliminated`. -/
def isPlayerEliminated (g : ChainReactionGame) (player : Int) : Bool :=
  if player < 0 ∨ player ≥ playerScoresSize g then true
  else if g.movesMade < g.playerCount then false
  else decide (g.playerScores player ≤ 0)

/-- The copy constructor of `ChainReactionGame`: every member is copied except the animation
trace, which is cleared, and the bot strategies, which the copy does not receive. -/
def copyGame (g : ChainReactionGame) : ChainReactionGame :=
  { g with lastAnimationEvents := [], botStrategies := fun _ => none }

/-- The enumeration loop that opens every `findMove` and both branches of `minimax`: the
cells `(r, c)` accepted by `isMoveValid` for `player`, in row-major order. -/
def validMoves (g : ChainReactionGame) (player : Int) : List (Int × Int) :=
  (List.range g.rows.toNat).flatMap fun (r : Nat) =>
    (List.range g.cols.toNat).filterMap fun (c : Nat) =>
      if isMoveValid g (r : Int) (c : Int) player = true then some ((r : Int), (c : Int))
      else none

/-- The value of `std::numeric_limits<int>::min()`. -/
def INT_MIN : Int := -2147483648

/-- The value of `std::numeric_limits<int>::max()`. -/
def INT_MAX : Int := 2147483647

/-- The method `RandomBot::findMove`. `draw` is the raw outcome of the random generator;
`distrib(gen)` maps it to an index in `0 .. validMoves.size() - 1`, every index being
possible. -/
def RandomBot.findMove (draw : Nat) (g : ChainReactionGame) (myPlayerId : Int) : Int × Int :=
  let moves := validMoves g myPlayerId
  if moves = [] then (-1, -1)
  else moves.getD (draw % moves.length) (-1, -1)

/-- The `for (const auto& move : validMoves)` loop of `GreedyBot::findMove`, with the locals
`bestMove` and `maxScoreGain` as accumulators; `none` when a simulated `makeMove` does not
return within the fuel. -/
def GreedyBot.loop (fuel : Nat) (g : ChainReactionGame) (myPlayerId initialScore : Int) :
    List (Int × Int) → Int × Int → Int → Option (Int × Int)
  | [], bestMove, _ => some bestMove
  | move :: rest, bestMove, maxScoreGain =>
    match makeMove fuel (copyGame g) move.1 move.2 myPlayerId with
    | none => none
    | some (_, simulatedGame) =>
      let scoreGain := getPlayerScore simulatedGame myPlayerId - initialScore
      if scoreGain > maxScoreGain then
        GreedyBot.loop fuel g myPlayerId initialScore rest move scoreGain
      else GreedyBot.loop fuel g myPlayerId initialScore rest bestMove maxScoreGain

/-- The method `GreedyBot::findMove`. -/
def GreedyBot.findMove (fuel : Nat) (g : ChainReactionGame) (myPlayerId : Int) :
    Option (Int × Int) :=
  match validMoves g myPlayerId with
  | [] => some (-1, -1)
  | first :: rest =>
    GreedyBot.loop fuel g myPlayerId (getPlayerScore g myPlayerId) (first :: rest) first INT_MIN

/-- The loop of the maximizing branch of `minimax` over the remaining moves, with `maxEval`
and `alpha` as accumulators; `child` is the recursive call at `depth - 1`. -/
def MinimaxBot.maxLoop (child : ChainReactionGame → Int → Int → Option Int) (fuel : Nat)
    (g : ChainReactionGame) (myPlayerId : Int) :
    List (Int × Int) → Int → Int → Int → Option Int
  | [], maxEval, _, _ => some maxEval
  | move :: rest, maxEval, alpha, beta =>
    match makeMove fuel (copyGame g) move.1 move.2 myPlayerId with
    | none => none
    | some (_, childState) =>
      match child childState alpha beta with
      | none => none
      | some eval =>
        if beta ≤ max alpha eval then some (max maxEval eval)
        else MinimaxBot.maxLoop child fuel g myPlayerId rest (max maxEval eval)
          (max alpha eval) beta

/-- The loop of the minimizing branch of `minimax` over the remaining moves of the opponent,
with `minEval` and `beta` as accumulators. -/
def MinimaxBot.minLoop (child : ChainReactionGame → Int → Int → Option Int) (fuel : Nat)
    (g : ChainReactionGame) (opponentId : Int) :
    List (Int × Int) → Int → Int → Int → Option Int
  | [], minEval, _, _ => some minEval
  | move :: rest, minEval, alpha, beta =>
    match makeMove fuel (copyGame g) move.1 move.2 opponentId with
    | none => none
    | some (_, childState) =>
      match child childState alpha beta with
      | none => none
      | some eval =>
        if min beta eval ≤ alpha then some (min minEval eval)
        else MinimaxBot.minLoop child fuel g opponentId rest (min minEval eval) alpha
          (min beta eval)

/-- The value that 32-bit `int` arithmetic stores for the mathematical result `x`: `x`
itself inside `INT_MIN .. INT_MAX`, and `x` reduced modulo `2^32` into that range outside
(two's-complement wrap-around). -/
def wrapInt32 (x : Int) : Int :=
  (x + 2147483648) % 4294967296 - 2147483648

/-- The local `int opponentId = 1 - myPlayerId;` of `minimax`, computed in 32-bit `int`: it is
`1 - myPlayerId` except for the two smallest ids, where the subtraction leaves the range and
wraps. -/
def MinimaxBot.opponentId (myPlayerId : Int) : Int :=
  wrapInt32 (1 - myPlayerId)

/-- The method `MinimaxBot::minimax`, for a depth that is not negative (it is called with
`SEARCH_DEPTH - 1 = 2` and counts down to 0). The game is passed by value, hence the copy at
every call. -/
def MinimaxBot.minimax (fuel : Nat) :
    Nat → ChainReactionGame → Int → Int → Bool → Int → Option Int
  | 0, g, _, _, _, myPlayerId =>
    some (getPlayerScore g myPlayerId - getPlayerScore g (MinimaxBot.opponentId myPlayerId))
  | depth + 1, g, alpha, beta, isMaximizingPlayer, myPlayerId =>
    if getWinner g ≠ -1 then
      some (getPlayerScore g myPlayerId - getPlayerScore g (MinimaxBot.opponentId myPlayerId))
    else if isMaximizingPlayer = true then
      MinimaxBot.maxLoop
        (fun s a b => MinimaxBot.minimax fuel depth (copyGame s) a b false myPlayerId)
        fuel g myPlayerId (validMoves g myPlayerId) INT_MIN alpha beta
    else
      if validMoves g (MinimaxBot.opponentId myPlayerId) = [] then
        some (getPlayerScore g myPlayerId - getPlayerScore g (MinimaxBot.opponentId myPlayerId))
      else
        MinimaxBot.minLoop
          (fun s a b => MinimaxBot.minimax fuel depth (copyGame s) a b true myPlayerId)
          fuel g (MinimaxBot.opponentId myPlayerId)
          (validMoves g (MinimaxBot.opponentId myPlayerId)) INT_MAX alpha beta

/-- The constant `SEARCH_DEPTH`. -/
def SEARCH_DEPTH : Nat := 3

/-- The task launched by `MinimaxBot::findMove` for one candidate move: the move is applied
to a private copy (the lambda captures the game by value and copies it again) and the result
is searched at `SEARCH_DEPTH - 1`. -/
def MinimaxBot.searchValue (fuel : Nat) (g : ChainReactionGame) (myPlayerId : Int)
    (move : Int × Int) : Option Int :=
  match makeMove fuel (copyGame (copyGame g)) move.1 move.2 myPlayerId with
  | none => none
  | some (_, simulatedGame) =>
    MinimaxBot.minimax fuel (SEARCH_DEPTH - 1) (copyGame simulatedGame) INT_MIN INT_MAX false
      myPlayerId

/-- The collection loop of `MinimaxBot::findMove` over the moves paired with the results of
their tasks, with `bestMove` and `bestScore` as accumulators. -/
def MinimaxBot.collect : List ((Int × Int) × Int) → Int × Int → Int → Int × Int
  | [], bestMove, _ => bestMove
  | (move, moveScore) :: rest, bestMove, bestScore =>
    if moveScore > bestScore then MinimaxBot.collect rest move moveScore
    else MinimaxBot.collect rest bestMove bestScore

/-- The method `MinimaxBot::findMove`. The tasks run on private copies, so their results do
not depend on scheduling; `findMove` waits for every one of them, and does not return when
one of them does not. -/
def MinimaxBot.findMove (fuel : Nat) (g : ChainReactionGame) (myPlayerId : Int) :
    Option (Int × Int) :=
  match validMoves g myPlayerId with
  | [] => some (-1, -1)
  | [only] => some only
  | first :: second :: rest =>
    match (first :: second :: rest).mapM (MinimaxBot.searchValue fuel g myPlayerId) with
    | none => none
    | some scores =>
      some (MinimaxBot.collect ((first :: second :: rest).zip scores) first INT_MIN)

/-- The decimal digits of a natural number, most significant first: what the stream
inserter prints for a non-negative `int`. -/
def showNat (n : Nat) : List Char :=
  if n = 0 then ['0'] else (Nat.digits 10 n).reverse.map Nat.digitChar

/-- What `ss << value` appends for an `int`: a minus sign for a negative value, then the
decimal digits of its magnitude. -/
def showInt (n : Int) : List Char :=
  if n < 0 then '-' :: showNat n.natAbs else showNat n.natAbs

/-- The method `getGridState`: the stream `ss` is threaded through both loops, and each
conditional insertion of a delimiter is kept where the source has it. -/
def getGridState (g : ChainReactionGame) : String :=
  String.mk
    ((List.range g.rows.toNat).foldl
      (fun ss (i : Nat) =>
        let ss := (List.range g.cols.toNat).foldl
          (fun ss (j : Nat) =>
            let ss := ss ++ showInt (g.grid i j).owner ++ [','] ++ showInt (g.grid i j).orbs
            if (j : Int) < g.cols - 1 then ss ++ [';'] else ss)
          ss
        if (i : Int) < g.rows - 1 then ss ++ ['|'] else ss)
      [])

/-- The orbs of `cell` that count for player `p`: all of them when `p` owns the cell. -/
def orbsFor (p : Int) (cell : Cell) : Int :=
  if cell.owner = p then cell.orbs else 0

/-- Sum of the orbs over all in-bounds cells whose owner is `p`. -/
def ownedOrbs (g : ChainReactionGame) (p : Int) : Int :=
  ∑ x in Finset.Ico (0 : Int) g.rows ×ˢ Finset.Ico (0 : Int) g.cols, orbsFor p (g.grid x.1 x.2)

/-- States reached from `g0` by a sequence of `makeMove` calls that returned, with every
player argument satisfying `okPlayer`; the index counts the calls that returned `true`. -/
inductive Reach (okPlayer : Int → Prop) (g0 : ChainReactionGame) :
    Nat → ChainReactionGame → Prop
  | start : Reach okPlayer g0 0 g0
  | accepted {n : Nat} {g : ChainReactionGame} (fuel : Nat) (r c player : Int)
      {g' : ChainReactionGame} :
      Reach okPlayer g0 n g → okPlayer player →
      makeMove fuel g r c player = some (true, g') → Reach okPlayer g0 (n + 1) g'
  | rejected {n : Nat} {g : ChainReactionGame} (fuel : Nat) (r c player : Int)
      {g' : ChainReactionGame} :
      Reach okPlayer g0 n g → okPlayer player →
      makeMove fuel g r c player = some (false, g') → Reach okPlayer g0 n g'

/-- The state after a list of calls `(r, c, player)`, each run with the given fuel; a call
that does not finish within the fuel is skipped. Used to name concrete states. -/
def replay (fuel : Nat) (g : ChainReactionGame) (calls : List (Int × Int × Int)) :
    ChainReactionGame :=
  calls.foldl
    (fun s call =>
      match makeMove fuel s call.1 call.2.1 call.2.2 with
      | some (_, s') => s'
      | none => s)
    g

/-- What a neighbour cell becomes when an exploding cell of `owner` feeds it: the three
branches on `prevOwner` in `processChainReaction`. -/
def fedCell (owner : Int) (cell : Cell) : Cell :=
  if cell.owner = -1 then ⟨owner, 1⟩
  else if cell.owner = owner then ⟨cell.owner, cell.orbs + 1⟩
  else ⟨owner, cell.orbs + 1⟩

/-- The bounds check `0 <= r < rows && 0 <= c < cols`. -/
def InBounds (g : ChainReactionGame) (r c : Int) : Prop :=
  0 ≤ r ∧ r < g.rows ∧ 0 ≤ c ∧ c < g.cols

/-- Every cell holds a non-negative number of orbs, and none exactly when it is unowned. -/
def CellsOK (grid : Int → Int → Cell) : Prop :=
  ∀ r c, 0 ≤ (grid r c).orbs ∧ ((grid r c).orbs = 0 ↔ (grid r c).owner = -1)

/-- A cell as the score accounting needs it: a non-negative orb count, no orbs when unowned,
and an owner that is either "none" or a player with a score slot. -/
def CellFine (g : ChainReactionGame) (cell : Cell) : Prop :=
  0 ≤ cell.orbs ∧ (cell.owner = -1 → cell.orbs = 0) ∧
    (cell.owner = -1 ∨ (0 ≤ cell.owner ∧ cell.owner < playerScoresSize g))

/-- The score invariant together with what its preservation needs: every in-bounds cell is
`CellFine`, and every player in range has a score equal to the orbs on the cells it owns. -/
def ScoresOK (g : ChainReactionGame) : Prop :=
  (∀ r c, InBounds g r c → CellFine g (g.grid r c)) ∧
  (∀ p, 0 ≤ p → p < playerScoresSize g → getPlayerScore g p = ownedOrbs g p)

/-- The invariant of the cascade loop for the score claim: the game satisfies `ScoresOK` and
every queued position is in bounds. -/
def CascadeOK (s : CascadeState) : Prop :=
  ScoresOK s.game ∧ ∀ pos ∈ s.q, InBounds s.game pos.1 pos.2

/-- The fields that no part of the cascade touches: `g'` has the dimensions, player count
and move counter of `g`. -/
def SameFrame (g g' : ChainReactionGame) : Prop :=
  g'.rows = g.rows ∧ g'.cols = g.cols ∧ g'.playerCount = g.playerCount ∧
    g'.movesMade = g.movesMade

/-- The part of a cascade state that decides how the cascade runs: the orb counts, the queue
and the membership flags. Owners and scores ride along but never steer the loop. -/
structure OrbLayer where
  orbs : Int → Int → Int
  q : List (Int × Int)
  inQueue : Int → Bool

/-- Writing one orb count. -/
def setOrbs (orbs : Int → Int → Int) (r c v : Int) : Int → Int → Int :=
  fun r' c' => if r' = r ∧ c' = c then v else orbs r' c'

/-- `feedNeighbor` on the orb layer; `g0` supplies the board dimensions. -/
def orbFeed (g0 : ChainReactionGame) (r c : Int) (a : OrbLayer) (d : Int × Int) : OrbLayer :=
  let nr := r + d.1
  let nc := c + d.2
  if nr < 0 ∨ nr ≥ g0.rows ∨ nc < 0 ∨ nc ≥ g0.cols then a
  else
    let orbs' := setOrbs a.orbs nr nc (a.orbs nr nc + 1)
    let idx := flatIndex g0 nr nc
    if orbs' nr nc > getCellCapacity g0 nr nc ∧ a.inQueue idx = false then
      { orbs := orbs', q := a.q ++ [(nr, nc)], inQueue := setAt a.inQueue idx true }
    else { a with orbs := orbs' }

/-- `explodeCell` on the orb layer. -/
def orbExplode (g0 : ChainReactionGame) (a : OrbLayer) (r c : Int) : OrbLayer :=
  let a1 : OrbLayer := { a with inQueue := setAt a.inQueue (flatIndex g0 r c) false }
  if a1.orbs r c = 0 ∨ a1.orbs r c ≤ getCellCapacity g0 r c then a1
  else directions.foldl (orbFeed g0 r c) { a1 with orbs := setOrbs a1.orbs r c 0 }

/-- The orb layer of a cascade state: same dimensions as `g0`, a grid satisfying the cell
invariant whose orb counts are those of the layer, the same queue and the same flags. -/
def LayerOf (g0 : ChainReactionGame) (s : CascadeState) (a : OrbLayer) : Prop :=
  s.game.rows = g0.rows ∧ s.game.cols = g0.cols ∧ CellsOK s.game.grid ∧
    (∀ r c, (s.game.grid r c).orbs = a.orbs r c) ∧ s.q = a.q ∧ s.inQueue = a.inQueue

/-- The `while` loop on the orb layer. -/
def orbLoop (g0 : ChainReactionGame) : Nat → OrbLayer → Option OrbLayer
  | _, ⟨k, [], iq⟩ => some ⟨k, [], iq⟩
  | 0, ⟨_, _ :: _, _⟩ => none
  | fuel + 1, ⟨k, pos :: rest, iq⟩ => orbLoop g0 fuel (orbExplode g0 ⟨k, rest, iq⟩ pos.1 pos.2)

/-- One snapshot of the orb layer of a 2x2 board: the queue, the orb counts of the four
cells in row-major order, and the flags of the four flat indices. -/
def Phase (a : OrbLayer) (v : List Int) (q : List (Int × Int)) (f : List Bool) : Prop :=
  a.q = q ∧ [a.orbs 0 0, a.orbs 0 1, a.orbs 1 0, a.orbs 1 1] = v ∧
    [a.inQueue 0, a.inQueue 1, a.inQueue 2, a.inQueue 3] = f

/-- The four snapshots of a cycle on the 2x2 board: three cells hold `2, 1, 1` orbs, the one
with two orbs is the only queued cell, and each explosion moves the pattern one cell on. -/
def Spinning (a : OrbLayer) : Prop :=
  Phase a [1, 2, 1, 0] [(0, 1)] [false, true, false, false] ∨
  Phase a [2, 0, 1, 1] [(0, 0)] [true, false, false, false] ∨
  Phase a [0, 1, 2, 1] [(1, 0)] [false, false, true, false] ∨
  Phase a [1, 1, 0, 2] [(1, 1)] [false, false, false, true]

/-- The position after player 0 took `(0,0)`, player 1 took `(0,1)` and player 0 took `(1,0)`
on a fresh 2x2 board with two players. -/
def corneredBoard : ChainReactionGame :=
  replay 0 (newGame 2 0 2 2) [(0, 0, 0), (0, 1, 1), (1, 0, 0)]

/-- The players in range whose recorded score is positive. -/
def positivePlayers (g : ChainReactionGame) : Finset Int :=
  (Finset.Ico 0 (playerScoresSize g)).filter (fun p => g.playerScores p > 0)

/-- The players below `k` with a positive score: what the second loop of the safety pass
has counted after `k` iterations. -/
def positiveBelow (g : ChainReactionGame) (k : Nat) : Finset Int :=
  (Finset.Ico 0 (k : Int)).filter (fun p => g.playerScores p > 0)

/-- Consistency of the alive bookkeeping with the scores: the flags mark the players with a
positive score, `aliveCount` counts them, and when there is exactly one, `lastAlivePlayer`
is that player. -/
def AliveOK (g : ChainReactionGame) : Prop :=
  (∀ p, 0 ≤ p → p < playerScoresSize g → (g.alive p = true ↔ g.playerScores p > 0)) ∧
  g.aliveCount = ((positivePlayers g).card : Int) ∧
  (g.aliveCount = 1 → g.lastAlivePlayer ∈ positivePlayers g)

/-- The number of orbs on the board (all in-bounds cells). -/
def totalOrbs (g : ChainReactionGame) : Int :=
  ∑ x in Finset.Ico (0 : Int) g.rows ×ˢ Finset.Ico (0 : Int) g.cols, (g.grid x.1 x.2).orbs

/-- Whether the neighbour of `(r, c)` in direction `d` is on the board: the negation of the
`continue` test in the inner loop of `processChainReaction`. -/
def openDirection (g : ChainReactionGame) (r c : Int) (d : Int × Int) : Bool :=
  decide (¬ (r + d.1 < 0 ∨ r + d.1 ≥ g.rows ∨ c + d.2 < 0 ∨ c + d.2 ≥ g.cols))

/-- The directions in which the cell `(r, c)` has an in-bounds neighbour. -/
def openDirections (g : ChainReactionGame) (r c : Int) : List (Int × Int) :=
  directions.filter (openDirection g r c)

/-- The invariant of the cascade loop behind "only the mover gains", for the mover `p` and the
state `base` the call started from: queued cells belong to `p` or to nobody, every recorded
event is attributed to `p`, a cell whose owner differs from the one in `base` belongs to `p`
or is empty, no orb count is negative, and no other player's score exceeds its score in
`base`. -/
def MoverOnly (p : Int) (base : ChainReactionGame) (s : CascadeState) : Prop :=
  (∀ pos ∈ s.q, (s.game.grid pos.1 pos.2).owner = p ∨ (s.game.grid pos.1 pos.2).owner = -1) ∧
  (∀ e ∈ s.game.lastAnimationEvents, e.playerOwner = p) ∧
  (∀ r c, (s.game.grid r c).owner = (base.grid r c).owner ∨ (s.game.grid r c).owner = p ∨
    s.game.grid r c = ⟨-1, 0⟩) ∧
  (∀ r c, 0 ≤ (s.game.grid r c).orbs) ∧
  (∀ q, q ≠ p → getPlayerScore s.game q ≤ getPlayerScore base q)

/-- No orb count and no score is negative. -/
def NonNeg (g : ChainReactionGame) : Prop :=
  (∀ r c, 0 ≤ (g.grid r c).orbs) ∧ (∀ q, 0 ≤ getPlayerScore g q)

/-- The invariant of the cascade loop behind stability, on the orb layer: an in-bounds cell
whose flag is set is in the queue, and so is every in-bounds cell above its capacity. -/
def QueueOK (g0 : ChainReactionGame) (a : OrbLayer) : Prop :=
  (∀ r c, InBounds g0 r c → a.inQueue (flatIndex g0 r c) = true → (r, c) ∈ a.q) ∧
  (∀ r c, InBounds g0 r c → a.orbs r c > getCellCapacity g0 r c → (r, c) ∈ a.q)

/-- No in-bounds cell holds more orbs than its capacity. -/
def Stable (g : ChainReactionGame) : Prop :=
  ∀ r c, InBounds g r c → (g.grid r c).orbs ≤ getCellCapacity g r c

/-- The eight snapshots that the orb layer of a 2x2 board runs through when a fifth orb is
placed on `(0,1)` of a board with one orb in every cell: four on the way into the cycle, then
the four of the cycle, in which four orbs survive and the queue never empties. -/
def Churning (a : OrbLayer) : Prop :=
  Phase a [1, 2, 1, 1] [(0, 1)] [false, true, false, false] ∨
  Phase a [2, 0, 1, 2] [(1, 1), (0, 0)] [true, false, false, true] ∨
  Phase a [2, 1, 2, 0] [(0, 0), (1, 0)] [true, false, true, false] ∨
  Phase a [0, 2, 3, 0] [(1, 0), (0, 1)] [false, true, true, false] ∨
  Phase a [1, 2, 0, 1] [(0, 1)] [false, true, false, false] ∨
  Phase a [2, 0, 0, 2] [(1, 1), (0, 0)] [true, false, false, true] ∨
  Phase a [2, 1, 1, 0] [(0, 0)] [true, false, false, false] ∨
  Phase a [0, 2, 2, 0] [(1, 0), (0, 1)] [false, true, true, false]

/-- The two-player position of `corneredBoard` in a game created with the given bot type
(player 1 is the bot). -/
def botBoard (botType : Int) : ChainReactionGame :=
  replay 0 (newGame 2 botType 2 2) [(0, 0, 0), (0, 1, 1), (1, 0, 0)]

/-- A three-player game with a greedy bot as player 1 on a 2x2 board, after one move of each
player in turn and a second move of player 0: every cell holds one orb and `(0,1)` is the
only cell of player 1. -/
def crowdedBoard : ChainReactionGame :=
  replay 0 (newGame 3 2 2 2) [(0, 0, 0), (0, 1, 1), (1, 0, 2), (1, 1, 0)]

/-- The text of one cell in the words of the specification: owner, a comma, orb count. -/
def cellField (cell : Cell) : List Char :=
  showInt cell.owner ++ ',' :: showInt cell.orbs

/-- The text of row `i` in the words of the specification: its cell fields joined by `;`. -/
def rowText (g : ChainReactionGame) (i : Nat) : List Char :=
  [';'].intercalate ((List.range g.cols.toNat).map fun (j : Nat) => cellField (g.grid i j))

/-- The serialised grid in the words of the specification: the row texts in row order,
joined by `|`. -/
def joinedGrid (g : ChainReactionGame) : List Char :=
  ['|'].intercalate ((List.range g.rows.toNat).map fun (i : Nat) => rowText g i)

/-- Entry `m` of a list of scored moves is the first one whose score is maximal: every
earlier score is smaller and no later score is larger. -/
def FirstMax (l : List ((Int × Int) × Int)) (m : Int × Int) : Prop :=
  ∃ pre v post, l = pre ++ (m, v) :: post ∧ (∀ x ∈ pre, x.2 < v) ∧ (∀ x ∈ post, x.2 ≤ v)

/-- The score gain of a candidate as the greedy bot measures it: the mover's score after the
move on a copy, minus the mover's score before; nothing when the simulated move does not
return. -/
def GreedyBot.gain (fuel : Nat) (g : ChainReactionGame) (myPlayerId : Int) (move : Int × Int) :
    Option Int :=
  match makeMove fuel (copyGame g) move.1 move.2 myPlayerId with
  | none => none
  | some (_, simulatedGame) =>
    some (getPlayerScore simulatedGame myPlayerId - getPlayerScore g myPlayerId)

/-- The invariant of the cascade loop behind "orbs are never created", for a bound `B`: no
orb count is negative, every queued position is in bounds, and the board holds at most `B`
orbs. -/
def OrbsBounded (B : Int) (s : CascadeState) : Prop :=
  (∀ r c, 0 ≤ (s.game.grid r c).orbs) ∧ (∀ pos ∈ s.q, InBounds s.game pos.1 pos.2) ∧
    totalOrbs s.game ≤ B

/-- The loop of the maximizing branch of `minimax` with the cut-off `if (beta <= alpha) break`
removed: every move is simulated, and since `alpha` and `beta` are then never read, only
`maxEval` is kept as accumulator. -/
def MinimaxBot.plainMaxLoop (child : ChainReactionGame → Option Int) (fuel : Nat)
    (g : ChainReactionGame) (myPlayerId : Int) : List (Int × Int) → Int → Option Int
  | [], maxEval => some maxEval
  | move :: rest, maxEval =>
    match makeMove fuel (copyGame g) move.1 move.2 myPlayerId with
    | none => none
    | some (_, childState) =>
      match child childState with
      | none => none
      | some eval =>
        MinimaxBot.plainMaxLoop child fuel g myPlayerId rest (max maxEval eval)

/-- The loop of the minimizing branch of `minimax` with the cut-off removed. -/
def MinimaxBot.plainMinLoop (child : ChainReactionGame → Option Int) (fuel : Nat)
    (g : ChainReactionGame) (opponentId : Int) : List (Int × Int) → Int → Option Int
  | [], minEval => some minEval
  | move :: rest, minEval =>
    match makeMove fuel (copyGame g) move.1 move.2 opponentId with
    | none => none
    | some (_, childState) =>
      match child childState with
      | none => none
      | some eval =>
        MinimaxBot.plainMinLoop child fuel g opponentId rest (min minEval eval)

/-- Plain minimax: the recursion of `MinimaxBot::minimax` with both cut-offs removed, over
the same row-major move enumeration, with the same terminal test, the same leaf evaluation
and the same start values `INT_MIN` and `INT_MAX` of `maxEval` and `minEval`. -/
def MinimaxBot.plainMinimax (fuel : Nat) : Nat → ChainReactionGame → Bool → Int → Option Int
  | 0, g, _, myPlayerId =>
    some (getPlayerScore g myPlayerId - getPlayerScore g (MinimaxBot.opponentId myPlayerId))
  | depth + 1, g, isMaximizingPlayer, myPlayerId =>
    if getWinner g ≠ -1 then
      some (getPlayerScore g myPlayerId - getPlayerScore g (MinimaxBot.opponentId myPlayerId))
    else if isMaximizingPlayer = true then
      MinimaxBot.plainMaxLoop
        (fun s => MinimaxBot.plainMinimax fuel depth (copyGame s) false myPlayerId)
        fuel g myPlayerId (validMoves g myPlayerId) INT_MIN
    else
      if validMoves g (MinimaxBot.opponentId myPlayerId) = [] then
        some (getPlayerScore g myPlayerId - getPlayerScore g (MinimaxBot.opponentId myPlayerId))
      else
        MinimaxBot.plainMinLoop
          (fun s => MinimaxBot.plainMinimax fuel depth (copyGame s) true myPlayerId)
          fuel g (MinimaxBot.opponentId myPlayerId)
          (validMoves g (MinimaxBot.opponentId myPlayerId)) INT_MAX

/-- What a search with window `(alpha, beta)` guarantees about its result `v` when the plain
value is `V`: a result at or below `alpha` is an upper bound of `V`, a result at or above
`beta` is a lower bound, and a result strictly inside the window is `V` itself. -/
def FailSoft (alpha beta v V : Int) : Prop :=
  (v ≤ alpha → V ≤ v) ∧ (beta ≤ v → v ≤ V) ∧ (alpha < v → v < beta → v = V)

/-! ## Frame lemmas for the score helpers -/

section Frame

variable (g : ChainReactionGame) (p d : Int)

@[simp] theorem markAliveIfNeeded_rows : (markAliveIfNeeded g p).rows = g.rows := by
  unfold markAliveIfNeeded; split_ifs <;> rfl

@[simp] theorem markAliveIfNeeded_cols : (markAliveIfNeeded g p).cols = g.cols := by
  unfold markAliveIfNeeded; split_ifs <;> rfl

@[simp] theorem markAliveIfNeeded_playerCount :
    (markAliveIfNeeded g p).playerCount = g.playerCount := by
  unfold markAliveIfNeeded; split_ifs <;> rfl

@[simp] theorem markAliveIfNeeded_movesMade :
    (markAliveIfNeeded g p).movesMade = g.movesMade := by
  unfold markAliveIfNeeded; split_ifs <;> rfl

@[simp] theorem markAliveIfNeeded_grid : (markAliveIfNeeded g p).grid = g.grid := by
  unfold markAliveIfNeeded; split_ifs <;> rfl

@[simp] theorem markAliveIfNeeded_playerScores :
    (markAliveIfNeeded g p).playerScores = g.playerScores := by
  unfold markAliveIfNeeded; split_ifs <;> rfl

@[simp] theorem markAliveIfNeeded_events :
    (markAliveIfNeeded g p).lastAnimationEvents = g.lastAnimationEvents := by
  unfold markAliveIfNeeded; split_ifs <;> rfl

@[simp] theorem markDeadIfNeeded_rows : (markDeadIfNeeded g p).rows = g.rows := by
  unfold markDeadIfNeeded; simp only; split_ifs <;> try rfl
  split <;> rfl

@[simp] theorem markDeadIfNeeded_cols : (markDeadIfNeeded g p).cols = g.cols := by
  unfold markDeadIfNeeded; simp only; split_ifs <;> try rfl
  split <;> rfl

@[simp] theorem markDeadIfNeeded_playerCount :
    (markDeadIfNeeded g p).playerCount = g.playerCount := by
  unfold markDeadIfNeeded; simp only; split_ifs <;> try rfl
  split <;> rfl

@[simp] theorem markDeadIfNeeded_movesMade :
    (markDeadIfNeeded g p).movesMade = g.movesMade := by
  unfold markDeadIfNeeded; simp only; split_ifs <;> try rfl
  split <;> rfl

@[simp] theorem markDeadIfNeeded_grid : (markDeadIfNeeded g p).grid = g.grid := by
  unfold markDeadIfNeeded; simp only; split_ifs <;> try rfl
  split <;> rfl

@[simp] theorem markDeadIfNeeded_playerScores :
    (markDeadIfNeeded g p).playerScores = g.playerScores := by
  unfold markDeadIfNeeded; simp only; split_ifs <;> try rfl
  split <;> rfl

@[simp] theorem markDeadIfNeeded_events :
    (markDeadIfNeeded g p).lastAnimationEvents = g.lastAnimationEvents := by
  unfold markDeadIfNeeded; simp only; split_ifs <;> try rfl
  split <;> rfl

@[simp] theorem adjustPlayerScore_rows : (adjustPlayerScore g p d).rows = g.rows := by
  unfold adjustPlayerScore; simp only; split_ifs <;> simp

@[simp] theorem adjustPlayerScore_cols : (adjustPlayerScore g p d).cols = g.cols := by
  unfold adjustPlayerScore; simp only; split_ifs <;> simp

@[simp] theorem adjustPlayerScore_playerCount :
    (adjustPlayerScore g p d).playerCount = g.playerCount := by
  unfold adjustPlayerScore; simp only; split_ifs <;> simp

@[simp] theorem adjustPlayerScore_movesMade :
    (adjustPlayerScore g p d).movesMade = g.movesMade := by
  unfold adjustPlayerScore; simp only; split_ifs <;> simp

@[simp] theorem adjustPlayerScore_grid : (adjustPlayerScore g p d).grid = g.grid := by
  unfold adjustPlayerScore; simp only; split_ifs <;> simp

@[simp] theorem adjustPlayerScore_events :
    (adjustPlayerScore g p d).lastAnimationEvents = g.lastAnimationEvents := by
  unfold adjustPlayerScore; simp only; split_ifs <;> simp

@[simp] theorem adjustPlayerScore_size :
    playerScoresSize (adjustPlayerScore g p d) = playerScoresSize g := by
  simp [playerScoresSize]

theorem adjustPlayerScore_playerScores :
    (adjustPlayerScore g p d).playerScores =
      if p < 0 ∨ p ≥ playerScoresSize g then g.playerScores
      else setAt g.playerScores p (g.playerScores p + d) := by
  unfold adjustPlayerScore; simp only; split_ifs <;> simp

theorem getPlayerScore_adjust (q : Int) :
    getPlayerScore (adjustPlayerScore g p d) q =
      if q = p then getPlayerScore g q + (if p < 0 ∨ p ≥ playerScoresSize g then 0 else d)
      else getPlayerScore g q := by
  unfold getPlayerScore
  rw [adjustPlayerScore_size, adjustPlayerScore_playerScores]
  by_cases hq : q = p
  · subst hq
    by_cases hr : q < 0 ∨ q ≥ playerScoresSize g <;> simp [hr, setAt]
  · by_cases hr : p < 0 ∨ p ≥ playerScoresSize g <;> simp [hr, hq, setAt]

end Frame

@[simp] theorem placeOrb_rows (g : ChainReactionGame) (r c p : Int) :
    (placeOrb g r c p).rows = g.rows := by simp [placeOrb]
@[simp] theorem placeOrb_cols (g : ChainReactionGame) (r c p : Int) :
    (placeOrb g r c p).cols = g.cols := by simp [placeOrb]
@[simp] theorem placeOrb_playerCount (g : ChainReactionGame) (r c p : Int) :
    (placeOrb g r c p).playerCount = g.playerCount := by simp [placeOrb]
@[simp] theorem placeOrb_movesMade (g : ChainReactionGame) (r c p : Int) :
    (placeOrb g r c p).movesMade = g.movesMade := by simp [placeOrb]
@[simp] theorem placeOrb_events (g : ChainReactionGame) (r c p : Int) :
    (placeOrb g r c p).lastAnimationEvents = [] := by simp [placeOrb]
@[simp] theorem placeOrb_grid (g : ChainReactionGame) (r c p : Int) :
    (placeOrb g r c p).grid = setCell g.grid r c ⟨p, (g.grid r c).orbs + 1⟩ := by
  simp [placeOrb]
@[simp] theorem placeOrb_size (g : ChainReactionGame) (r c p : Int) :
    playerScoresSize (placeOrb g r c p) = playerScoresSize g := by
  simp [playerScoresSize]

theorem getCellCapacity_congr (g g' : ChainReactionGame) (r c : Int)
    (h1 : g'.rows = g.rows) (h2 : g'.cols = g.cols) :
    getCellCapacity g' r c = getCellCapacity g r c := by
  simp [getCellCapacity, h1, h2]

theorem getPlayerScore_placeOrb (g : ChainReactionGame) (r c p q : Int) :
    getPlayerScore (placeOrb g r c p) q =
      if q = p then getPlayerScore g q + (if p < 0 ∨ p ≥ playerScoresSize g then 0 else 1)
      else getPlayerScore g q := by
  unfold placeOrb
  simp only
  rw [getPlayerScore_adjust]
  simp [getPlayerScore, playerScoresSize]

/-- When the placed orb does not push the cell over its capacity, `makeMove` is the
placement alone. -/
theorem makeMove_of_stable (fuel : Nat) (g : ChainReactionGame) (r c player : Int)
    (hv : isMoveValid g r c player = true)
    (hcap : (g.grid r c).orbs + 1 ≤ getCellCapacity g r c) :
    makeMove fuel g r c player =
      some (true, { placeOrb g r c player with movesMade := g.movesMade + 1 }) := by
  have hc : getCellCapacity (placeOrb g r c player) r c = getCellCapacity g r c :=
    getCellCapacity_congr _ _ _ _ (by simp) (by simp)
  have hcap' : ¬ ((g.grid r c).orbs + 1 > getCellCapacity g r c) := by omega
  simp [makeMove, hv, hc, setCell, hcap']

/-! ## The cascade: frame lemmas and the loop invariant principle -/

section Feed

variable (r c owner : Int) (g : ChainReactionGame) (nr nc : Int)

@[simp] theorem feedGame_rows : (feedGame r c owner g nr nc).rows = g.rows := by
  unfold feedGame; simp only; split_ifs <;> simp

@[simp] theorem feedGame_cols : (feedGame r c owner g nr nc).cols = g.cols := by
  unfold feedGame; simp only; split_ifs <;> simp

@[simp] theorem feedGame_playerCount :
    (feedGame r c owner g nr nc).playerCount = g.playerCount := by
  unfold feedGame; simp only; split_ifs <;> simp

@[simp] theorem feedGame_movesMade : (feedGame r c owner g nr nc).movesMade = g.movesMade := by
  unfold feedGame; simp only; split_ifs <;> simp

theorem feedGame_grid :
    (feedGame r c owner g nr nc).grid = setCell g.grid nr nc (fedCell owner (g.grid nr nc)) := by
  unfold feedGame fedCell; simp only; split_ifs <;> simp_all

theorem feedGame_events :
    (feedGame r c owner g nr nc).lastAnimationEvents =
      g.lastAnimationEvents ++ [⟨r, c, nr, nc, owner⟩] := by
  unfold feedGame; simp only; split_ifs <;> simp

variable (s : CascadeState) (d : Int × Int)

theorem feedNeighbor_game :
    (feedNeighbor r c owner s d).game =
      if r + d.1 < 0 ∨ r + d.1 ≥ s.game.rows ∨ c + d.2 < 0 ∨ c + d.2 ≥ s.game.cols then s.game
      else feedGame r c owner s.game (r + d.1) (c + d.2) := by
  unfold feedNeighbor; simp only; split_ifs <;> rfl

theorem feedNeighbor_of_oob
    (h : r + d.1 < 0 ∨ r + d.1 ≥ s.game.rows ∨ c + d.2 < 0 ∨ c + d.2 ≥ s.game.cols) :
    feedNeighbor r c owner s d = s := by
  unfold feedNeighbor; simp only [h, if_true]

@[simp] theorem feedNeighbor_rows : (feedNeighbor r c owner s d).game.rows = s.game.rows := by
  rw [feedNeighbor_game]; split_ifs <;> simp

@[simp] theorem feedNeighbor_cols : (feedNeighbor r c owner s d).game.cols = s.game.cols := by
  rw [feedNeighbor_game]; split_ifs <;> simp

@[simp] theorem feedNeighbor_playerCount :
    (feedNeighbor r c owner s d).game.playerCount = s.game.playerCount := by
  rw [feedNeighbor_game]; split_ifs <;> simp

@[simp] theorem feedNeighbor_movesMade :
    (feedNeighbor r c owner s d).game.movesMade = s.game.movesMade := by
  rw [feedNeighbor_game]; split_ifs <;> simp

theorem feedNeighbor_grid :
    (feedNeighbor r c owner s d).game.grid =
      if r + d.1 < 0 ∨ r + d.1 ≥ s.game.rows ∨ c + d.2 < 0 ∨ c + d.2 ≥ s.game.cols then
        s.game.grid
      else setCell s.game.grid (r + d.1) (c + d.2)
        (fedCell owner (s.game.grid (r + d.1) (c + d.2))) := by
  rw [feedNeighbor_game]; split_ifs
  · rfl
  · exact feedGame_grid r c owner s.game _ _

end Feed

theorem foldl_preserves {α β : Type} (P : α → Prop) (f : α → β → α)
    (h : ∀ a b, P a → P (f a b)) : ∀ (l : List β) (a : α), P a → P (l.foldl f a)
  | [], _, ha => ha
  | b :: l, a, ha => foldl_preserves P f h l (f a b) (h a b ha)

theorem cascadeLoop_preserves (P : CascadeState → Prop)
    (hstep : ∀ g pos rest iq, P ⟨g, pos :: rest, iq⟩ →
      P (explodeCell ⟨g, rest, iq⟩ pos.1 pos.2)) :
    ∀ (fuel : Nat) (s s' : CascadeState), P s → cascadeLoop fuel s = some s' → P s' := by
  intro fuel
  induction fuel with
  | zero =>
    intro s s' hs h
    obtain ⟨g, q, iq⟩ := s
    cases q with
    | nil => simp [cascadeLoop] at h; subst h; exact hs
    | cons pos rest => simp [cascadeLoop] at h
  | succ n ih =>
    intro s s' hs h
    obtain ⟨g, q, iq⟩ := s
    cases q with
    | nil => simp [cascadeLoop] at h; subst h; exact hs
    | cons pos rest =>
      simp only [cascadeLoop] at h
      exact ih _ _ (hstep g pos rest iq hs) h

theorem CellsOK_setCell (grid : Int → Int → Cell) (r c : Int) (v : Cell)
    (h : CellsOK grid) (hv : 0 ≤ v.orbs ∧ (v.orbs = 0 ↔ v.owner = -1)) :
    CellsOK (setCell grid r c v) := by
  intro r' c'
  unfold setCell
  split_ifs
  · exact hv
  · exact h r' c'

theorem fedCell_ok (owner : Int) (cell : Cell) (ho : owner ≠ -1)
    (h : 0 ≤ cell.orbs ∧ (cell.orbs = 0 ↔ cell.owner = -1)) :
    0 ≤ (fedCell owner cell).orbs ∧
      ((fedCell owner cell).orbs = 0 ↔ (fedCell owner cell).owner = -1) := by
  unfold fedCell
  split_ifs with h1 h2
  · simp [ho]
  · refine ⟨by simp; omega, ?_⟩
    simp only [h1, iff_false]
    omega
  · refine ⟨by simp; omega, ?_⟩
    simp only [ho, iff_false]
    omega

theorem feedNeighbor_cellsOK (r c owner : Int) (ho : owner ≠ -1) (s : CascadeState)
    (d : Int × Int) (h : CellsOK s.game.grid) :
    CellsOK (feedNeighbor r c owner s d).game.grid := by
  rw [feedNeighbor_grid]
  split_ifs
  · exact h
  · exact CellsOK_setCell _ _ _ _ h (fedCell_ok owner _ ho (h _ _))

theorem explodeCell_cellsOK (s : CascadeState) (r c : Int) (h : CellsOK s.game.grid) :
    CellsOK (explodeCell s r c).game.grid := by
  unfold explodeCell
  simp only
  split_ifs with hc
  · exact h
  · have ho : (s.game.grid r c).owner ≠ -1 := fun h' => hc (Or.inl h')
    refine foldl_preserves (fun t : CascadeState => CellsOK t.game.grid) _ ?_ _ _ ?_
    · intro a b ha
      exact feedNeighbor_cellsOK r c _ ho a b ha
    · simp only [adjustPlayerScore_grid]
      exact CellsOK_setCell _ _ _ _ h (by simp)


/-! ## The safety pass `clampPlayerScores` -/

theorem clampStep_frame (s : ChainReactionGame) (i : Nat) :
    (clampStep s i).rows = s.rows ∧ (clampStep s i).cols = s.cols ∧
    (clampStep s i).playerCount = s.playerCount ∧ (clampStep s i).movesMade = s.movesMade ∧
    (clampStep s i).grid = s.grid ∧
    (clampStep s i).lastAnimationEvents = s.lastAnimationEvents := by
  unfold clampStep; split_ifs <;> simp

theorem clampStep_scores (s : ChainReactionGame) (i : Nat) (q : Int) :
    (clampStep s i).playerScores q =
      if (i : Int) = q ∧ s.playerScores q < 0 then 0 else s.playerScores q := by
  unfold clampStep
  by_cases hq : (i : Int) = q
  · subst hq; split_ifs <;> simp_all [setAt]
  · have hq' : ¬ (q = (i : Int)) := fun h => hq h.symm
    split_ifs <;> simp_all [setAt]

theorem clampFold_frame (l : List Nat) (g : ChainReactionGame) :
    (l.foldl clampStep g).rows = g.rows ∧ (l.foldl clampStep g).cols = g.cols ∧
    (l.foldl clampStep g).playerCount = g.playerCount ∧
    (l.foldl clampStep g).movesMade = g.movesMade ∧
    (l.foldl clampStep g).grid = g.grid ∧
    (l.foldl clampStep g).lastAnimationEvents = g.lastAnimationEvents := by
  induction l generalizing g with
  | nil => simp
  | cons i l ih =>
    simp only [List.foldl_cons]
    obtain ⟨h1, h2, h3, h4, h5, h6⟩ := ih (clampStep g i)
    obtain ⟨k1, k2, k3, k4, k5, k6⟩ := clampStep_frame g i
    exact ⟨h1.trans k1, h2.trans k2, h3.trans k3, h4.trans k4, h5.trans k5, h6.trans k6⟩

theorem clampFold_scores (l : List Nat) (g : ChainReactionGame) (q : Int) :
    (l.foldl clampStep g).playerScores q =
      if (∃ i ∈ l, (i : Int) = q) ∧ g.playerScores q < 0 then 0 else g.playerScores q := by
  induction l generalizing g with
  | nil => simp
  | cons i l ih =>
    simp only [List.foldl_cons, List.mem_cons, exists_eq_or_imp]
    rw [ih, clampStep_scores]
    by_cases hq : (i : Int) = q
    · by_cases hn : g.playerScores q < 0 <;> simp [hq, hn]
    · simp [hq]

theorem recountStep_frame (s : ChainReactionGame) (i : Nat) :
    (recountStep s i).rows = s.rows ∧ (recountStep s i).cols = s.cols ∧
    (recountStep s i).playerCount = s.playerCount ∧
    (recountStep s i).movesMade = s.movesMade ∧
    (recountStep s i).grid = s.grid ∧
    (recountStep s i).lastAnimationEvents = s.lastAnimationEvents ∧
    (recountStep s i).playerScores = s.playerScores := by
  unfold recountStep; split_ifs <;> simp

theorem recountFold_frame (l : List Nat) (g : ChainReactionGame) :
    (l.foldl recountStep g).rows = g.rows ∧ (l.foldl recountStep g).cols = g.cols ∧
    (l.foldl recountStep g).playerCount = g.playerCount ∧
    (l.foldl recountStep g).movesMade = g.movesMade ∧
    (l.foldl recountStep g).grid = g.grid ∧
    (l.foldl recountStep g).lastAnimationEvents = g.lastAnimationEvents ∧
    (l.foldl recountStep g).playerScores = g.playerScores := by
  induction l generalizing g with
  | nil => simp
  | cons i l ih =>
    simp only [List.foldl_cons]
    obtain ⟨h1, h2, h3, h4, h5, h6, h7⟩ := ih (recountStep g i)
    obtain ⟨k1, k2, k3, k4, k5, k6, k7⟩ := recountStep_frame g i
    exact ⟨h1.trans k1, h2.trans k2, h3.trans k3, h4.trans k4, h5.trans k5, h6.trans k6,
      h7.trans k7⟩

theorem clampPlayerScores_frame (g : ChainReactionGame) :
    (clampPlayerScores g).rows = g.rows ∧ (clampPlayerScores g).cols = g.cols ∧
    (clampPlayerScores g).playerCount = g.playerCount ∧
    (clampPlayerScores g).movesMade = g.movesMade ∧
    (clampPlayerScores g).grid = g.grid ∧
    (clampPlayerScores g).lastAnimationEvents = g.lastAnimationEvents := by
  unfold clampPlayerScores recountAlive clampNegative
  obtain ⟨h1, h2, h3, h4, h5, h6, _⟩ := recountFold_frame
    (List.range (playerScoresSize
      (List.foldl clampStep g (List.range (playerScoresSize g).toNat))).toNat)
    { List.foldl clampStep g (List.range (playerScoresSize g).toNat) with
      aliveCount := 0, lastAlivePlayer := -1 }
  obtain ⟨k1, k2, k3, k4, k5, k6⟩ := clampFold_frame (List.range (playerScoresSize g).toNat) g
  exact ⟨h1.trans k1, h2.trans k2, h3.trans k3, h4.trans k4, h5.trans k5, h6.trans k6⟩

theorem clampPlayerScores_scores (g : ChainReactionGame) (q : Int) :
    (clampPlayerScores g).playerScores q =
      if (0 ≤ q ∧ q < playerScoresSize g) ∧ g.playerScores q < 0 then 0
      else g.playerScores q := by
  unfold clampPlayerScores recountAlive
  rw [(recountFold_frame _ _).2.2.2.2.2.2]
  unfold clampNegative
  simp only
  rw [clampFold_scores]
  have : (∃ i ∈ List.range (playerScoresSize g).toNat, (i : Int) = q) ↔
      (0 ≤ q ∧ q < playerScoresSize g) := by
    constructor
    · rintro ⟨i, hi, rfl⟩
      rw [List.mem_range] at hi
      omega
    · rintro ⟨h0, h1⟩
      refine ⟨q.toNat, ?_, ?_⟩
      · rw [List.mem_range]; omega
      · omega
  simp only [this]


/-- A call that fails the validity check returns at once with the state it was given. -/
theorem makeMove_of_invalid (fuel : Nat) (g : ChainReactionGame) (r c player : Int)
    (h : isMoveValid g r c player = false) :
    makeMove fuel g r c player = some (false, g) := by
  simp [makeMove, h]

/-- The three ways a `makeMove` call can return: rejected; accepted without explosion;
accepted with a cascade that ran to completion and was followed by the safety pass. -/
theorem makeMove_cases (fuel : Nat) (g : ChainReactionGame) (r c player : Int) (b : Bool)
    (g' : ChainReactionGame) (h : makeMove fuel g r c player = some (b, g')) :
    (isMoveValid g r c player = false ∧ b = false ∧ g' = g) ∨
    (isMoveValid g r c player = true ∧ b = true ∧
      (g.grid r c).orbs + 1 ≤ getCellCapacity g r c ∧
      g' = { placeOrb g r c player with movesMade := g.movesMade + 1 }) ∨
    (isMoveValid g r c player = true ∧ b = true ∧
      (g.grid r c).orbs + 1 > getCellCapacity g r c ∧
      ∃ s', cascadeLoop fuel
          ⟨placeOrb g r c player, [(r, c)], setAt (fun _ => false) (flatIndex g r c) true⟩ =
            some s' ∧
        g' = { clampPlayerScores s'.game with movesMade := s'.game.movesMade + 1 }) := by
  by_cases hv : isMoveValid g r c player = false
  · rw [makeMove_of_invalid fuel g r c player hv] at h
    simp only [Option.some.injEq, Prod.mk.injEq] at h
    exact Or.inl ⟨hv, h.1.symm, h.2.symm⟩
  · have hv' : isMoveValid g r c player = true := by simpa using hv
    have hc : getCellCapacity (placeOrb g r c player) r c = getCellCapacity g r c :=
      getCellCapacity_congr _ _ _ _ (by simp) (by simp)
    by_cases hcap : (g.grid r c).orbs + 1 ≤ getCellCapacity g r c
    · rw [makeMove_of_stable fuel g r c player hv' hcap] at h
      simp only [Option.some.injEq, Prod.mk.injEq] at h
      exact Or.inr (Or.inl ⟨hv', h.1.symm, hcap, h.2.symm⟩)
    · have hcap' : (g.grid r c).orbs + 1 > getCellCapacity g r c := by omega
      refine Or.inr (Or.inr ?_)
      simp only [makeMove, hv', Bool.true_eq_false, if_false, hc, placeOrb_grid, setCell,
        and_self, if_true, hcap', List.cons_ne_nil, processChainReaction, List.foldl_cons,
        List.foldl_nil] at h
      split at h
      · simp at h
      · rename_i s' hs'
        split at hs'
        · simp at hs'
        · rename_i s'' hs''
          simp only [Option.some.injEq] at hs'
          simp only [Option.some.injEq, Prod.mk.injEq] at h
          refine ⟨hv', h.1.symm, hcap', s'', ?_, ?_⟩
          · rw [← hs'']
            simp [flatIndex]
          · rw [← h.2, ← hs']
            simp [(clampPlayerScores_frame s''.game).2.2.2.1]


/-! ## The cell invariant -/

theorem cascadeLoop_cellsOK (fuel : Nat) (s s' : CascadeState) (h : CellsOK s.game.grid)
    (hl : cascadeLoop fuel s = some s') : CellsOK s'.game.grid :=
  cascadeLoop_preserves (fun t => CellsOK t.game.grid)
    (fun g pos rest iq hg => explodeCell_cellsOK ⟨g, rest, iq⟩ pos.1 pos.2 hg) fuel s s' h hl

theorem makeMove_cellsOK (fuel : Nat) (g : ChainReactionGame) (r c player : Int) (b : Bool)
    (g' : ChainReactionGame) (hp : player ≠ -1) (hg : CellsOK g.grid)
    (h : makeMove fuel g r c player = some (b, g')) : CellsOK g'.grid := by
  have hplace : CellsOK (placeOrb g r c player).grid := by
    rw [placeOrb_grid]
    refine CellsOK_setCell _ _ _ _ hg ⟨?_, ?_⟩
    · have := (hg r c).1; simp only; omega
    · have := (hg r c).1; simp only [hp, iff_false]; omega
  rcases makeMove_cases fuel g r c player b g' h with ⟨_, _, rfl⟩ | ⟨_, _, _, rfl⟩ |
    ⟨_, _, _, s', hs', rfl⟩
  · exact hg
  · exact hplace
  · have := cascadeLoop_cellsOK fuel _ s' hplace hs'
    simp only
    rw [(clampPlayerScores_frame s'.game).2.2.2.2.1]
    exact this

theorem reach_cellsOK (pCount botType rows cols : Int) (n : Nat) (g : ChainReactionGame)
    (h : Reach (fun p => p ≠ -1) (newGame pCount botType rows cols) n g) :
    CellsOK g.grid := by
  induction h with
  | start => intro r c; simp [newGame]
  | accepted fuel r c player _ hp hm ih => exact makeMove_cellsOK fuel _ r c player _ _ hp ih hm
  | rejected fuel r c player _ hp hm ih => exact makeMove_cellsOK fuel _ r c player _ _ hp ih hm

/-- The state after scenario A is reachable by one accepted call of player 0. -/
theorem reach_scenarioA (ok : Int → Prop) (h0 : ok 0) :
    Reach ok (newGame 2 0 3 3) 1 (replay 1 (newGame 2 0 3 3) [(0, 0, 0)]) :=
  Reach.accepted 1 0 0 0 Reach.start h0
    (show makeMove 1 (newGame 2 0 3 3) 0 0 0 =
      some (true, replay 1 (newGame 2 0 3 3) [(0, 0, 0)]) by rfl)

/-- The state after scenarios A and B is reachable by two accepted calls of player 0. -/
theorem reach_scenarioB (ok : Int → Prop) (h0 : ok 0) :
    Reach ok (newGame 2 0 3 3) 2 (replay 1 (newGame 2 0 3 3) [(0, 0, 0), (0, 0, 0)]) :=
  Reach.accepted 1 0 0 0 (reach_scenarioA ok h0) h0
    (show makeMove 1 (replay 1 (newGame 2 0 3 3) [(0, 0, 0)]) 0 0 0 =
      some (true, replay 1 (newGame 2 0 3 3) [(0, 0, 0), (0, 0, 0)]) by rfl)

/-! ## The score invariant -/

theorem sum_setCell (S : Finset (Int × Int)) (grid : Int → Int → Cell) (r c : Int) (v : Cell)
    (w : Cell → Int) (h : (r, c) ∈ S) :
    ∑ x in S, w (setCell grid r c v x.1 x.2) = ∑ x in S, w (grid x.1 x.2) - w (grid r c) + w v := by
  rw [← Finset.add_sum_erase S _ h, ← Finset.add_sum_erase S (fun x => w (grid x.1 x.2)) h]
  have : ∑ x in S.erase (r, c), w (setCell grid r c v x.1 x.2) =
      ∑ x in S.erase (r, c), w (grid x.1 x.2) := by
    apply Finset.sum_congr rfl
    intro x hx
    have hne : x ≠ (r, c) := Finset.ne_of_mem_erase hx
    have : ¬ (x.1 = r ∧ x.2 = c) := fun h' => hne (Prod.ext h'.1 h'.2)
    simp [setCell, this]
  rw [this]
  simp [setCell]
  ring

theorem getPlayerScore_congr (g g' : ChainReactionGame) (p : Int)
    (h1 : g'.playerCount = g.playerCount) (h2 : g'.playerScores = g.playerScores) :
    getPlayerScore g' p = getPlayerScore g p := by
  simp [getPlayerScore, playerScoresSize, h1, h2]

theorem playerScoresSize_congr (g g' : ChainReactionGame)
    (h1 : g'.playerCount = g.playerCount) : playerScoresSize g' = playerScoresSize g := by
  simp [playerScoresSize, h1]

/-- The accounting step: when one in-bounds cell is overwritten and every score moves by the
difference of what the old and the new cell count for that player, `ScoresOK` is kept. -/
theorem scoresOK_update (g g' : ChainReactionGame) (r c : Int) (v : Cell) (hg : ScoresOK g)
    (hb : InBounds g r c) (hv : CellFine g v)
    (hrows : g'.rows = g.rows) (hcols : g'.cols = g.cols)
    (hpc : g'.playerCount = g.playerCount) (hgrid : g'.grid = setCell g.grid r c v)
    (hsc : ∀ p, 0 ≤ p → p < playerScoresSize g →
      getPlayerScore g' p = getPlayerScore g p - orbsFor p (g.grid r c) + orbsFor p v) :
    ScoresOK g' := by
  have hsz : playerScoresSize g' = playerScoresSize g := playerScoresSize_congr g g' hpc
  refine ⟨?_, ?_⟩
  · intro r' c' hb'
    have hb'' : InBounds g r' c' := by
      unfold InBounds at hb' ⊢; rw [hrows, hcols] at hb'; exact hb'
    unfold CellFine
    rw [hsz, hgrid]
    unfold setCell
    split_ifs
    · exact hv
    · exact hg.1 r' c' hb''
  · intro p hp0 hp1
    rw [hsz] at hp1
    rw [hsc p hp0 hp1, hg.2 p hp0 hp1]
    unfold ownedOrbs
    rw [hrows, hcols, hgrid]
    rw [sum_setCell _ _ _ _ _ (orbsFor p)]
    simp only [Finset.mem_product, Finset.mem_Ico]
    exact ⟨⟨hb.1, hb.2.1⟩, hb.2.2.1, hb.2.2.2⟩


theorem getPlayerScore_feedGame (r c owner : Int) (g : ChainReactionGame) (nr nc p : Int)
    (ho : 0 ≤ owner ∧ owner < playerScoresSize g)
    (hold : CellFine g (g.grid nr nc)) (hp : 0 ≤ p) :
    getPlayerScore (feedGame r c owner g nr nc) p =
      getPlayerScore g p - orbsFor p (g.grid nr nc) +
        orbsFor p (fedCell owner (g.grid nr nc)) := by
  have hor : ¬ (owner < 0 ∨ owner ≥ playerScoresSize g) := by omega
  obtain ⟨h0, h1, h2⟩ := hold
  have hbase : ∀ (ev : List OrbAnimationEvent) (gr : Int → Int → Cell) (q : Int),
      getPlayerScore { g with lastAnimationEvents := ev, grid := gr } q = getPlayerScore g q :=
    fun _ _ _ => rfl
  have hsz : ∀ (ev : List OrbAnimationEvent) (gr : Int → Int → Cell),
      playerScoresSize { g with lastAnimationEvents := ev, grid := gr } = playerScoresSize g :=
    fun _ _ => rfl
  unfold feedGame fedCell orbsFor
  simp only
  by_cases hprev : (g.grid nr nc).owner = -1
  · have hp' : ¬ ((-1 : Int) = p) := by omega
    simp only [hprev, if_true, hp', if_false]
    rw [getPlayerScore_adjust, hbase, hsz]
    simp only [hor, if_false]
    by_cases hpo : p = owner
    · subst hpo; simp
    · have : ¬ (owner = p) := fun h => hpo h.symm
      simp [hpo, this]
  · have hrange : 0 ≤ (g.grid nr nc).owner ∧ (g.grid nr nc).owner < playerScoresSize g := by
      rcases h2 with h2 | h2
      · exact absurd h2 hprev
      · exact h2
    have hpr : ¬ ((g.grid nr nc).owner < 0 ∨ (g.grid nr nc).owner ≥ playerScoresSize g) := by
      omega
    simp only [hprev, if_false]
    by_cases hsame : (g.grid nr nc).owner = owner
    · simp only [hsame, if_true]
      rw [getPlayerScore_adjust, hbase, hsz]
      simp only [hor, if_false]
      by_cases hpo : p = owner
      · subst hpo; simp; ring
      · have : ¬ (owner = p) := fun h => hpo h.symm
        simp [hpo, this]
    · simp only [hsame, if_false]
      rw [getPlayerScore_adjust, adjustPlayerScore_size, getPlayerScore_adjust, hbase, hsz]
      simp only [hor, hpr, if_false]
      by_cases hpo : p = owner
      · subst hpo
        have : ¬ (p = (g.grid nr nc).owner) := fun h => hsame h.symm
        simp [this, hsame]
      · have hpo' : ¬ (owner = p) := fun h => hpo h.symm
        by_cases hpp : p = (g.grid nr nc).owner
        · have hso : ¬ (owner = (g.grid nr nc).owner) := fun h => hsame h.symm
          subst hpp
          simp [hsame, hso]; ring
        · have : ¬ ((g.grid nr nc).owner = p) := fun h => hpp h.symm
          simp [hpo, hpo', hpp, this]

theorem fedCell_fine (g : ChainReactionGame) (owner : Int) (cell : Cell)
    (ho : 0 ≤ owner ∧ owner < playerScoresSize g) (h : CellFine g cell) :
    CellFine g (fedCell owner cell) := by
  obtain ⟨h0, h1, h2⟩ := h
  unfold fedCell CellFine
  split_ifs with ha hb
  · refine ⟨by simp, ?_, Or.inr ho⟩
    intro h; simp only at h; omega
  · refine ⟨by simp only; omega, fun h => absurd h ha, h2⟩
  · refine ⟨by simp only; omega, ?_, Or.inr ho⟩
    intro h; simp only at h; omega

theorem feedGame_scoresOK (r c owner : Int) (g : ChainReactionGame) (nr nc : Int)
    (ho : 0 ≤ owner ∧ owner < playerScoresSize g) (hb : InBounds g nr nc)
    (hg : ScoresOK g) : ScoresOK (feedGame r c owner g nr nc) :=
  scoresOK_update g _ nr nc (fedCell owner (g.grid nr nc)) hg hb
    (fedCell_fine g owner _ ho (hg.1 nr nc hb)) (by simp) (by simp) (by simp)
    (feedGame_grid r c owner g nr nc)
    (fun p hp0 _ => getPlayerScore_feedGame r c owner g nr nc p ho (hg.1 nr nc hb) hp0)

theorem feedNeighbor_q (r c owner : Int) (s : CascadeState) (d : Int × Int) :
    ∀ pos ∈ (feedNeighbor r c owner s d).q,
      pos ∈ s.q ∨ (pos = (r + d.1, c + d.2) ∧ InBounds s.game (r + d.1) (c + d.2)) := by
  intro pos hpos
  unfold feedNeighbor at hpos
  simp only at hpos
  split_ifs at hpos with h1 h2
  · exact Or.inl hpos
  · simp only [List.mem_append, List.mem_singleton] at hpos
    rcases hpos with h | h
    · exact Or.inl h
    · exact Or.inr ⟨h, by unfold InBounds; omega⟩
  · exact Or.inl hpos

theorem feedNeighbor_cascadeOK (r c owner : Int) (s : CascadeState) (d : Int × Int)
    (ho : 0 ≤ owner ∧ owner < playerScoresSize s.game) (hs : CascadeOK s) :
    CascadeOK (feedNeighbor r c owner s d) := by
  refine ⟨?_, ?_⟩
  · rw [feedNeighbor_game]
    split_ifs with h
    · exact hs.1
    · exact feedGame_scoresOK r c owner s.game _ _ ho (by unfold InBounds; omega) hs.1
  · intro pos hpos
    have hin : ∀ a b, InBounds s.game a b → InBounds (feedNeighbor r c owner s d).game a b := by
      intro a b hab; unfold InBounds at hab ⊢; simpa using hab
    rcases feedNeighbor_q r c owner s d pos hpos with h | ⟨h, hb⟩
    · exact hin _ _ (hs.2 pos h)
    · rw [h]; exact hin _ _ hb


theorem ownedOrbs_nonneg (g : ChainReactionGame) (p : Int) (hg : ScoresOK g) :
    0 ≤ ownedOrbs g p := by
  unfold ownedOrbs
  apply Finset.sum_nonneg
  intro x hx
  simp only [Finset.mem_product, Finset.mem_Ico] at hx
  have := (hg.1 x.1 x.2 ⟨hx.1.1, hx.1.2, hx.2.1, hx.2.2⟩).1
  unfold orbsFor
  split_ifs <;> omega

theorem explodeCell_cascadeOK (s : CascadeState) (r c : Int) (hb : InBounds s.game r c)
    (hs : CascadeOK s) : CascadeOK (explodeCell s r c) := by
  unfold explodeCell
  simp only
  split_ifs with hc
  · exact hs
  · have hne : (s.game.grid r c).owner ≠ -1 := fun h' => hc (Or.inl h')
    obtain ⟨hf0, hf1, hf2⟩ := hs.1.1 r c hb
    have ho : 0 ≤ (s.game.grid r c).owner ∧ (s.game.grid r c).owner < playerScoresSize s.game := by
      rcases hf2 with h | h
      · exact absurd h hne
      · exact h
    have hor : ¬ ((s.game.grid r c).owner < 0 ∨
        (s.game.grid r c).owner ≥ playerScoresSize s.game) := by omega
    refine foldl_preserves
      (fun t : CascadeState => CascadeOK t ∧ playerScoresSize t.game = playerScoresSize s.game)
      _ ?_ _ _ ?_ |>.1
    · intro a b ⟨ha, hsz⟩
      refine ⟨feedNeighbor_cascadeOK r c _ a b (by rw [hsz]; exact ho) ha, ?_⟩
      rw [← hsz]
      exact playerScoresSize_congr _ _ (by simp)
    · refine ⟨⟨?_, ?_⟩, ?_⟩
      · refine scoresOK_update s.game _ r c ⟨-1, 0⟩ hs.1 hb ?_ (by simp) (by simp) (by simp)
          (by simp) ?_
        · exact ⟨le_refl _, fun _ => rfl, Or.inl rfl⟩
        · intro p hp0 hp1
          have hp' : ¬ ((-1 : Int) = p) := by omega
          have hbase : ∀ (g0 : ChainReactionGame) (gr : Int → Int → Cell),
              getPlayerScore { g0 with grid := gr } p = getPlayerScore g0 p := fun _ _ => rfl
          simp only
          rw [hbase, getPlayerScore_adjust]
          unfold orbsFor
          simp only [hor, if_false, hp', if_false]
          by_cases hpo : p = (s.game.grid r c).owner
          · simp [hpo]; ring
          · have : ¬ ((s.game.grid r c).owner = p) := fun h => hpo h.symm
            simp [hpo, this]
      · intro pos hpos
        have := hs.2 pos hpos
        unfold InBounds at this ⊢
        simpa using this
      · exact playerScoresSize_congr _ _ (by simp)

theorem cascadeLoop_cascadeOK (fuel : Nat) (s s' : CascadeState) (h : CascadeOK s)
    (hl : cascadeLoop fuel s = some s') : CascadeOK s' := by
  refine cascadeLoop_preserves CascadeOK ?_ fuel s s' h hl
  intro g pos rest iq hg
  refine explodeCell_cascadeOK ⟨g, rest, iq⟩ pos.1 pos.2 ?_ ⟨hg.1, ?_⟩
  · exact hg.2 pos (List.mem_cons_self _ _)
  · intro x hx
    exact hg.2 x (List.mem_cons_of_mem _ hx)


theorem clampPlayerScores_scoresOK (g : ChainReactionGame) (hg : ScoresOK g) :
    ScoresOK (clampPlayerScores g) := by
  obtain ⟨h1, h2, h3, _, h5, _⟩ := clampPlayerScores_frame g
  have hsz : playerScoresSize (clampPlayerScores g) = playerScoresSize g :=
    playerScoresSize_congr _ _ h3
  refine ⟨?_, ?_⟩
  · intro r c hb
    unfold InBounds at hb
    rw [h1, h2] at hb
    have := hg.1 r c hb
    unfold CellFine at this ⊢
    rw [hsz, h5]
    exact this
  · intro p hp0 hp1
    rw [hsz] at hp1
    have hown : ownedOrbs (clampPlayerScores g) p = ownedOrbs g p := by
      unfold ownedOrbs; rw [h1, h2, h5]
    have hnn : 0 ≤ g.playerScores p := by
      have := hg.2 p hp0 hp1
      have hr : ¬ (p < 0 ∨ p ≥ playerScoresSize g) := by omega
      simp only [getPlayerScore, hr, if_false] at this
      rw [this]
      exact ownedOrbs_nonneg g p hg
    have hr : ¬ (p < 0 ∨ p ≥ playerScoresSize g) := by omega
    have hlt : ¬ (g.playerScores p < 0) := by omega
    rw [hown, ← hg.2 p hp0 hp1]
    simp only [getPlayerScore, hsz, hr, if_false, clampPlayerScores_scores, hlt, and_false]

theorem placeOrb_scoresOK (g : ChainReactionGame) (r c player : Int)
    (hp : 0 ≤ player ∧ player < g.playerCount) (hv : isMoveValid g r c player = true)
    (hg : ScoresOK g) : ScoresOK (placeOrb g r c player) := by
  have hb : InBounds g r c := by
    unfold isMoveValid at hv
    unfold InBounds
    by_contra hcon
    have : r < 0 ∨ r ≥ g.rows ∨ c < 0 ∨ c ≥ g.cols := by omega
    simp [this] at hv
  have hown : (g.grid r c).owner = -1 ∨ (g.grid r c).owner = player := by
    unfold isMoveValid at hv
    have : ¬ (r < 0 ∨ r ≥ g.rows ∨ c < 0 ∨ c ≥ g.cols) := by
      unfold InBounds at hb; omega
    simpa [this] using hv
  have hsz : 0 ≤ player ∧ player < playerScoresSize g := by
    unfold playerScoresSize; split_ifs <;> omega
  have hor : ¬ (player < 0 ∨ player ≥ playerScoresSize g) := by omega
  obtain ⟨hf0, hf1, hf2⟩ := hg.1 r c hb
  refine scoresOK_update g _ r c ⟨player, (g.grid r c).orbs + 1⟩ hg hb ?_ (by simp) (by simp)
    (by simp) (by simp) ?_
  · refine ⟨by simp only; omega, ?_, Or.inr hsz⟩
    intro h; simp only at h; omega
  · intro p hp0 hp1
    rw [getPlayerScore_placeOrb]
    unfold orbsFor
    simp only [hor, if_false]
    rcases hown with h | h
    · have hp' : ¬ ((-1 : Int) = p) := by omega
      have h0 := hf1 h
      by_cases hpo : p = player
      · simp [hpo, h, h0]
      · have : ¬ (player = p) := fun h => hpo h.symm
        simp [hpo, this, h, hp']
    · by_cases hpo : p = player
      · simp [hpo, h]; ring
      · have : ¬ (player = p) := fun h => hpo h.symm
        simp [hpo, this, h]

theorem makeMove_scoresOK (fuel : Nat) (g : ChainReactionGame) (r c player : Int) (b : Bool)
    (g' : ChainReactionGame) (hp : 0 ≤ player ∧ player < g.playerCount) (hg : ScoresOK g)
    (h : makeMove fuel g r c player = some (b, g')) : ScoresOK g' := by
  have hmoves : ∀ (g0 : ChainReactionGame) (m : Int), ScoresOK g0 →
      ScoresOK { g0 with movesMade := m } := fun g0 m h0 => h0
  rcases makeMove_cases fuel g r c player b g' h with ⟨_, _, rfl⟩ | ⟨hv, _, _, rfl⟩ |
    ⟨hv, _, _, s', hs', rfl⟩
  · exact hg
  · exact hmoves _ _ (placeOrb_scoresOK g r c player hp hv hg)
  · have hplace := placeOrb_scoresOK g r c player hp hv hg
    have hb : InBounds (placeOrb g r c player) r c := by
      unfold isMoveValid at hv
      unfold InBounds
      simp only [placeOrb_rows, placeOrb_cols]
      by_contra hcon
      have : r < 0 ∨ r ≥ g.rows ∨ c < 0 ∨ c ≥ g.cols := by omega
      simp [this] at hv
    have hstart : CascadeOK
        ⟨placeOrb g r c player, [(r, c)], setAt (fun _ => false) (flatIndex g r c) true⟩ := by
      refine ⟨hplace, ?_⟩
      intro pos hpos
      simp only [List.mem_singleton] at hpos
      subst hpos
      exact hb
    have := cascadeLoop_cascadeOK fuel _ s' hstart hs'
    exact hmoves _ _ (clampPlayerScores_scoresOK _ this.1)

theorem newGame_scoresOK (pCount botType rows cols : Int) :
    ScoresOK (newGame pCount botType rows cols) := by
  refine ⟨?_, ?_⟩
  · intro r c _
    exact ⟨le_refl _, fun _ => rfl, Or.inl rfl⟩
  · intro p hp0 hp1
    have hr : ¬ (p < 0 ∨ p ≥ playerScoresSize (newGame pCount botType rows cols)) := by omega
    simp only [getPlayerScore, hr, if_false]
    unfold ownedOrbs
    simp [newGame, orbsFor]

theorem SameFrame.trans {a b c : ChainReactionGame} (h1 : SameFrame a b)
    (h2 : SameFrame b c) : SameFrame a c :=
  ⟨h2.1.trans h1.1, h2.2.1.trans h1.2.1, h2.2.2.1.trans h1.2.2.1, h2.2.2.2.trans h1.2.2.2⟩

theorem explodeCell_sameFrame (s : CascadeState) (r c : Int) :
    SameFrame s.game (explodeCell s r c).game := by
  unfold explodeCell
  simp only
  split_ifs with hc
  · exact ⟨rfl, rfl, rfl, rfl⟩
  · refine foldl_preserves (fun t : CascadeState => SameFrame s.game t.game) _ ?_ _ _ ?_
    · intro a b ha
      exact ha.trans ⟨by simp, by simp, by simp, by simp⟩
    · exact ⟨by simp, by simp, by simp, by simp⟩

theorem cascadeLoop_sameFrame (fuel : Nat) (s s' : CascadeState)
    (hl : cascadeLoop fuel s = some s') : SameFrame s.game s'.game := by
  refine cascadeLoop_preserves (fun t => SameFrame s.game t.game) ?_ fuel s s'
    ⟨rfl, rfl, rfl, rfl⟩ hl
  intro g pos rest iq hg
  exact SameFrame.trans hg (explodeCell_sameFrame ⟨g, rest, iq⟩ pos.1 pos.2)

/-- A returning `makeMove` call keeps the dimensions and the player count, and moves the
move counter by one exactly when it returns `true`. -/
theorem makeMove_frame (fuel : Nat) (g : ChainReactionGame) (r c player : Int) (b : Bool)
    (g' : ChainReactionGame) (h : makeMove fuel g r c player = some (b, g')) :
    g'.rows = g.rows ∧ g'.cols = g.cols ∧ g'.playerCount = g.playerCount ∧
      g'.movesMade = g.movesMade + (if b then 1 else 0) := by
  rcases makeMove_cases fuel g r c player b g' h with ⟨_, rfl, rfl⟩ | ⟨_, rfl, _, rfl⟩ |
    ⟨_, rfl, _, s', hs', rfl⟩
  · simp
  · simp
  · obtain ⟨h1, h2, h3, h4⟩ := cascadeLoop_sameFrame fuel _ s' hs'
    obtain ⟨k1, k2, k3, _, _, _⟩ := clampPlayerScores_frame s'.game
    simp only [placeOrb_rows, placeOrb_cols, placeOrb_playerCount, placeOrb_movesMade] at h1 h2 h3 h4
    simp [k1, k2, k3, h1, h2, h3, h4]

theorem reach_frame (ok : Int → Prop) (g0 : ChainReactionGame) (n : Nat)
    (g : ChainReactionGame) (h : Reach ok g0 n g) :
    g.rows = g0.rows ∧ g.cols = g0.cols ∧ g.playerCount = g0.playerCount ∧
      g.movesMade = g0.movesMade + (n : Int) := by
  induction h with
  | start => simp
  | accepted fuel r c player _ _ hm ih =>
    obtain ⟨h1, h2, h3, h4⟩ := makeMove_frame fuel _ r c player _ _ hm
    obtain ⟨i1, i2, i3, i4⟩ := ih
    refine ⟨h1.trans i1, h2.trans i2, h3.trans i3, ?_⟩
    rw [h4, i4]; push_cast; simp; ring
  | rejected fuel r c player _ _ hm ih =>
    obtain ⟨h1, h2, h3, h4⟩ := makeMove_frame fuel _ r c player _ _ hm
    obtain ⟨i1, i2, i3, i4⟩ := ih
    refine ⟨h1.trans i1, h2.trans i2, h3.trans i3, ?_⟩
    rw [h4, i4]; simp

theorem reach_playerCount (ok : Int → Prop) (g0 : ChainReactionGame) (n : Nat)
    (g : ChainReactionGame) (h : Reach ok g0 n g) : g.playerCount = g0.playerCount :=
  (reach_frame ok g0 n g h).2.2.1

theorem reach_scoresOK (pCount botType rows cols : Int) (n : Nat) (g : ChainReactionGame)
    (h : Reach (fun p => 0 ≤ p ∧ p < pCount) (newGame pCount botType rows cols) n g) :
    ScoresOK g := by
  induction h with
  | start => exact newGame_scoresOK pCount botType rows cols
  | accepted fuel r c player hr hp hm ih =>
    have hpc := reach_playerCount _ _ _ _ hr
    exact makeMove_scoresOK fuel _ r c player _ _ (by rw [hpc]; exact hp) ih hm
  | rejected fuel r c player hr hp hm ih =>
    have hpc := reach_playerCount _ _ _ _ hr
    exact makeMove_scoresOK fuel _ r c player _ _ (by rw [hpc]; exact hp) ih hm


/-! ## The alive bookkeeping -/

theorem mem_positivePlayers (g : ChainReactionGame) (q : Int) :
    q ∈ positivePlayers g ↔ (0 ≤ q ∧ q < playerScoresSize g) ∧ g.playerScores q > 0 := by
  simp [positivePlayers]

theorem playerScoresSize_nonneg (g : ChainReactionGame) : 0 ≤ playerScoresSize g := by
  unfold playerScoresSize; split_ifs <;> omega

theorem positiveBelow_succ (g : ChainReactionGame) (k : Nat) :
    positiveBelow g (k + 1) =
      if g.playerScores (k : Int) > 0 then insert (k : Int) (positiveBelow g k)
      else positiveBelow g k := by
  ext q
  unfold positiveBelow
  split_ifs with h
  · simp only [Finset.mem_filter, Finset.mem_Ico, Finset.mem_insert, Nat.cast_add, Nat.cast_one]
    constructor
    · rintro ⟨⟨h0, h1⟩, h2⟩
      by_cases hq : q = (k : Int)
      · exact Or.inl hq
      · exact Or.inr ⟨⟨h0, by omega⟩, h2⟩
    · rintro (hq | ⟨⟨h0, h1⟩, h2⟩)
      · subst hq; exact ⟨⟨by omega, by omega⟩, h⟩
      · exact ⟨⟨h0, by omega⟩, h2⟩
  · simp only [Finset.mem_filter, Finset.mem_Ico, Nat.cast_add, Nat.cast_one]
    constructor
    · rintro ⟨⟨h0, h1⟩, h2⟩
      have hq : q ≠ (k : Int) := fun hq => h (hq ▸ h2)
      exact ⟨⟨h0, by omega⟩, h2⟩
    · rintro ⟨⟨h0, h1⟩, h2⟩
      exact ⟨⟨h0, by omega⟩, h2⟩

theorem not_mem_positiveBelow (g : ChainReactionGame) (k : Nat) :
    (k : Int) ∉ positiveBelow g k := by
  simp [positiveBelow]

theorem recountFold_alive (g : ChainReactionGame) (k : Nat) :
    let s := (List.range k).foldl recountStep { g with aliveCount := 0, lastAlivePlayer := -1 }
    (∀ q, 0 ≤ q → q < (k : Int) → (s.alive q = true ↔ g.playerScores q > 0)) ∧
      s.aliveCount = ((positiveBelow g k).card : Int) ∧
      (1 ≤ s.aliveCount → s.lastAlivePlayer ∈ positiveBelow g k) := by
  induction k with
  | zero =>
    simp only [List.range_zero, List.foldl_nil]
    refine ⟨fun q h0 h1 => by simp at h1; omega, by simp [positiveBelow], fun h => by simp at h⟩
  | succ k ih =>
    simp only [List.range_succ, List.foldl_append, List.foldl_cons, List.foldl_nil]
    simp only at ih
    have hsc := (recountFold_frame (List.range k)
      { g with aliveCount := 0, lastAlivePlayer := -1 }).2.2.2.2.2.2
    simp only at hsc
    generalize (List.range k).foldl recountStep
      { g with aliveCount := 0, lastAlivePlayer := -1 } = s at ih hsc
    obtain ⟨h1, h2, h3⟩ := ih
    rw [positiveBelow_succ]
    unfold recountStep
    rw [hsc]
    by_cases hk : g.playerScores (k : Int) > 0
    · simp only [hk, if_true]
      refine ⟨?_, ?_, ?_⟩
      · intro q h0 hq
        by_cases hqk : q = (k : Int)
        · subst hqk; simp [setAt, hk]
        · simp only [setAt, hqk, if_false]
          exact h1 q h0 (by push_cast at hq; omega)
      · rw [Finset.card_insert_of_not_mem (not_mem_positiveBelow g k), h2]
        push_cast; ring
      · intro _
        exact Finset.mem_insert_self _ _
    · simp only [hk, if_false]
      refine ⟨?_, h2, h3⟩
      intro q h0 hq
      by_cases hqk : q = (k : Int)
      · subst hqk; simp [setAt, hk]
      · simp only [setAt, hqk, if_false]
        exact h1 q h0 (by push_cast at hq; omega)

theorem recountAlive_aliveOK (g : ChainReactionGame) : AliveOK (recountAlive g) := by
  have hfr := recountFold_frame (List.range (playerScoresSize g).toNat)
    { g with aliveCount := 0, lastAlivePlayer := -1 }
  have hal := recountFold_alive g (playerScoresSize g).toNat
  simp only at hal hfr
  obtain ⟨_, _, hpc, _, _, _, hsc⟩ := hfr
  obtain ⟨h1, h2, h3⟩ := hal
  have hnn := playerScoresSize_nonneg g
  have hcast : (((playerScoresSize g).toNat : Nat) : Int) = playerScoresSize g := by omega
  have hsz : playerScoresSize (recountAlive g) = playerScoresSize g :=
    playerScoresSize_congr _ _ hpc
  have hpos : positivePlayers (recountAlive g) = positiveBelow g (playerScoresSize g).toNat := by
    unfold positivePlayers positiveBelow
    rw [hsz, hcast]
    unfold recountAlive
    rw [hsc]
  refine ⟨?_, ?_, ?_⟩
  · intro p hp0 hp1
    rw [hsz] at hp1
    unfold recountAlive
    rw [hsc]
    exact h1 p hp0 (by omega)
  · rw [hpos]; exact h2
  · intro hone
    rw [hpos]
    exact h3 (by unfold recountAlive at hone; omega)

theorem clampPlayerScores_aliveOK (g : ChainReactionGame) : AliveOK (clampPlayerScores g) :=
  recountAlive_aliveOK _

theorem positivePlayers_setAt_nonpos (g : ChainReactionGame) (p v : Int) (hv : v ≤ 0) :
    positivePlayers { g with playerScores := setAt g.playerScores p v } =
      (positivePlayers g).erase p := by
  ext q
  simp only [mem_positivePlayers, Finset.mem_erase]
  have hsz : playerScoresSize { g with playerScores := setAt g.playerScores p v } =
      playerScoresSize g := rfl
  rw [hsz]
  by_cases hq : q = p
  · subst hq; simp [setAt]; omega
  · simp [setAt, hq]

theorem positivePlayers_setAt_pos (g : ChainReactionGame) (p v : Int) (hv : 0 < v)
    (hp : 0 ≤ p ∧ p < playerScoresSize g) :
    positivePlayers { g with playerScores := setAt g.playerScores p v } =
      insert p (positivePlayers g) := by
  ext q
  simp only [mem_positivePlayers, Finset.mem_insert]
  have hsz : playerScoresSize { g with playerScores := setAt g.playerScores p v } =
      playerScoresSize g := rfl
  rw [hsz]
  by_cases hq : q = p
  · subst hq; simp [setAt]; omega
  · simp [setAt, hq]

theorem firstAlive_some (g : ChainReactionGame) (q : Nat) (h : firstAlive g = some q) :
    (0 ≤ (q : Int) ∧ (q : Int) < playerScoresSize g) ∧ g.alive (q : Int) = true := by
  unfold firstAlive at h
  have h1 := List.find?_some h
  have h2 := List.mem_of_find?_eq_some h
  rw [List.mem_range] at h2
  refine ⟨⟨by omega, ?_⟩, h1⟩
  have : (q : Int) < min g.playerCount (playerScoresSize g) := by omega
  omega

theorem firstAlive_ne_none (g : ChainReactionGame) (q : Int)
    (hq : 0 ≤ q ∧ q < playerScoresSize g) (ha : g.alive q = true) : firstAlive g ≠ none := by
  unfold firstAlive
  intro h
  rw [List.find?_eq_none] at h
  have hmin : min g.playerCount (playerScoresSize g) = playerScoresSize g := by
    unfold playerScoresSize at hq ⊢
    split_ifs at hq ⊢ <;> omega
  have := h q.toNat (by rw [List.mem_range, hmin]; omega)
  have hc : ((q.toNat : Nat) : Int) = q := by omega
  rw [hc] at this
  exact this ha

theorem adjustPlayerScore_aliveOK (g : ChainReactionGame) (p d : Int) (hg : AliveOK g) :
    AliveOK (adjustPlayerScore g p d) := by
  obtain ⟨h1, h2, h3⟩ := hg
  unfold adjustPlayerScore
  by_cases hr : p < 0 ∨ p ≥ playerScoresSize g
  · simp only [hr, if_true]; exact ⟨h1, h2, h3⟩
  · simp only [hr, if_false]
    have hp : 0 ≤ p ∧ p < playerScoresSize g := by omega
    have hnew : setAt g.playerScores p (g.playerScores p + d) p = g.playerScores p + d := by
      simp [setAt]
    have hmem : p ∈ positivePlayers g ↔ g.alive p = true := by
      rw [mem_positivePlayers, h1 p hp.1 hp.2]
      exact ⟨fun h => h.2, fun h => ⟨hp, h⟩⟩
    have hszf : ∀ (al : Int → Bool) (ac la : Int),
        playerScoresSize { g with playerScores := setAt g.playerScores p (g.playerScores p + d),
                                  alive := al, aliveCount := ac, lastAlivePlayer := la } =
          playerScoresSize g := fun _ _ _ => rfl
    have hother : ∀ q, q ≠ p → ∀ v : Bool, 0 ≤ q → q < playerScoresSize g →
        (setAt g.alive p v q = true ↔
          setAt g.playerScores p (g.playerScores p + d) q > 0) := by
      intro q hqp v hq0 hq1
      simp only [setAt, hqp, if_false]; exact h1 q hq0 hq1
    simp only [hnew]
    by_cases hle : g.playerScores p + d ≤ 0
    · simp only [hle, if_true]
      have hS : ∀ (al : Int → Bool) (ac la : Int),
          positivePlayers { g with playerScores := setAt g.playerScores p (g.playerScores p + d),
                                   alive := al, aliveCount := ac, lastAlivePlayer := la } =
            (positivePlayers g).erase p :=
        fun _ _ _ => positivePlayers_setAt_nonpos g p _ hle
      unfold markDeadIfNeeded
      have hr' : ¬ (p < 0 ∨ p ≥ playerScoresSize
          { g with playerScores := setAt g.playerScores p (g.playerScores p + d) }) := hr
      simp only [hr', if_false, hnew, hle, and_true]
      by_cases ha : g.alive p = true
      · simp only [ha, if_true]
        have hpS : p ∈ positivePlayers g := hmem.2 ha
        have hcard : (((positivePlayers g).erase p).card : Int) = g.aliveCount - 1 := by
          rw [Finset.card_erase_of_mem hpS, h2]
          have := Finset.card_pos.2 ⟨p, hpS⟩
          omega
        have hflags : ∀ q, 0 ≤ q → q < playerScoresSize g →
            (setAt g.alive p false q = true ↔
              setAt g.playerScores p (g.playerScores p + d) q > 0) := by
          intro q hq0 hq1
          by_cases hqp : q = p
          · subst hqp; simp [setAt]; omega
          · exact hother q hqp false hq0 hq1
        split_ifs with hone hzero
        · have hex : ∃ q, q ∈ (positivePlayers g).erase p := by
            apply Finset.card_pos.1
            have : (((positivePlayers g).erase p).card : Int) = 1 := by rw [hcard]; exact hone
            omega
          obtain ⟨q, hq⟩ := hex
          rw [Finset.mem_erase, mem_positivePlayers] at hq
          have hqa : setAt g.alive p false q = true :=
            (hother q hq.1 false hq.2.1.1 hq.2.1.2).2 (by simp only [setAt, hq.1, if_false]; exact hq.2.2)
          split
          · rename_i q' hq'
            obtain ⟨hq'r, hq'a⟩ := firstAlive_some _ _ hq'
            rw [hszf] at hq'r
            refine ⟨?_, ?_, ?_⟩
            · rw [hszf]; exact hflags
            · rw [hS]; exact hcard.symm
            · intro _
              rw [hS, Finset.mem_erase, mem_positivePlayers]
              have hne : (q' : Int) ≠ p := by
                intro h
                have : setAt g.alive p false (q' : Int) = true := hq'a
                simp [setAt, h] at this
              have hal : g.alive (q' : Int) = true := by
                have : setAt g.alive p false (q' : Int) = true := hq'a
                simpa only [setAt, hne, if_false] using this
              exact ⟨hne, hq'r, (h1 _ hq'r.1 hq'r.2).1 hal⟩
          · rename_i hnone
            exact absurd hnone (firstAlive_ne_none _ q (by rw [hszf]; exact hq.2.1) hqa)
        · refine ⟨?_, ?_, ?_⟩
          · rw [hszf]; exact hflags
          · rw [hS]; exact hcard.symm
          · intro h; exact absurd h hone
        · refine ⟨?_, ?_, ?_⟩
          · rw [hszf]; exact hflags
          · rw [hS]; exact hcard.symm
          · intro h; exact absurd h hone
      · simp only [ha, if_false, Bool.false_eq_true]
        have hpS : p ∉ positivePlayers g := fun h => ha (hmem.1 h)
        have hS' := hS g.alive g.aliveCount g.lastAlivePlayer
        rw [Finset.erase_eq_of_not_mem hpS] at hS'
        refine ⟨?_, ?_, ?_⟩
        · intro q hq0 hq1
          by_cases hqp : q = p
          · subst hqp
            have : g.alive q = false := by simpa using ha
            simp [this, setAt]; omega
          · have := hother q hqp false hq0 hq1
            simpa only [setAt, hqp, if_false] using this
        · exact h2.trans (congrArg _ (congrArg _ hS'.symm))
        · intro h
          exact hS'.symm ▸ h3 h
    · simp only [hle, if_false]
      have hpos : 0 < g.playerScores p + d := by omega
      have hS : ∀ (al : Int → Bool) (ac la : Int),
          positivePlayers { g with playerScores := setAt g.playerScores p (g.playerScores p + d),
                                   alive := al, aliveCount := ac, lastAlivePlayer := la } =
            insert p (positivePlayers g) :=
        fun _ _ _ => positivePlayers_setAt_pos g p _ hpos hp
      unfold markAliveIfNeeded
      have hr' : ¬ (p < 0 ∨ p ≥ playerScoresSize
          { g with playerScores := setAt g.playerScores p (g.playerScores p + d) }) := hr
      simp only [hr', if_false, hnew, gt_iff_lt, hpos, and_true]
      by_cases ha : g.alive p = false
      · simp only [ha, if_true]
        have hpS : p ∉ positivePlayers g := fun h => by
          have := hmem.1 h; rw [ha] at this; exact Bool.noConfusion this
        refine ⟨?_, ?_, ?_⟩
        · intro q hq0 hq1
          by_cases hqp : q = p
          · subst hqp; simp [setAt]; omega
          · exact hother q hqp true hq0 hq1
        · rw [hS, Finset.card_insert_of_not_mem hpS]
          show g.aliveCount + 1 = _
          rw [h2]; push_cast; ring
        · intro _
          rw [hS]; exact Finset.mem_insert_self _ _
      · simp only [ha, if_false, Bool.true_eq_false]
        have ha' : g.alive p = true := by simpa using ha
        have hpS : p ∈ positivePlayers g := hmem.2 ha'
        have hS' := hS g.alive g.aliveCount g.lastAlivePlayer
        rw [Finset.insert_eq_of_mem hpS] at hS'
        refine ⟨?_, ?_, ?_⟩
        · intro q hq0 hq1
          by_cases hqp : q = p
          · subst hqp
            simp [ha', setAt]; omega
          · have := hother q hqp false hq0 hq1
            simpa only [setAt, hqp, if_false] using this
        · exact h2.trans (congrArg _ (congrArg _ hS'.symm))
        · intro h
          exact hS'.symm ▸ h3 h

theorem placeOrb_aliveOK (g : ChainReactionGame) (r c player : Int) (hg : AliveOK g) :
    AliveOK (placeOrb g r c player) := by
  unfold placeOrb
  exact adjustPlayerScore_aliveOK _ _ _ hg

theorem makeMove_aliveOK (fuel : Nat) (g : ChainReactionGame) (r c player : Int) (b : Bool)
    (g' : ChainReactionGame) (hg : AliveOK g)
    (h : makeMove fuel g r c player = some (b, g')) : AliveOK g' := by
  have hmoves : ∀ (g0 : ChainReactionGame) (m : Int), AliveOK g0 →
      AliveOK { g0 with movesMade := m } := fun g0 m h0 => h0
  rcases makeMove_cases fuel g r c player b g' h with ⟨_, _, rfl⟩ | ⟨_, _, _, rfl⟩ |
    ⟨_, _, _, s', _, rfl⟩
  · exact hg
  · exact hmoves _ _ (placeOrb_aliveOK g r c player hg)
  · exact hmoves _ _ (clampPlayerScores_aliveOK _)

theorem newGame_aliveOK (pCount botType rows cols : Int) :
    AliveOK (newGame pCount botType rows cols) := by
  have hS : positivePlayers (newGame pCount botType rows cols) = ∅ := by
    ext q; simp [mem_positivePlayers, newGame]
  refine ⟨?_, ?_, ?_⟩
  · intro p _ _; simp [newGame]
  · rw [hS]; simp [newGame]
  · intro h; simp [newGame] at h

theorem reach_aliveOK (ok : Int → Prop) (pCount botType rows cols : Int) (n : Nat)
    (g : ChainReactionGame) (h : Reach ok (newGame pCount botType rows cols) n g) :
    AliveOK g := by
  induction h with
  | start => exact newGame_aliveOK pCount botType rows cols
  | accepted fuel r c player _ _ hm ih => exact makeMove_aliveOK fuel _ r c player _ _ ih hm
  | rejected fuel r c player _ _ hm ih => exact makeMove_aliveOK fuel _ r c player _ _ ih hm

/-- What `getWinner` returns in a state with consistent alive bookkeeping. -/
theorem getWinner_of_aliveOK (g : ChainReactionGame) (hg : AliveOK g) (p : Int) :
    (getWinner g = p ∧ p ≠ -1) ↔
      (g.movesMade ≥ g.playerCount ∧ (0 ≤ p ∧ p < g.playerCount) ∧ getPlayerScore g p > 0 ∧
        ∀ q, 0 ≤ q → q < g.playerCount → getPlayerScore g q > 0 → q = p) := by
  obtain ⟨_, h2, h3⟩ := hg
  have hsz : ∀ q, 0 ≤ q → (q < playerScoresSize g ↔ q < g.playerCount) := by
    intro q hq; unfold playerScoresSize; split_ifs <;> omega
  have hscore : ∀ q, 0 ≤ q → q < g.playerCount → getPlayerScore g q = g.playerScores q := by
    intro q hq0 hq1
    have : ¬ (q < 0 ∨ q ≥ playerScoresSize g) := by
      have := (hsz q hq0).2 hq1; omega
    simp [getPlayerScore, this]
  have hmemS : ∀ q, q ∈ positivePlayers g ↔
      (0 ≤ q ∧ q < g.playerCount) ∧ getPlayerScore g q > 0 := by
    intro q
    rw [mem_positivePlayers]
    constructor
    · rintro ⟨⟨h0, h1⟩, hs⟩
      have h1' := (hsz q h0).1 h1
      exact ⟨⟨h0, h1'⟩, by rw [hscore q h0 h1']; exact hs⟩
    · rintro ⟨⟨h0, h1⟩, hs⟩
      exact ⟨⟨h0, (hsz q h0).2 h1⟩, by rw [← hscore q h0 h1]; exact hs⟩
  constructor
  · rintro ⟨hw, hne⟩
    unfold getWinner at hw
    split_ifs at hw with hm hone
    · exact absurd hw.symm hne
    · have hl := h3 hone
      rw [hw] at hl
      have hp := (hmemS p).1 hl
      refine ⟨by omega, hp.1, hp.2, ?_⟩
      intro q hq0 hq1 hqs
      have hq : q ∈ positivePlayers g := (hmemS q).2 ⟨⟨hq0, hq1⟩, hqs⟩
      have hcard : (positivePlayers g).card = 1 := by omega
      obtain ⟨a, ha⟩ := Finset.card_eq_one.1 hcard
      rw [ha, Finset.mem_singleton] at hq hl
      rw [hq, hl]
    · exact absurd hw.symm hne
  · rintro ⟨hm, hp, hps, huniq⟩
    have hpS : p ∈ positivePlayers g := (hmemS p).2 ⟨hp, hps⟩
    have hS : positivePlayers g = {p} := by
      ext q
      rw [Finset.mem_singleton]
      constructor
      · intro hq
        have := (hmemS q).1 hq
        exact huniq q this.1.1 this.1.2 this.2
      · intro hq; rw [hq]; exact hpS
    have hone : g.aliveCount = 1 := by rw [h2, hS]; simp
    have hl := h3 hone
    rw [hS, Finset.mem_singleton] at hl
    have hm' : ¬ (g.movesMade < g.playerCount) := by omega
    refine ⟨?_, by omega⟩
    simp [getWinner, hm', hone, hl]

/-! ## The orb layer and a cascade that never ends -/

theorem fedCell_orbs (owner : Int) (cell : Cell)
    (h : 0 ≤ cell.orbs ∧ (cell.orbs = 0 ↔ cell.owner = -1)) :
    (fedCell owner cell).orbs = cell.orbs + 1 := by
  unfold fedCell
  split_ifs with h1
  · have := h.2.2 h1; simp [this]
  · rfl
  · rfl

theorem feedNeighbor_layer (g0 : ChainReactionGame) (r c owner : Int) (ho : owner ≠ -1)
    (s : CascadeState) (a : OrbLayer) (d : Int × Int) (h : LayerOf g0 s a) :
    LayerOf g0 (feedNeighbor r c owner s d) (orbFeed g0 r c a d) := by
  obtain ⟨hr, hc, hok, horbs, hq, hiq⟩ := h
  by_cases hb : r + d.1 < 0 ∨ r + d.1 ≥ s.game.rows ∨ c + d.2 < 0 ∨ c + d.2 ≥ s.game.cols
  · have hb' : r + d.1 < 0 ∨ r + d.1 ≥ g0.rows ∨ c + d.2 < 0 ∨ c + d.2 ≥ g0.cols := by
      rw [← hr, ← hc]; exact hb
    rw [feedNeighbor_of_oob r c owner s d hb]
    unfold orbFeed
    simp only [hb', if_true]
    exact ⟨hr, hc, hok, horbs, hq, hiq⟩
  · have hb' : ¬ (r + d.1 < 0 ∨ r + d.1 ≥ g0.rows ∨ c + d.2 < 0 ∨ c + d.2 ≥ g0.cols) := by
      rw [← hr, ← hc]; exact hb
    have hcap : getCellCapacity (feedGame r c owner s.game (r + d.1) (c + d.2)) (r + d.1)
        (c + d.2) = getCellCapacity g0 (r + d.1) (c + d.2) :=
      getCellCapacity_congr _ _ _ _ (by simp [hr]) (by simp [hc])
    have hidx : flatIndex (feedGame r c owner s.game (r + d.1) (c + d.2)) (r + d.1) (c + d.2) =
        flatIndex g0 (r + d.1) (c + d.2) := by simp [flatIndex, hc]
    have hnew : ((feedGame r c owner s.game (r + d.1) (c + d.2)).grid (r + d.1) (c + d.2)).orbs =
        a.orbs (r + d.1) (c + d.2) + 1 := by
      rw [feedGame_grid]
      simp only [setCell, and_self, if_true]
      rw [fedCell_orbs owner _ (hok _ _), horbs]
    have hgrid : ∀ r' c', ((feedGame r c owner s.game (r + d.1) (c + d.2)).grid r' c').orbs =
        setOrbs a.orbs (r + d.1) (c + d.2) (a.orbs (r + d.1) (c + d.2) + 1) r' c' := by
      intro r' c'
      rw [feedGame_grid]
      unfold setCell setOrbs
      split_ifs
      · rw [fedCell_orbs owner _ (hok _ _), horbs]
      · exact horbs r' c'
    have hok' : CellsOK (feedGame r c owner s.game (r + d.1) (c + d.2)).grid := by
      rw [feedGame_grid]
      exact CellsOK_setCell _ _ _ _ hok (fedCell_ok owner _ ho (hok _ _))
    unfold feedNeighbor orbFeed
    simp only [hb, hb', if_false, hcap, hidx, hnew, hiq]
    have hset : setOrbs a.orbs (r + d.1) (c + d.2) (a.orbs (r + d.1) (c + d.2) + 1) (r + d.1)
        (c + d.2) = a.orbs (r + d.1) (c + d.2) + 1 := by simp [setOrbs]
    simp only [hset]
    split_ifs
    · exact ⟨by simp [hr], by simp [hc], hok', hgrid, by simp [hq], rfl⟩
    · exact ⟨by simp [hr], by simp [hc], hok', hgrid, hq, rfl⟩

theorem foldl_related {α β γ : Type} (R : α → β → Prop) (f : α → γ → α) (f' : β → γ → β)
    (h : ∀ a b x, R a b → R (f a x) (f' b x)) :
    ∀ (l : List γ) (a : α) (b : β), R a b → R (l.foldl f a) (l.foldl f' b)
  | [], _, _, hab => hab
  | x :: l, a, b, hab => foldl_related R f f' h l (f a x) (f' b x) (h a b x hab)

theorem explodeCell_layer (g0 : ChainReactionGame) (s : CascadeState) (a : OrbLayer)
    (r c : Int) (h : LayerOf g0 s a) :
    LayerOf g0 (explodeCell s r c) (orbExplode g0 a r c) := by
  obtain ⟨hr, hc, hok, horbs, hq, hiq⟩ := h
  have hcap : getCellCapacity s.game r c = getCellCapacity g0 r c :=
    getCellCapacity_congr _ _ _ _ hr hc
  have hidx : flatIndex s.game r c = flatIndex g0 r c := by simp [flatIndex, hc]
  have hown : (s.game.grid r c).owner = -1 ↔ a.orbs r c = 0 := by
    rw [← horbs]; exact (hok r c).2.symm
  unfold explodeCell orbExplode
  simp only [hcap, hidx, hown, horbs, hiq]
  split_ifs with hcond
  · exact ⟨hr, hc, hok, horbs, hq, rfl⟩
  · have ho : (s.game.grid r c).owner ≠ -1 := fun h' => hcond (Or.inl (hown.1 h'))
    refine foldl_related (LayerOf g0) _ _ ?_ _ _ _ ?_
    · intro s' a' x hs'
      exact feedNeighbor_layer g0 r c _ ho s' a' x hs'
    · refine ⟨by simp [hr], by simp [hc], ?_, ?_, hq, rfl⟩
      · simp only [adjustPlayerScore_grid]
        exact CellsOK_setCell _ _ _ _ hok (by simp)
      · intro r' c'
        simp only [adjustPlayerScore_grid]
        unfold setCell setOrbs
        split_ifs
        · rfl
        · exact horbs r' c'

theorem cascadeLoop_none_of_layer (g0 : ChainReactionGame) :
    ∀ (fuel : Nat) (s : CascadeState) (a : OrbLayer), LayerOf g0 s a →
      orbLoop g0 fuel a = none → cascadeLoop fuel s = none := by
  intro fuel
  induction fuel with
  | zero =>
    intro s a h hn
    obtain ⟨g, q, iq⟩ := s
    obtain ⟨k, q', iq'⟩ := a
    have hq : q = q' := h.2.2.2.2.1
    subst hq
    cases q with
    | nil => simp [orbLoop] at hn
    | cons pos rest => simp [cascadeLoop]
  | succ n ih =>
    intro s a h hn
    obtain ⟨g, q, iq⟩ := s
    obtain ⟨k, q', iq'⟩ := a
    have hq : q = q' := h.2.2.2.2.1
    subst hq
    cases q with
    | nil => simp [orbLoop] at hn
    | cons pos rest =>
      simp only [cascadeLoop]
      simp only [orbLoop] at hn
      refine ih _ _ (explodeCell_layer g0 ⟨g, rest, iq⟩ ⟨k, rest, iq'⟩ pos.1 pos.2 ?_) hn
      obtain ⟨h1, h2, h3, h4, _, h6⟩ := h
      exact ⟨h1, h2, h3, h4, rfl, h6⟩

theorem spinning_step (g0 : ChainReactionGame) (hr : g0.rows = 2) (hc : g0.cols = 2)
    (a : OrbLayer) (h : Spinning a) :
    ∃ pos rest, a.q = pos :: rest ∧
      Spinning (orbExplode g0 ⟨a.orbs, rest, a.inQueue⟩ pos.1 pos.2) := by
  rcases h with h | h | h | h
  · obtain ⟨hq, hv, hf⟩ := h
    simp only [List.cons.injEq, and_true] at hv hf
    obtain ⟨h00, h01, h10, h11⟩ := hv
    obtain ⟨f0, f1, f2, f3⟩ := hf
    refine ⟨(0, 1), [], hq, Or.inr (Or.inl ?_)⟩
    simp [Phase, orbExplode, orbFeed, directions, getCellCapacity, flatIndex, setAt, setOrbs,
      hr, hc, h00, h01, h10, h11, f0, f1, f2, f3]
  · obtain ⟨hq, hv, hf⟩ := h
    simp only [List.cons.injEq, and_true] at hv hf
    obtain ⟨h00, h01, h10, h11⟩ := hv
    obtain ⟨f0, f1, f2, f3⟩ := hf
    refine ⟨(0, 0), [], hq, Or.inr (Or.inr (Or.inl ?_))⟩
    simp [Phase, orbExplode, orbFeed, directions, getCellCapacity, flatIndex, setAt, setOrbs,
      hr, hc, h00, h01, h10, h11, f0, f1, f2, f3]
  · obtain ⟨hq, hv, hf⟩ := h
    simp only [List.cons.injEq, and_true] at hv hf
    obtain ⟨h00, h01, h10, h11⟩ := hv
    obtain ⟨f0, f1, f2, f3⟩ := hf
    refine ⟨(1, 0), [], hq, Or.inr (Or.inr (Or.inr ?_))⟩
    simp [Phase, orbExplode, orbFeed, directions, getCellCapacity, flatIndex, setAt, setOrbs,
      hr, hc, h00, h01, h10, h11, f0, f1, f2, f3]
  · obtain ⟨hq, hv, hf⟩ := h
    simp only [List.cons.injEq, and_true] at hv hf
    obtain ⟨h00, h01, h10, h11⟩ := hv
    obtain ⟨f0, f1, f2, f3⟩ := hf
    refine ⟨(1, 1), [], hq, Or.inl ?_⟩
    simp [Phase, orbExplode, orbFeed, directions, getCellCapacity, flatIndex, setAt, setOrbs,
      hr, hc, h00, h01, h10, h11, f0, f1, f2, f3]

theorem orbLoop_spinning (g0 : ChainReactionGame) (hr : g0.rows = 2) (hc : g0.cols = 2) :
    ∀ (fuel : Nat) (a : OrbLayer), Spinning a → orbLoop g0 fuel a = none := by
  intro fuel
  induction fuel with
  | zero =>
    intro a h
    obtain ⟨pos, rest, hq, _⟩ := spinning_step g0 hr hc a h
    obtain ⟨k, q, iq⟩ := a
    simp only at hq
    subst hq
    simp [orbLoop]
  | succ n ih =>
    intro a h
    obtain ⟨pos, rest, hq, hs⟩ := spinning_step g0 hr hc a h
    obtain ⟨k, q, iq⟩ := a
    simp only at hq
    subst hq
    simp only [orbLoop]
    exact ih _ hs

theorem placeOrb_cellsOK (g : ChainReactionGame) (r c player : Int) (hp : player ≠ -1)
    (hg : CellsOK g.grid) : CellsOK (placeOrb g r c player).grid := by
  rw [placeOrb_grid]
  refine CellsOK_setCell _ _ _ _ hg ⟨?_, ?_⟩
  · have := (hg r c).1; simp only; omega
  · have := (hg r c).1; simp only [hp, iff_false]; omega

/-- A valid move that overfills its cell does not return when the cascade loop does not
finish. -/
theorem makeMove_none_of_cascade (fuel : Nat) (g : ChainReactionGame) (r c player : Int)
    (hv : isMoveValid g r c player = true)
    (hcap : (g.grid r c).orbs + 1 > getCellCapacity g r c)
    (hl : cascadeLoop fuel
      ⟨placeOrb g r c player, [(r, c)], setAt (fun _ => false) (flatIndex g r c) true⟩ = none) :
    makeMove fuel g r c player = none := by
  have hc : getCellCapacity (placeOrb g r c player) r c = getCellCapacity g r c :=
    getCellCapacity_congr _ _ _ _ (by simp) (by simp)
  have hf : flatIndex (placeOrb g r c player) r c = flatIndex g r c := by simp [flatIndex]
  simp only [makeMove, hv, Bool.true_eq_false, if_false, hc, placeOrb_grid, setCell,
    and_self, if_true, hcap, List.cons_ne_nil, processChainReaction, List.foldl_cons,
    List.foldl_nil, hf, hl]

theorem reach_corneredBoard (ok : Int → Prop) (h0 : ok 0) (h1 : ok 1) :
    Reach ok (newGame 2 0 2 2) 3 corneredBoard := by
  have hA : Reach ok (newGame 2 0 2 2) 1 (replay 0 (newGame 2 0 2 2) [(0, 0, 0)]) :=
    Reach.accepted 0 0 0 0 Reach.start h0
      (show makeMove 0 (newGame 2 0 2 2) 0 0 0 =
        some (true, replay 0 (newGame 2 0 2 2) [(0, 0, 0)]) by rfl)
  have hB : Reach ok (newGame 2 0 2 2) 2
      (replay 0 (newGame 2 0 2 2) [(0, 0, 0), (0, 1, 1)]) :=
    Reach.accepted 0 0 1 1 hA h1
      (show makeMove 0 (replay 0 (newGame 2 0 2 2) [(0, 0, 0)]) 0 1 1 =
        some (true, replay 0 (newGame 2 0 2 2) [(0, 0, 0), (0, 1, 1)]) by rfl)
  exact Reach.accepted 0 1 0 0 hB h0
    (show makeMove 0 (replay 0 (newGame 2 0 2 2) [(0, 0, 0), (0, 1, 1)]) 1 0 0 =
      some (true, corneredBoard) by rfl)

theorem corneredBoard_valid : isMoveValid corneredBoard 0 1 1 = true := by rfl

theorem corneredBoard_cellsOK : CellsOK corneredBoard.grid :=
  reach_cellsOK 2 0 2 2 3 _ (reach_corneredBoard _ (by decide) (by decide))

theorem corneredBoard_overfull :
    (corneredBoard.grid 0 1).orbs + 1 > getCellCapacity corneredBoard 0 1 := by
  have h1 : (corneredBoard.grid 0 1).orbs = 1 := by rfl
  have h2 : getCellCapacity corneredBoard 0 1 = 1 := by rfl
  rw [h1, h2]; decide

theorem corneredBoard_layer :
    LayerOf (placeOrb corneredBoard 0 1 1)
      ⟨placeOrb corneredBoard 0 1 1, [(0, 1)],
        setAt (fun _ => false) (flatIndex corneredBoard 0 1) true⟩
      ⟨fun r c => ((placeOrb corneredBoard 0 1 1).grid r c).orbs, [(0, 1)],
        setAt (fun _ => false) (flatIndex corneredBoard 0 1) true⟩ :=
  ⟨rfl, rfl, placeOrb_cellsOK corneredBoard 0 1 1 (by decide) corneredBoard_cellsOK,
    fun _ _ => rfl, rfl, rfl⟩

theorem corneredBoard_spinning :
    Spinning ⟨fun r c => ((placeOrb corneredBoard 0 1 1).grid r c).orbs, [(0, 1)],
      setAt (fun _ => false) (flatIndex corneredBoard 0 1) true⟩ :=
  Or.inl ⟨rfl, by rfl, by rfl⟩

/-! ## Rejected moves, validity, single placements, the 3x3 scenarios -/

/-- C4 (no-op law): a call for which `isMoveValid` is false returns `false` and hands back
the very same state: grid, scores, alive flags, `aliveCount`, `lastAlivePlayer`, move counter
and animation trace are all untouched. -/
theorem makeMove_rejected (fuel : Nat) (g : ChainReactionGame) (r c player : Int)
    (h : isMoveValid g r c player = false) :
    makeMove fuel g r c player = some (false, g) :=
  makeMove_of_invalid fuel g r c player h

theorem makeMove_rejected_witness :
    isMoveValid (replay 1 (newGame 2 0 3 3) [(0, 0, 0), (0, 0, 0)]) 0 1 1 = false ∧
      makeMove 0 (replay 1 (newGame 2 0 3 3) [(0, 0, 0), (0, 0, 0)]) 0 1 1 =
        some (false, replay 1 (newGame 2 0 3 3) [(0, 0, 0), (0, 0, 0)]) :=
  ⟨by decide, makeMove_rejected 0 _ 0 1 1 (by decide)⟩

/-- C10: `isMoveValid` is false out of bounds; in bounds it is true exactly when the cell is
unowned or owned by `player`; and two games with the same dimensions and the same grid give
the same answer. -/
theorem isMoveValid_spec (g g' : ChainReactionGame) (r c player : Int) :
    ((r < 0 ∨ r ≥ g.rows ∨ c < 0 ∨ c ≥ g.cols) → isMoveValid g r c player = false) ∧
    ((0 ≤ r ∧ r < g.rows ∧ 0 ≤ c ∧ c < g.cols) →
      (isMoveValid g r c player = true ↔
        (g.grid r c).owner = -1 ∨ (g.grid r c).owner = player)) ∧
    (g'.rows = g.rows → g'.cols = g.cols → g'.grid = g.grid →
      isMoveValid g' r c player = isMoveValid g r c player) := by
  refine ⟨fun h => ?_, fun h => ?_, fun h1 h2 h3 => ?_⟩
  · simp [isMoveValid, h]
  · have hb : ¬ (r < 0 ∨ r ≥ g.rows ∨ c < 0 ∨ c ≥ g.cols) := by omega
    simp [isMoveValid, hb]
  · simp [isMoveValid, h1, h2, h3]

theorem isMoveValid_spec_witness :
    isMoveValid (newGame 2 0 3 3) 3 0 0 = false ∧
    (isMoveValid (replay 0 (newGame 2 0 3 3) [(1, 1, 0)]) 1 1 1 = true ↔
      ((replay 0 (newGame 2 0 3 3) [(1, 1, 0)]).grid 1 1).owner = -1 ∨
        ((replay 0 (newGame 2 0 3 3) [(1, 1, 0)]).grid 1 1).owner = 1) ∧
    isMoveValid (newGame 4 3 3 3) 1 1 1 = isMoveValid (newGame 2 0 3 3) 1 1 1 :=
  ⟨(isMoveValid_spec (newGame 2 0 3 3) (newGame 2 0 3 3) 3 0 0).1 (by decide),
    (isMoveValid_spec (replay 0 (newGame 2 0 3 3) [(1, 1, 0)])
      (replay 0 (newGame 2 0 3 3) [(1, 1, 0)]) 1 1 1).2.1 (by decide),
    (isMoveValid_spec (newGame 2 0 3 3) (newGame 4 3 3 3) 1 1 1).2.2 rfl rfl rfl⟩

/-- C8: a valid move by a player in range that does not push the target cell above its
capacity returns `true`, gives the cell to `player` with one more orb, leaves every other
cell alone, adds one to the player's score and nothing to any other score, and leaves the
animation trace empty. -/
theorem makeMove_single_placement (fuel : Nat) (g : ChainReactionGame) (r c player : Int)
    (hv : isMoveValid g r c player = true) (hp : 0 ≤ player ∧ player < g.playerCount)
    (hcap : (g.grid r c).orbs + 1 ≤ getCellCapacity g r c) :
    ∃ g', makeMove fuel g r c player = some (true, g') ∧
      g'.grid r c = ⟨player, (g.grid r c).orbs + 1⟩ ∧
      (∀ r' c', ¬ (r' = r ∧ c' = c) → g'.grid r' c' = g.grid r' c') ∧
      getPlayerScore g' player = getPlayerScore g player + 1 ∧
      (∀ q, q ≠ player → getPlayerScore g' q = getPlayerScore g q) ∧
      getLastAnimationEvents g' = [] := by
  have hsz : ¬ (player < 0 ∨ player ≥ playerScoresSize g) := by
    unfold playerScoresSize; split_ifs <;> omega
  have hs : ∀ q, getPlayerScore { placeOrb g r c player with movesMade := g.movesMade + 1 } q
      = getPlayerScore (placeOrb g r c player) q := fun q => by
    simp [getPlayerScore, playerScoresSize]
  refine ⟨_, makeMove_of_stable fuel g r c player hv hcap, ?_, ?_, ?_, ?_, ?_⟩
  · simp [setCell]
  · intro r' c' h
    simp [setCell, h]
  · rw [hs, getPlayerScore_placeOrb]; simp [hsz]
  · intro q hq
    rw [hs, getPlayerScore_placeOrb]; simp [hq]
  · simp [getLastAnimationEvents]

theorem makeMove_single_placement_witness :
    isMoveValid (newGame 2 0 3 3) 1 1 1 = true ∧
    (0 ≤ (1 : Int) ∧ (1 : Int) < (newGame 2 0 3 3).playerCount) ∧
    ((newGame 2 0 3 3).grid 1 1).orbs + 1 ≤ getCellCapacity (newGame 2 0 3 3) 1 1 ∧
    ∃ g', makeMove 0 (newGame 2 0 3 3) 1 1 1 = some (true, g') ∧
      g'.grid 1 1 = ⟨1, ((newGame 2 0 3 3).grid 1 1).orbs + 1⟩ ∧
      (∀ r' c', ¬ (r' = 1 ∧ c' = 1) → g'.grid r' c' = (newGame 2 0 3 3).grid r' c') ∧
      getPlayerScore g' 1 = getPlayerScore (newGame 2 0 3 3) 1 + 1 ∧
      (∀ q, q ≠ 1 → getPlayerScore g' q = getPlayerScore (newGame 2 0 3 3) q) ∧
      getLastAnimationEvents g' = [] :=
  ⟨by decide, by decide, by decide,
    makeMove_single_placement 0 (newGame 2 0 3 3) 1 1 1 (by decide) (by decide) (by decide)⟩

/-- C7 (scenarios A and B): on a fresh 3x3 board with 2 players the first `makeMove(0,0,0)`
returns `true` and leaves `(0,0)` owned by player 0 with 1 orb, an empty trace and score 1
for player 0; the second `makeMove(0,0,0)` returns `true` after one loop iteration and leaves
`(0,0)` empty and unowned, `(0,1)` and `(1,0)` owned by player 0 with 1 orb each, every other
cell empty, score 2 for player 0, and exactly two events, both from `(0,0)` and both
attributed to player 0. -/
theorem scenario_A_B :
    ∃ gA gB, makeMove 1 (newGame 2 0 3 3) 0 0 0 = some (true, gA) ∧
      gA.grid 0 0 = ⟨0, 1⟩ ∧ getLastAnimationEvents gA = [] ∧ getPlayerScore gA 0 = 1 ∧
      makeMove 1 gA 0 0 0 = some (true, gB) ∧
      gB.grid 0 0 = ⟨-1, 0⟩ ∧ gB.grid 0 1 = ⟨0, 1⟩ ∧ gB.grid 1 0 = ⟨0, 1⟩ ∧
      (∀ r c, ¬ (r = 0 ∧ c = 1) → ¬ (r = 1 ∧ c = 0) → gB.grid r c = ⟨-1, 0⟩) ∧
      getPlayerScore gB 0 = 2 ∧
      getLastAnimationEvents gB = [⟨0, 0, 1, 0, 0⟩, ⟨0, 0, 0, 1, 0⟩] := by
  refine ⟨replay 1 (newGame 2 0 3 3) [(0, 0, 0)],
    replay 1 (newGame 2 0 3 3) [(0, 0, 0), (0, 0, 0)], by rfl, by decide, by decide,
    by decide, by rfl, by decide, by decide, by decide, ?_, by decide, by decide⟩
  intro r c h1 h2
  have hg : (replay 1 (newGame 2 0 3 3) [(0, 0, 0), (0, 0, 0)]).grid =
      setCell (setCell (setCell (setCell (setCell (fun _ _ => ⟨-1, 0⟩) 0 0 ⟨0, 1⟩) 0 0 ⟨0, 2⟩)
        0 0 ⟨-1, 0⟩) 1 0 ⟨0, 1⟩) 0 1 ⟨0, 1⟩ := by
    rfl
  rw [hg]
  simp only [setCell]
  split_ifs <;> simp_all

/-- C9, as stated, fails: after the two moves of scenario B the trace holds two events; the
rejected call `makeMove(0,1,1)` that follows returns `false` and the trace still holds the
two events recorded by the earlier call. -/
theorem rejected_call_keeps_trace :
    ∃ g', makeMove 0 (replay 1 (newGame 2 0 3 3) [(0, 0, 0), (0, 0, 0)]) 0 1 1 =
        some (false, g') ∧
      getLastAnimationEvents g' = [⟨0, 0, 1, 0, 0⟩, ⟨0, 0, 0, 1, 0⟩] :=
  ⟨_, makeMove_of_invalid 0 _ 0 1 1 (by decide), by decide⟩

/-- C9, amended: a call that passes `isMoveValid` clears the trace first, so its whole
outcome, the trace included, is the one it would have had with any other old trace (in
particular an empty one); a rejected call returns before the clear and hands back the state,
and with it the trace, unchanged. -/
theorem makeMove_trace (fuel : Nat) (g : ChainReactionGame) (r c player : Int)
    (old : List OrbAnimationEvent) :
    (isMoveValid g r c player = true →
      makeMove fuel { g with lastAnimationEvents := old } r c player =
        makeMove fuel g r c player) ∧
    (isMoveValid g r c player = false →
      makeMove fuel g r c player = some (false, g)) := by
  refine ⟨fun h => ?_, fun h => makeMove_of_invalid fuel g r c player h⟩
  have h' : isMoveValid { g with lastAnimationEvents := old } r c player = true := h
  have hp : placeOrb { g with lastAnimationEvents := old } r c player = placeOrb g r c player :=
    rfl
  simp only [makeMove, h, h', hp, Bool.true_eq_false, if_false]

theorem makeMove_trace_witness :
    makeMove 1 { replay 1 (newGame 2 0 3 3) [(0, 0, 0)] with
        lastAnimationEvents := [⟨7, 7, 7, 7, 7⟩] } 0 0 0 =
      makeMove 1 (replay 1 (newGame 2 0 3 3) [(0, 0, 0)]) 0 0 0 ∧
    makeMove 1 (newGame 2 0 3 3) 5 5 0 = some (false, newGame 2 0 3 3) :=
  ⟨(makeMove_trace 1 (replay 1 (newGame 2 0 3 3) [(0, 0, 0)]) 0 0 0 [⟨7, 7, 7, 7, 7⟩]).1
      (by decide),
    (makeMove_trace 1 (newGame 2 0 3 3) 5 5 0 []).2 (by decide)⟩


/-! ## Claims about reachable states -/

/-- C1 fails on the code: on a 2x2 board with two players, after the alternating moves
`(0,0)` by player 0, `(0,1)` by player 1 and `(1,0)` by player 0 (a reachable position, every
player id in range), the call `makeMove(0,1,1)` passes `isMoveValid` and the worklist loop of
`processChainReaction` never drains: whatever number of iterations is allowed, the call has
not returned. -/
theorem cascade_never_finishes :
    Reach (fun p => 0 ≤ p ∧ p < 2) (newGame 2 0 2 2) 3 corneredBoard ∧
      isMoveValid corneredBoard 0 1 1 = true ∧
      ∀ fuel, makeMove fuel corneredBoard 0 1 1 = none := by
  refine ⟨reach_corneredBoard _ (by decide) (by decide), corneredBoard_valid, fun fuel => ?_⟩
  refine makeMove_none_of_cascade fuel corneredBoard 0 1 1 corneredBoard_valid
    corneredBoard_overfull ?_
  refine cascadeLoop_none_of_layer (placeOrb corneredBoard 0 1 1) fuel _ _
    corneredBoard_layer ?_
  exact orbLoop_spinning _ (by rfl) (by rfl) fuel _ corneredBoard_spinning

/-- C3, as stated, fails: `isMoveValid` accepts player `-1` on an unowned cell, and the
accepted call `makeMove(0,0,-1)` on a fresh 3x3 board leaves `(0,0)` unowned with one orb. -/
theorem cell_invariant_fails_for_unowned_player :
    Reach (fun _ => True) (newGame 2 0 3 3) 1 (replay 0 (newGame 2 0 3 3) [(0, 0, -1)]) ∧
      ¬ (((replay 0 (newGame 2 0 3 3) [(0, 0, -1)]).grid 0 0).orbs = 0 ↔
        ((replay 0 (newGame 2 0 3 3) [(0, 0, -1)]).grid 0 0).owner = -1) :=
  ⟨Reach.accepted 0 0 0 (-1) Reach.start trivial (by rfl), by decide⟩

/-- C3, amended: in every state reached from a fresh game by `makeMove` calls with any
integer row and column and any player argument other than `-1`, every cell has `orbs == 0`
exactly when `owner == -1`. -/
theorem cell_invariant (pCount botType rows cols : Int) (n : Nat) (g : ChainReactionGame)
    (h : Reach (fun p => p ≠ -1) (newGame pCount botType rows cols) n g) (r c : Int) :
    (g.grid r c).orbs = 0 ↔ (g.grid r c).owner = -1 :=
  (reach_cellsOK pCount botType rows cols n g h r c).2

theorem cell_invariant_witness :
    Reach (fun p => p ≠ -1) (newGame 2 0 3 3) 2
        (replay 1 (newGame 2 0 3 3) [(0, 0, 0), (0, 0, 0)]) ∧
      (((replay 1 (newGame 2 0 3 3) [(0, 0, 0), (0, 0, 0)]).grid 0 0).orbs = 0 ↔
        ((replay 1 (newGame 2 0 3 3) [(0, 0, 0), (0, 0, 0)]).grid 0 0).owner = -1) :=
  ⟨reach_scenarioB _ (by decide),
    cell_invariant 2 0 3 3 2 _ (reach_scenarioB _ (by decide)) 0 0⟩

/-- C2 (score invariant): in every state reached from a fresh game by `makeMove` calls whose
player argument lies in `0..playerCount-1`, `getPlayerScore(p)` equals the sum of the orbs
over the cells owned by `p`, for every player `p` in `0..playerCount-1`. -/
theorem score_invariant (pCount botType rows cols : Int) (n : Nat) (g : ChainReactionGame)
    (h : Reach (fun p => 0 ≤ p ∧ p < pCount) (newGame pCount botType rows cols) n g)
    (p : Int) (hp : 0 ≤ p ∧ p < pCount) :
    getPlayerScore g p = ownedOrbs g p := by
  have hpc : g.playerCount = pCount := reach_playerCount _ _ _ _ h
  refine (reach_scoresOK pCount botType rows cols n g h).2 p hp.1 ?_
  unfold playerScoresSize
  rw [hpc]
  split_ifs <;> omega

theorem score_invariant_witness :
    Reach (fun p => 0 ≤ p ∧ p < 2) (newGame 2 0 3 3) 2
        (replay 1 (newGame 2 0 3 3) [(0, 0, 0), (0, 0, 0)]) ∧
      (0 ≤ (0 : Int) ∧ (0 : Int) < 2) ∧
      getPlayerScore (replay 1 (newGame 2 0 3 3) [(0, 0, 0), (0, 0, 0)]) 0 =
        ownedOrbs (replay 1 (newGame 2 0 3 3) [(0, 0, 0), (0, 0, 0)]) 0 :=
  ⟨reach_scenarioB _ (by decide), by decide,
    score_invariant 2 0 3 3 2 _ (reach_scenarioB _ (by decide)) 0 (by decide)⟩


/-- C5 (`getWinner` names the sole survivor): in every state reached from a fresh game,
`getWinner()` returns a player id `p` other than `-1` exactly when the move counter is at
least `playerCount` and `p` is the unique player in `0..playerCount-1` with a positive
score; when no player qualifies it returns `-1`. -/
theorem getWinner_sole_survivor (pCount botType rows cols : Int) (n : Nat)
    (g : ChainReactionGame)
    (h : Reach (fun _ => True) (newGame pCount botType rows cols) n g) :
    (∀ p, (getWinner g = p ∧ p ≠ -1) ↔
      (g.movesMade ≥ pCount ∧ (0 ≤ p ∧ p < pCount) ∧ getPlayerScore g p > 0 ∧
        ∀ q, 0 ≤ q → q < pCount → getPlayerScore g q > 0 → q = p)) ∧
    ((¬ ∃ p, g.movesMade ≥ pCount ∧ (0 ≤ p ∧ p < pCount) ∧ getPlayerScore g p > 0 ∧
        ∀ q, 0 ≤ q → q < pCount → getPlayerScore g q > 0 → q = p) → getWinner g = -1) := by
  have hpc : g.playerCount = pCount := reach_playerCount _ _ _ _ h
  have key := getWinner_of_aliveOK g (reach_aliveOK _ pCount botType rows cols n g h)
  rw [hpc] at key
  refine ⟨key, fun hno => ?_⟩
  by_contra hne
  exact hno ⟨getWinner g, (key (getWinner g)).1 ⟨rfl, hne⟩⟩

theorem getWinner_sole_survivor_witness :
    Reach (fun _ => True) (newGame 2 0 3 3) 2
        (replay 1 (newGame 2 0 3 3) [(0, 0, 0), (0, 0, 0)]) ∧
      getWinner (replay 1 (newGame 2 0 3 3) [(0, 0, 0), (0, 0, 0)]) = 0 ∧
      ((getWinner (replay 1 (newGame 2 0 3 3) [(0, 0, 0), (0, 0, 0)]) = 0 ∧ (0 : Int) ≠ -1) ↔
        ((replay 1 (newGame 2 0 3 3) [(0, 0, 0), (0, 0, 0)]).movesMade ≥ 2 ∧
          (0 ≤ (0 : Int) ∧ (0 : Int) < 2) ∧
          getPlayerScore (replay 1 (newGame 2 0 3 3) [(0, 0, 0), (0, 0, 0)]) 0 > 0 ∧
          ∀ q, 0 ≤ q → q < 2 →
            getPlayerScore (replay 1 (newGame 2 0 3 3) [(0, 0, 0), (0, 0, 0)]) q > 0 →
              q = 0)) :=
  ⟨reach_scenarioB _ trivial, by decide,
    (getWinner_sole_survivor 2 0 3 3 2 _ (reach_scenarioB _ trivial)).1 0⟩

/-- C6 (grace period): for a game created with `playerCount = P`, after any sequence of
returned `makeMove` calls of which fewer than `P` were accepted (and any number rejected),
`getWinner()` returns `-1`. -/
theorem grace_period (pCount botType rows cols : Int) (n : Nat) (g : ChainReactionGame)
    (h : Reach (fun _ => True) (newGame pCount botType rows cols) n g)
    (hn : (n : Int) < pCount) : getWinner g = -1 := by
  obtain ⟨_, _, hpc, hm⟩ := reach_frame _ _ _ _ h
  have hlt : g.movesMade < g.playerCount := by
    rw [hpc, hm]; simp [newGame]; exact hn
  simp [getWinner, hlt]

theorem grace_period_witness :
    Reach (fun _ => True) (newGame 2 0 3 3) 1 (replay 1 (newGame 2 0 3 3) [(0, 0, 0)]) ∧
      ((1 : Nat) : Int) < 2 ∧
      getPlayerScore (replay 1 (newGame 2 0 3 3) [(0, 0, 0)]) 0 = 1 ∧
      getPlayerScore (replay 1 (newGame 2 0 3 3) [(0, 0, 0)]) 1 = 0 ∧
      getWinner (replay 1 (newGame 2 0 3 3) [(0, 0, 0)]) = -1 :=
  ⟨reach_scenarioA _ trivial, by decide, by decide, by decide,
    grace_period 2 0 3 3 1 _ (reach_scenarioA _ trivial) (by decide)⟩

/-! ## Eliminated players, the move counter, cell capacities -/

/-- C11: for a player id outside `0..playerCount-1`, `getPlayerScore` returns 0 and
`isPlayerEliminated` returns `true` in every state; for a player id inside that range,
`isPlayerEliminated` returns `false` while the move counter is below `playerCount` and
afterwards returns `true` exactly when the player's score is `<= 0`. -/
theorem eliminated_spec (g : ChainReactionGame) (player : Int) :
    ((player < 0 ∨ player ≥ g.playerCount) →
      getPlayerScore g player = 0 ∧ isPlayerEliminated g player = true) ∧
    ((0 ≤ player ∧ player < g.playerCount) →
      (g.movesMade < g.playerCount → isPlayerEliminated g player = false) ∧
      (g.movesMade ≥ g.playerCount →
        (isPlayerEliminated g player = true ↔ getPlayerScore g player ≤ 0))) := by
  constructor
  · intro h
    have hr : player < 0 ∨ player ≥ playerScoresSize g := by
      unfold playerScoresSize; split_ifs <;> omega
    simp [getPlayerScore, isPlayerEliminated, hr]
  · intro h
    have hr : ¬ (player < 0 ∨ player ≥ playerScoresSize g) := by
      unfold playerScoresSize; split_ifs <;> omega
    constructor
    · intro hm
      simp [isPlayerEliminated, hr, hm]
    · intro hm
      have hm' : ¬ (g.movesMade < g.playerCount) := by omega
      simp [isPlayerEliminated, getPlayerScore, hr, hm']

theorem eliminated_spec_witness :
    (getPlayerScore (replay 1 (newGame 2 0 3 3) [(0, 0, 0), (0, 0, 0)]) 2 = 0 ∧
      isPlayerEliminated (replay 1 (newGame 2 0 3 3) [(0, 0, 0), (0, 0, 0)]) 2 = true) ∧
    isPlayerEliminated (replay 1 (newGame 2 0 3 3) [(0, 0, 0)]) 1 = false ∧
    (isPlayerEliminated (replay 1 (newGame 2 0 3 3) [(0, 0, 0), (0, 0, 0)]) 1 = true ↔
      getPlayerScore (replay 1 (newGame 2 0 3 3) [(0, 0, 0), (0, 0, 0)]) 1 ≤ 0) :=
  ⟨(eliminated_spec (replay 1 (newGame 2 0 3 3) [(0, 0, 0), (0, 0, 0)]) 2).1
      (Or.inr (by decide)),
    ((eliminated_spec (replay 1 (newGame 2 0 3 3) [(0, 0, 0)]) 1).2
      ⟨by decide, by decide⟩).1 (by decide),
    ((eliminated_spec (replay 1 (newGame 2 0 3 3) [(0, 0, 0), (0, 0, 0)]) 1).2
      ⟨by decide, by decide⟩).2 (by decide)⟩

/-- C16: `getCellCapacity` is 1 at the four corners, 2 on the border outside the corners and
3 everywhere else, for every in-bounds cell of every board; it reads the dimensions only, so
two games of the same dimensions agree whatever their grids hold. -/
theorem getCellCapacity_positional (g g' : ChainReactionGame) (r c : Int)
    (_hb : InBounds g r c) :
    (((r = 0 ∨ r = g.rows - 1) ∧ (c = 0 ∨ c = g.cols - 1)) → getCellCapacity g r c = 1) ∧
    (((r = 0 ∨ r = g.rows - 1 ∨ c = 0 ∨ c = g.cols - 1) ∧
        ¬ ((r = 0 ∨ r = g.rows - 1) ∧ (c = 0 ∨ c = g.cols - 1))) →
      getCellCapacity g r c = 2) ∧
    (¬ (r = 0 ∨ r = g.rows - 1 ∨ c = 0 ∨ c = g.cols - 1) → getCellCapacity g r c = 3) ∧
    (g'.rows = g.rows → g'.cols = g.cols → getCellCapacity g' r c = getCellCapacity g r c) := by
  refine ⟨fun h => ?_, fun h => ?_, fun h => ?_, fun h1 h2 => ?_⟩
  · simp [getCellCapacity, h]
  · simp [getCellCapacity, h.1, h.2]
  · have h' : ¬ ((r = 0 ∨ r = g.rows - 1) ∧ (c = 0 ∨ c = g.cols - 1)) := by
      intro hc; apply h; rcases hc.1 with h0 | h0
      · exact Or.inl h0
      · exact Or.inr (Or.inl h0)
    simp [getCellCapacity, h, h']
  · exact getCellCapacity_congr g g' r c h1 h2

theorem getCellCapacity_positional_witness :
    getCellCapacity (newGame 2 0 3 4) 2 3 = 1 ∧ getCellCapacity (newGame 2 0 3 4) 0 2 = 2 ∧
      getCellCapacity (newGame 2 0 3 4) 1 1 = 3 ∧
      getCellCapacity (replay 1 (newGame 2 0 3 3) [(0, 0, 0), (0, 0, 0)]) 1 1 =
        getCellCapacity (newGame 2 0 3 3) 1 1 :=
  ⟨(getCellCapacity_positional (newGame 2 0 3 4) (newGame 2 0 3 4) 2 3
      ⟨by decide, by decide, by decide, by decide⟩).1 (by decide),
    (getCellCapacity_positional (newGame 2 0 3 4) (newGame 2 0 3 4) 0 2
      ⟨by decide, by decide, by decide, by decide⟩).2.1 (by decide),
    (getCellCapacity_positional (newGame 2 0 3 4) (newGame 2 0 3 4) 1 1
      ⟨by decide, by decide, by decide, by decide⟩).2.2.1 (by decide),
    (getCellCapacity_positional (newGame 2 0 3 3)
      (replay 1 (newGame 2 0 3 3) [(0, 0, 0), (0, 0, 0)]) 1 1
      ⟨by decide, by decide, by decide, by decide⟩).2.2.2 (by rfl) (by rfl)⟩

/-! ## Orbs on the board: what an explosion removes and adds -/

theorem totalOrbs_congr (g g' : ChainReactionGame) (h1 : g'.rows = g.rows)
    (h2 : g'.cols = g.cols) (h3 : g'.grid = g.grid) : totalOrbs g' = totalOrbs g := by
  unfold totalOrbs; rw [h1, h2, h3]

theorem totalOrbs_setCell (g g' : ChainReactionGame) (r c : Int) (v : Cell)
    (hb : InBounds g r c) (h1 : g'.rows = g.rows) (h2 : g'.cols = g.cols)
    (h3 : g'.grid = setCell g.grid r c v) :
    totalOrbs g' = totalOrbs g - (g.grid r c).orbs + v.orbs := by
  unfold totalOrbs
  rw [h1, h2, h3]
  refine sum_setCell _ _ _ _ _ Cell.orbs ?_
  simp only [Finset.mem_product, Finset.mem_Ico]
  exact ⟨⟨hb.1, hb.2.1⟩, hb.2.2.1, hb.2.2.2⟩

theorem feedNeighbor_total (r c owner : Int) (s : CascadeState) (d : Int × Int)
    (hok : CellsOK s.game.grid) :
    totalOrbs (feedNeighbor r c owner s d).game =
      totalOrbs s.game +
        (if r + d.1 < 0 ∨ r + d.1 ≥ s.game.rows ∨ c + d.2 < 0 ∨ c + d.2 ≥ s.game.cols then 0
          else 1) := by
  rw [feedNeighbor_game]
  split_ifs with hb
  · simp
  · rw [totalOrbs_setCell s.game _ (r + d.1) (c + d.2) _ (by unfold InBounds; omega) (by simp)
      (by simp) (feedGame_grid r c owner s.game _ _), fedCell_orbs owner _ (hok _ _)]
    ring

theorem feedFold_total (g0 : ChainReactionGame) (r c owner : Int) (ho : owner ≠ -1) :
    ∀ (l : List (Int × Int)) (s : CascadeState), s.game.rows = g0.rows →
      s.game.cols = g0.cols → CellsOK s.game.grid →
      totalOrbs (l.foldl (feedNeighbor r c owner) s).game =
        totalOrbs s.game + ((l.filter (openDirection g0 r c)).length : Int) := by
  intro l
  induction l with
  | nil => intro s _ _ _; simp
  | cons d l ih =>
    intro s hr hc hok
    simp only [List.foldl_cons]
    rw [ih (feedNeighbor r c owner s d) (by simp [hr]) (by simp [hc])
      (feedNeighbor_cellsOK r c owner ho s d hok), feedNeighbor_total r c owner s d hok]
    rw [hr, hc]
    by_cases hb : r + d.1 < 0 ∨ r + d.1 ≥ g0.rows ∨ c + d.2 < 0 ∨ c + d.2 ≥ g0.cols
    · have hd : ¬ (openDirection g0 r c d = true) := by simp [openDirection, hb]
      rw [List.filter_cons_of_neg hd]
      simp [hb]
    · have hd : openDirection g0 r c d = true := by simp only [openDirection, hb]; decide
      rw [List.filter_cons_of_pos hd]
      simp only [hb, if_false, List.length_cons]
      push_cast; ring

theorem length_filter_four {α : Type} (p : α → Bool) (a b c d : α) :
    (([a, b, c, d].filter p).length : Int) =
      (if p a = true then 1 else 0) + (if p b = true then 1 else 0) +
        (if p c = true then 1 else 0) + (if p d = true then 1 else 0) := by
  cases ha : p a <;> cases hb : p b <;> cases hc : p c <;> cases hd : p d <;>
    simp [List.filter_cons, ha, hb, hc, hd]

theorem openDirections_le (g : ChainReactionGame) (r c : Int) (hb : InBounds g r c) :
    ((openDirections g r c).length : Int) ≤ getCellCapacity g r c + 1 := by
  obtain ⟨h0, h1, h2, h3⟩ := hb
  have hu : (openDirection g r c (-1, 0) = true) ↔ r ≠ 0 := by
    simp only [openDirection, decide_eq_true_eq]; omega
  have hd : (openDirection g r c (1, 0) = true) ↔ r ≠ g.rows - 1 := by
    simp only [openDirection, decide_eq_true_eq]; omega
  have hl : (openDirection g r c (0, -1) = true) ↔ c ≠ 0 := by
    simp only [openDirection, decide_eq_true_eq]; omega
  have hrt : (openDirection g r c (0, 1) = true) ↔ c ≠ g.cols - 1 := by
    simp only [openDirection, decide_eq_true_eq]; omega
  unfold openDirections directions getCellCapacity
  rw [length_filter_four]
  simp only [hu, hd, hl, hrt]
  split_ifs <;> omega

/-- On a board with at least two rows and two columns every cell has exactly one in-bounds
neighbour more than its capacity: two at a corner, three on an edge, four inside. -/
theorem openDirections_eq (g : ChainReactionGame) (r c : Int) (hb : InBounds g r c)
    (hrows : 2 ≤ g.rows) (hcols : 2 ≤ g.cols) :
    ((openDirections g r c).length : Int) = getCellCapacity g r c + 1 := by
  obtain ⟨h0, h1, h2, h3⟩ := hb
  have hu : (openDirection g r c (-1, 0) = true) ↔ r ≠ 0 := by
    simp only [openDirection, decide_eq_true_eq]; omega
  have hd : (openDirection g r c (1, 0) = true) ↔ r ≠ g.rows - 1 := by
    simp only [openDirection, decide_eq_true_eq]; omega
  have hl : (openDirection g r c (0, -1) = true) ↔ c ≠ 0 := by
    simp only [openDirection, decide_eq_true_eq]; omega
  have hrt : (openDirection g r c (0, 1) = true) ↔ c ≠ g.cols - 1 := by
    simp only [openDirection, decide_eq_true_eq]; omega
  unfold openDirections directions getCellCapacity
  rw [length_filter_four]
  simp only [hu, hd, hl, hrt]
  split_ifs <;> omega

/-- The size condition of `openDirections_eq` is needed: the middle cell of a board with one
row and three columns has capacity 2 and only two in-bounds neighbours, so an explosion
there loses an orb. -/
theorem narrow_board_leaks :
    getCellCapacity (newGame 2 0 1 3) 0 1 = 2 ∧
      (openDirections (newGame 2 0 1 3) 0 1).length = 2 :=
  ⟨by rfl, by rfl⟩

/-- What one explosion does to the number of orbs on the board. -/
theorem explodeCell_total (s : CascadeState) (r c : Int) (hok : CellsOK s.game.grid)
    (hb : InBounds s.game r c)
    (hx : ¬ ((s.game.grid r c).owner = -1 ∨ (s.game.grid r c).orbs ≤ getCellCapacity s.game r c)) :
    totalOrbs (explodeCell s r c).game =
      totalOrbs s.game - (s.game.grid r c).orbs + ((openDirections s.game r c).length : Int) := by
  have ho : (s.game.grid r c).owner ≠ -1 := fun h' => hx (Or.inl h')
  unfold explodeCell
  simp only [hx, if_false]
  rw [feedFold_total s.game r c _ ho directions _ (by simp) (by simp)
    (by simp only [adjustPlayerScore_grid]; exact CellsOK_setCell _ _ _ _ hok (by simp))]
  rw [totalOrbs_setCell s.game _ r c ⟨-1, 0⟩ hb (by simp) (by simp) (by simp)]
  unfold openDirections
  ring

/-- C18, as stated, fails: inside the second call of scenario B the corner `(0,0)` of the 3x3
board holds 2 orbs (capacity 1) and explodes; it has two in-bounds neighbours, so 2 orbs are
removed, 2 orbs are added, and the board holds as many orbs after the explosion as before. -/
theorem corner_explosion_keeps_total :
    (placeOrb (replay 1 (newGame 2 0 3 3) [(0, 0, 0)]) 0 0 0).grid 0 0 = ⟨0, 2⟩ ∧
      getCellCapacity (placeOrb (replay 1 (newGame 2 0 3 3) [(0, 0, 0)]) 0 0 0) 0 0 = 1 ∧
      (openDirections (placeOrb (replay 1 (newGame 2 0 3 3) [(0, 0, 0)]) 0 0 0) 0 0).length = 2 ∧
      totalOrbs (explodeCell ⟨placeOrb (replay 1 (newGame 2 0 3 3) [(0, 0, 0)]) 0 0 0, [],
        setAt (fun _ => false) 0 true⟩ 0 0).game =
          totalOrbs (placeOrb (replay 1 (newGame 2 0 3 3) [(0, 0, 0)]) 0 0 0) :=
  ⟨by rfl, by rfl, by rfl, by rfl⟩

/-- C18, amended: whenever `processChainReaction` explodes a cell, boundary cells included,
of a grid that satisfies the cell invariant, the orbs removed from the cell are at least as
many as the orbs added to its in-bounds neighbours (one each), so the number of orbs on the
board does not increase at that explosion. On a board with at least two rows and two columns
the cell, corner and edge cells included, has exactly capacity + 1 in-bounds neighbours, so
the number of orbs on the board stays the same when the cell held exactly capacity + 1
orbs. -/
theorem explosion_never_adds_orbs (s : CascadeState) (r c : Int) (hok : CellsOK s.game.grid)
    (hb : InBounds s.game r c)
    (hx : (s.game.grid r c).owner ≠ -1 ∧ (s.game.grid r c).orbs > getCellCapacity s.game r c) :
    totalOrbs (explodeCell s r c).game =
        totalOrbs s.game - (s.game.grid r c).orbs +
          ((openDirections s.game r c).length : Int) ∧
      ((openDirections s.game r c).length : Int) ≤ (s.game.grid r c).orbs ∧
      totalOrbs (explodeCell s r c).game ≤ totalOrbs s.game ∧
      (2 ≤ s.game.rows → 2 ≤ s.game.cols →
        ((openDirections s.game r c).length : Int) = getCellCapacity s.game r c + 1) ∧
      (2 ≤ s.game.rows → 2 ≤ s.game.cols →
        (s.game.grid r c).orbs = getCellCapacity s.game r c + 1 →
        totalOrbs (explodeCell s r c).game = totalOrbs s.game) := by
  have hx' : ¬ ((s.game.grid r c).owner = -1 ∨
      (s.game.grid r c).orbs ≤ getCellCapacity s.game r c) := by
    intro h; rcases h with h | h
    · exact hx.1 h
    · omega
  have h1 := explodeCell_total s r c hok hb hx'
  have h2 := openDirections_le s.game r c hb
  refine ⟨h1, by omega, by omega, fun hr hc => openDirections_eq s.game r c hb hr hc, ?_⟩
  intro hr hc ho
  have h3 := openDirections_eq s.game r c hb hr hc
  omega

theorem explosion_never_adds_orbs_witness :
    totalOrbs (explodeCell ⟨placeOrb corneredBoard 0 1 1, [],
        setAt (fun _ => false) 1 true⟩ 0 1).game =
        totalOrbs (placeOrb corneredBoard 0 1 1) - ((placeOrb corneredBoard 0 1 1).grid 0 1).orbs +
          ((openDirections (placeOrb corneredBoard 0 1 1) 0 1).length : Int) ∧
      ((openDirections (placeOrb corneredBoard 0 1 1) 0 1).length : Int) ≤
        ((placeOrb corneredBoard 0 1 1).grid 0 1).orbs ∧
      totalOrbs (explodeCell ⟨placeOrb corneredBoard 0 1 1, [],
        setAt (fun _ => false) 1 true⟩ 0 1).game ≤ totalOrbs (placeOrb corneredBoard 0 1 1) ∧
      (2 ≤ (placeOrb corneredBoard 0 1 1).rows → 2 ≤ (placeOrb corneredBoard 0 1 1).cols →
        ((openDirections (placeOrb corneredBoard 0 1 1) 0 1).length : Int) =
          getCellCapacity (placeOrb corneredBoard 0 1 1) 0 1 + 1) ∧
      (2 ≤ (placeOrb corneredBoard 0 1 1).rows → 2 ≤ (placeOrb corneredBoard 0 1 1).cols →
        ((placeOrb corneredBoard 0 1 1).grid 0 1).orbs =
          getCellCapacity (placeOrb corneredBoard 0 1 1) 0 1 + 1 →
        totalOrbs (explodeCell ⟨placeOrb corneredBoard 0 1 1, [],
          setAt (fun _ => false) 1 true⟩ 0 1).game = totalOrbs (placeOrb corneredBoard 0 1 1)) :=
  explosion_never_adds_orbs
    ⟨placeOrb corneredBoard 0 1 1, [], setAt (fun _ => false) 1 true⟩ 0 1
    (placeOrb_cellsOK corneredBoard 0 1 1 (by decide) corneredBoard_cellsOK)
    ⟨by decide, by decide, by decide, by decide⟩
    ⟨by
      have h : ((placeOrb corneredBoard 0 1 1).grid 0 1).owner = 1 := by rfl
      show ((placeOrb corneredBoard 0 1 1).grid 0 1).owner ≠ -1
      rw [h]; decide,
     by
      have h1 : ((placeOrb corneredBoard 0 1 1).grid 0 1).orbs = 2 := by rfl
      have h2 : getCellCapacity (placeOrb corneredBoard 0 1 1) 0 1 = 1 := by rfl
      show ((placeOrb corneredBoard 0 1 1).grid 0 1).orbs >
        getCellCapacity (placeOrb corneredBoard 0 1 1) 0 1
      rw [h1, h2]; decide⟩

/-! ## Only the mover gains -/

theorem fedCell_owner (owner : Int) (cell : Cell) : (fedCell owner cell).owner = owner := by
  unfold fedCell; split_ifs with h1 h2
  · rfl
  · exact h2
  · rfl

theorem fedCell_orbs_nonneg (owner : Int) (cell : Cell) (h : 0 ≤ cell.orbs) :
    0 ≤ (fedCell owner cell).orbs := by
  unfold fedCell; split_ifs <;> simp <;> omega

theorem getPlayerScore_feedGame_le (r c owner : Int) (g : ChainReactionGame) (nr nc q : Int)
    (hq : q ≠ owner) (h0 : 0 ≤ (g.grid nr nc).orbs) :
    getPlayerScore (feedGame r c owner g nr nc) q ≤ getPlayerScore g q := by
  have hbase : ∀ (ev : List OrbAnimationEvent) (gr : Int → Int → Cell) (q : Int),
      getPlayerScore { g with lastAnimationEvents := ev, grid := gr } q = getPlayerScore g q :=
    fun _ _ _ => rfl
  unfold feedGame
  simp only
  split_ifs with h1 h2
  · rw [getPlayerScore_adjust, hbase]; simp [hq]
  · rw [getPlayerScore_adjust, hbase]; simp [hq]
  · rw [getPlayerScore_adjust, getPlayerScore_adjust, hbase]
    simp only [hq, if_false]
    split_ifs <;> omega

theorem feedNeighbor_moverOnly (p : Int) (base : ChainReactionGame) (r c : Int)
    (s : CascadeState) (d : Int × Int) (h : MoverOnly p base s) :
    MoverOnly p base (feedNeighbor r c p s d) := by
  obtain ⟨hq, hev, hgrid, horbs, hsc⟩ := h
  by_cases hb : r + d.1 < 0 ∨ r + d.1 ≥ s.game.rows ∨ c + d.2 < 0 ∨ c + d.2 ≥ s.game.cols
  · rw [feedNeighbor_of_oob r c p s d hb]
    exact ⟨hq, hev, hgrid, horbs, hsc⟩
  · have hg : (feedNeighbor r c p s d).game = feedGame r c p s.game (r + d.1) (c + d.2) := by
      rw [feedNeighbor_game]; simp only [hb, if_false]
    have hgr : (feedNeighbor r c p s d).game.grid =
        setCell s.game.grid (r + d.1) (c + d.2) (fedCell p (s.game.grid (r + d.1) (c + d.2))) := by
      rw [hg]; exact feedGame_grid _ _ _ _ _ _
    have hown : ∀ r' c', ((feedNeighbor r c p s d).game.grid r' c').owner = p ∨
        (feedNeighbor r c p s d).game.grid r' c' = s.game.grid r' c' := by
      intro r' c'
      rw [hgr]; unfold setCell
      split_ifs
      · exact Or.inl (fedCell_owner p _)
      · exact Or.inr rfl
    refine ⟨?_, ?_, ?_, ?_, ?_⟩
    · intro pos hpos
      rcases feedNeighbor_q r c p s d pos hpos with h2 | ⟨h2, _⟩
      · rcases hown pos.1 pos.2 with h1 | h1
        · exact Or.inl h1
        · rw [h1]; exact hq pos h2
      · left
        rw [hgr, h2]
        simp only [setCell, and_self, if_true]
        exact fedCell_owner p _
    · intro e he
      rw [hg, feedGame_events] at he
      simp only [List.mem_append, List.mem_singleton] at he
      rcases he with he | he
      · exact hev e he
      · rw [he]
    · intro r' c'
      rcases hown r' c' with h1 | h1
      · exact Or.inr (Or.inl h1)
      · rw [h1]; exact hgrid r' c'
    · intro r' c'
      rw [hgr]; unfold setCell
      split_ifs
      · exact fedCell_orbs_nonneg p _ (horbs _ _)
      · exact horbs r' c'
    · intro q hqp
      rw [hg]
      exact le_trans (getPlayerScore_feedGame_le r c p s.game _ _ q hqp (horbs _ _)) (hsc q hqp)


theorem explodeCell_moverOnly (p : Int) (base : ChainReactionGame) (g : ChainReactionGame)
    (pos : Int × Int) (rest : List (Int × Int)) (iq : Int → Bool)
    (h : MoverOnly p base ⟨g, pos :: rest, iq⟩) :
    MoverOnly p base (explodeCell ⟨g, rest, iq⟩ pos.1 pos.2) := by
  obtain ⟨hq, hev, hgrid, horbs, hsc⟩ := h
  have hrest : MoverOnly p base ⟨g, rest, iq⟩ :=
    ⟨fun x hx => hq x (List.mem_cons_of_mem _ hx), hev, hgrid, horbs, hsc⟩
  unfold explodeCell
  simp only
  split_ifs with hc
  · exact hrest
  · have hne : (g.grid pos.1 pos.2).owner ≠ -1 := fun h' => hc (Or.inl h')
    have hown : (g.grid pos.1 pos.2).owner = p := by
      rcases hq pos (List.mem_cons_self _ _) with h1 | h1
      · exact h1
      · exact absurd h1 hne
    rw [hown]
    refine foldl_preserves (MoverOnly p base) _ ?_ _ _ ?_
    · intro a b ha
      exact feedNeighbor_moverOnly p base pos.1 pos.2 a b ha
    · refine ⟨?_, ?_, ?_, ?_, ?_⟩
      · intro x hx
        simp only [adjustPlayerScore_grid]
        unfold setCell
        split_ifs
        · exact Or.inr rfl
        · exact hq x (List.mem_cons_of_mem _ hx)
      · intro e he
        simp only [adjustPlayerScore_events] at he
        exact hev e he
      · intro r' c'
        simp only [adjustPlayerScore_grid]
        unfold setCell
        split_ifs
        · exact Or.inr (Or.inr rfl)
        · exact hgrid r' c'
      · intro r' c'
        simp only [adjustPlayerScore_grid]
        unfold setCell
        split_ifs
        · exact le_refl _
        · exact horbs r' c'
      · intro q hqp
        have hbase : ∀ (g0 : ChainReactionGame) (gr : Int → Int → Cell),
            getPlayerScore { g0 with grid := gr } q = getPlayerScore g0 q := fun _ _ => rfl
        simp only
        rw [hbase, getPlayerScore_adjust]
        simp only [hqp, if_false]
        exact hsc q hqp

theorem cascadeLoop_moverOnly (p : Int) (base : ChainReactionGame) (fuel : Nat)
    (s s' : CascadeState) (h : MoverOnly p base s) (hl : cascadeLoop fuel s = some s') :
    MoverOnly p base s' :=
  cascadeLoop_preserves (MoverOnly p base)
    (fun g pos rest iq hg => explodeCell_moverOnly p base g pos rest iq hg) fuel s s' h hl

theorem getPlayerScore_clamp (g : ChainReactionGame) (q : Int) :
    getPlayerScore (clampPlayerScores g) q =
      if getPlayerScore g q < 0 then 0 else getPlayerScore g q := by
  have hsz : playerScoresSize (clampPlayerScores g) = playerScoresSize g :=
    playerScoresSize_congr _ _ (clampPlayerScores_frame g).2.2.1
  unfold getPlayerScore
  rw [hsz, clampPlayerScores_scores]
  by_cases hr : q < 0 ∨ q ≥ playerScoresSize g
  · simp [hr]
  · have hr' : 0 ≤ q ∧ q < playerScoresSize g := by omega
    simp only [hr, if_false, hr', true_and]

/-- What an accepted call does, seen from the players other than the mover. -/
theorem makeMove_moverOnly (fuel : Nat) (g : ChainReactionGame) (r c p : Int)
    (g' : ChainReactionGame) (hg : NonNeg g) (h : makeMove fuel g r c p = some (true, g')) :
    (∀ e ∈ g'.lastAnimationEvents, e.playerOwner = p) ∧
    (∀ r' c', (g'.grid r' c').owner ≠ (g.grid r' c').owner →
      (g'.grid r' c').owner = p ∨ g'.grid r' c' = ⟨-1, 0⟩) ∧
    (∀ q, q ≠ p → getPlayerScore g' q ≤ getPlayerScore g q) ∧
    (∀ r' c', 0 ≤ (g'.grid r' c').orbs) := by
  have hmoves : ∀ (g0 : ChainReactionGame) (m q : Int),
      getPlayerScore { g0 with movesMade := m } q = getPlayerScore g0 q := fun _ _ _ => rfl
  have hplace : MoverOnly p g
      ⟨placeOrb g r c p, [(r, c)], setAt (fun _ => false) (flatIndex g r c) true⟩ := by
    refine ⟨?_, ?_, ?_, ?_, ?_⟩
    · intro pos hpos
      simp only [List.mem_singleton] at hpos
      subst hpos
      left; simp [setCell]
    · intro e he; simp at he
    · intro r' c'
      simp only [placeOrb_grid]
      unfold setCell
      split_ifs
      · exact Or.inr (Or.inl rfl)
      · exact Or.inl rfl
    · intro r' c'
      simp only [placeOrb_grid]
      unfold setCell
      split_ifs
      · have := hg.1 r c; simp only; omega
      · exact hg.1 r' c'
    · intro q hq
      simp only
      rw [getPlayerScore_placeOrb]; simp [hq]
  rcases makeMove_cases fuel g r c p true g' h with ⟨_, hb, _⟩ | ⟨_, _, _, rfl⟩ |
    ⟨_, _, _, s', hs', rfl⟩
  · exact absurd hb (by decide)
  · obtain ⟨_, h2, h3, h4, h5⟩ := hplace
    refine ⟨h2, ?_, ?_, h4⟩
    · intro r' c' hne
      rcases h3 r' c' with h | h | h
      · exact absurd h hne
      · exact Or.inl h
      · exact Or.inr h
    · intro q hq; rw [hmoves]; exact h5 q hq
  · obtain ⟨_, h2, h3, h4, h5⟩ := cascadeLoop_moverOnly p g fuel _ s' hplace hs'
    obtain ⟨_, _, _, _, k5, k6⟩ := clampPlayerScores_frame s'.game
    refine ⟨?_, ?_, ?_, ?_⟩
    · intro e he
      simp only [k6] at he
      exact h2 e he
    · intro r' c' hne
      simp only [k5] at hne ⊢
      rcases h3 r' c' with h | h | h
      · exact absurd h hne
      · exact Or.inl h
      · exact Or.inr h
    · intro q hq
      rw [hmoves, getPlayerScore_clamp]
      have := h5 q hq
      have := hg.2 q
      split_ifs <;> omega
    · intro r' c'
      simp only [k5]
      exact h4 r' c'

theorem makeMove_nonNeg (fuel : Nat) (g : ChainReactionGame) (r c p : Int) (b : Bool)
    (g' : ChainReactionGame) (hg : NonNeg g) (h : makeMove fuel g r c p = some (b, g')) :
    NonNeg g' := by
  have hmoves : ∀ (g0 : ChainReactionGame) (m q : Int),
      getPlayerScore { g0 with movesMade := m } q = getPlayerScore g0 q := fun _ _ _ => rfl
  cases b with
  | false =>
    rcases makeMove_cases fuel g r c p false g' h with ⟨_, _, rfl⟩ | ⟨_, hb, _⟩ | ⟨_, hb, _⟩
    · exact hg
    · exact absurd hb (by decide)
    · exact absurd hb (by decide)
  | true =>
    refine ⟨(makeMove_moverOnly fuel g r c p g' hg h).2.2.2, ?_⟩
    intro q
    rcases makeMove_cases fuel g r c p true g' h with ⟨_, hb, _⟩ | ⟨_, _, _, rfl⟩ |
      ⟨_, _, _, s', _, rfl⟩
    · exact absurd hb (by decide)
    · rw [hmoves, getPlayerScore_placeOrb]
      have := hg.2 q
      split_ifs <;> omega
    · rw [hmoves, getPlayerScore_clamp]
      split_ifs <;> omega

theorem reach_nonNeg (ok : Int → Prop) (pCount botType rows cols : Int) (n : Nat)
    (g : ChainReactionGame) (h : Reach ok (newGame pCount botType rows cols) n g) :
    NonNeg g := by
  induction h with
  | start =>
    refine ⟨fun r c => by simp [newGame], fun q => ?_⟩
    unfold getPlayerScore; split_ifs <;> simp [newGame]
  | accepted fuel r c player _ _ hm ih => exact makeMove_nonNeg fuel _ r c player _ _ ih hm
  | rejected fuel r c player _ _ hm ih => exact makeMove_nonNeg fuel _ r c player _ _ ih hm

/-- C20 (only the mover gains): in a state reached from a fresh game, a `makeMove(r,c,p)`
call that returns `true` leaves a trace whose events are all attributed to `p`, leaves every
cell whose owner changed owned by `p` or empty, and leaves no player other than `p` with a
higher score than before the call. -/
theorem only_the_mover_gains (pCount botType rows cols : Int) (n : Nat)
    (g : ChainReactionGame)
    (h : Reach (fun _ => True) (newGame pCount botType rows cols) n g)
    (fuel : Nat) (r c p : Int) (g' : ChainReactionGame)
    (hcall : makeMove fuel g r c p = some (true, g')) :
    (∀ e ∈ getLastAnimationEvents g', e.playerOwner = p) ∧
    (∀ r' c', (g'.grid r' c').owner ≠ (g.grid r' c').owner →
      (g'.grid r' c').owner = p ∨ g'.grid r' c' = ⟨-1, 0⟩) ∧
    (∀ q, q ≠ p → getPlayerScore g' q ≤ getPlayerScore g q) := by
  obtain ⟨h1, h2, h3, _⟩ := makeMove_moverOnly fuel g r c p g'
    (reach_nonNeg _ pCount botType rows cols n g h) hcall
  exact ⟨h1, h2, h3⟩

theorem only_the_mover_gains_witness :
    (∀ e ∈ getLastAnimationEvents (replay 1 (newGame 2 0 3 3) [(0, 0, 0), (0, 0, 0)]),
      e.playerOwner = 0) ∧
    (∀ r' c', ((replay 1 (newGame 2 0 3 3) [(0, 0, 0), (0, 0, 0)]).grid r' c').owner ≠
        ((replay 1 (newGame 2 0 3 3) [(0, 0, 0)]).grid r' c').owner →
      ((replay 1 (newGame 2 0 3 3) [(0, 0, 0), (0, 0, 0)]).grid r' c').owner = 0 ∨
        (replay 1 (newGame 2 0 3 3) [(0, 0, 0), (0, 0, 0)]).grid r' c' = ⟨-1, 0⟩) ∧
    (∀ q, q ≠ 0 →
      getPlayerScore (replay 1 (newGame 2 0 3 3) [(0, 0, 0), (0, 0, 0)]) q ≤
        getPlayerScore (replay 1 (newGame 2 0 3 3) [(0, 0, 0)]) q) :=
  only_the_mover_gains 2 0 3 3 1 (replay 1 (newGame 2 0 3 3) [(0, 0, 0)])
    (reach_scenarioA _ trivial) 1 0 0 0 (replay 1 (newGame 2 0 3 3) [(0, 0, 0), (0, 0, 0)])
    (show makeMove 1 (replay 1 (newGame 2 0 3 3) [(0, 0, 0)]) 0 0 0 =
      some (true, replay 1 (newGame 2 0 3 3) [(0, 0, 0), (0, 0, 0)]) by rfl)

/-! ## Stability: the drained worklist leaves no cell above capacity -/

theorem flatIndex_inj (g : ChainReactionGame) (r c r' c' : Int) (h : InBounds g r c)
    (h' : InBounds g r' c') (he : flatIndex g r c = flatIndex g r' c') : r = r' ∧ c = c' := by
  obtain ⟨_, _, h2, h3⟩ := h
  obtain ⟨_, _, h2', h3'⟩ := h'
  unfold flatIndex at he
  have hr : r = r' := by
    by_contra hne
    rcases lt_or_gt_of_ne hne with hlt | hgt
    · have : (r + 1) * g.cols ≤ r' * g.cols :=
        Int.mul_le_mul_of_nonneg_right (by omega) (by omega)
      nlinarith
    · have : (r' + 1) * g.cols ≤ r * g.cols :=
        Int.mul_le_mul_of_nonneg_right (by omega) (by omega)
      nlinarith
  subst hr
  exact ⟨rfl, by omega⟩

theorem getCellCapacity_pos (g : ChainReactionGame) (r c : Int) : 1 ≤ getCellCapacity g r c := by
  unfold getCellCapacity; split_ifs <;> omega

theorem orbFeed_queueOK (g0 : ChainReactionGame) (r c : Int) (a : OrbLayer) (d : Int × Int)
    (h : QueueOK g0 a) : QueueOK g0 (orbFeed g0 r c a d) := by
  obtain ⟨hf, ho⟩ := h
  unfold orbFeed
  simp only
  split_ifs with hb hc
  · exact ⟨hf, ho⟩
  · have hin : InBounds g0 (r + d.1) (c + d.2) := by unfold InBounds; omega
    refine ⟨?_, ?_⟩
    · intro r' c' hb' hflag
      simp only [List.mem_append, List.mem_singleton]
      by_cases hx : flatIndex g0 r' c' = flatIndex g0 (r + d.1) (c + d.2)
      · obtain ⟨h1, h2⟩ := flatIndex_inj g0 _ _ _ _ hb' hin hx
        right; rw [h1, h2]
      · simp only [setAt, hx, if_false] at hflag
        exact Or.inl (hf r' c' hb' hflag)
    · intro r' c' hb' hov
      simp only [List.mem_append, List.mem_singleton]
      by_cases hx : r' = r + d.1 ∧ c' = c + d.2
      · right; rw [hx.1, hx.2]
      · simp only [setOrbs, hx, if_false] at hov
        exact Or.inl (ho r' c' hb' hov)
  · have hin : InBounds g0 (r + d.1) (c + d.2) := by unfold InBounds; omega
    refine ⟨hf, ?_⟩
    intro r' c' hb' hov
    by_cases hx : r' = r + d.1 ∧ c' = c + d.2
    · rw [hx.1, hx.2] at hov ⊢
      have hflag : a.inQueue (flatIndex g0 (r + d.1) (c + d.2)) = true := by
        by_contra hcon
        have : a.inQueue (flatIndex g0 (r + d.1) (c + d.2)) = false := by simpa using hcon
        exact hc ⟨hov, this⟩
      exact hf _ _ hin hflag
    · simp only [setOrbs, hx, if_false] at hov
      exact ho r' c' hb' hov

theorem orbExplode_queueOK (g0 : ChainReactionGame) (orbs : Int → Int → Int) (pos : Int × Int)
    (rest : List (Int × Int)) (iq : Int → Bool)
    (h : QueueOK g0 ⟨orbs, pos :: rest, iq⟩) :
    QueueOK g0 (orbExplode g0 ⟨orbs, rest, iq⟩ pos.1 pos.2) := by
  obtain ⟨pr, pc⟩ := pos
  obtain ⟨hf, ho⟩ := h
  simp only at hf ho
  have hp := getCellCapacity_pos g0 pr pc
  have hflags : ∀ r c, InBounds g0 r c →
      setAt iq (flatIndex g0 pr pc) false (flatIndex g0 r c) = true → (r, c) ∈ rest := by
    intro r c hb hflag
    by_cases hx : flatIndex g0 r c = flatIndex g0 pr pc
    · simp [setAt, hx] at hflag
    · simp only [setAt, hx, if_false] at hflag
      have := hf r c hb hflag
      simp only [List.mem_cons, Prod.mk.injEq] at this
      rcases this with h1 | h1
      · exfalso; apply hx; rw [h1.1, h1.2]
      · exact h1
  unfold orbExplode
  simp only
  split_ifs with hc
  · refine ⟨hflags, ?_⟩
    intro r c hb hov
    simp only at hov
    have := ho r c hb hov
    simp only [List.mem_cons, Prod.mk.injEq] at this
    rcases this with h1 | h1
    · exfalso
      rw [h1.1, h1.2] at hov
      rcases hc with h2 | h2 <;> omega
    · exact h1
  · refine foldl_preserves (QueueOK g0) _ (fun a b ha => orbFeed_queueOK g0 pr pc a b ha)
      _ _ ⟨hflags, ?_⟩
    intro r c hb hov
    by_cases hx : r = pr ∧ c = pc
    · exfalso
      simp only [setOrbs, hx, and_self, if_true] at hov
      omega
    · simp only [setOrbs, hx, if_false] at hov
      have := ho r c hb hov
      simp only [List.mem_cons, Prod.mk.injEq] at this
      rcases this with h1 | h1
      · exact absurd h1 hx
      · exact h1


theorem cascadeLoop_queue_empty :
    ∀ (fuel : Nat) (s s' : CascadeState), cascadeLoop fuel s = some s' → s'.q = [] := by
  intro fuel
  induction fuel with
  | zero =>
    intro s s' h
    obtain ⟨g, q, iq⟩ := s
    cases q with
    | nil => simp [cascadeLoop] at h; subst h; rfl
    | cons pos rest => simp [cascadeLoop] at h
  | succ n ih =>
    intro s s' h
    obtain ⟨g, q, iq⟩ := s
    cases q with
    | nil => simp [cascadeLoop] at h; subst h; rfl
    | cons pos rest =>
      simp only [cascadeLoop] at h
      exact ih _ _ h

theorem cascadeLoop_queueOK (g0 : ChainReactionGame) (fuel : Nat) (s s' : CascadeState)
    (h : ∃ a, LayerOf g0 s a ∧ QueueOK g0 a) (hl : cascadeLoop fuel s = some s') :
    ∃ a, LayerOf g0 s' a ∧ QueueOK g0 a := by
  refine cascadeLoop_preserves (fun t => ∃ a, LayerOf g0 t a ∧ QueueOK g0 a) ?_ fuel s s' h hl
  rintro g pos rest iq ⟨a, hlay, hq⟩
  obtain ⟨k, q, iq'⟩ := a
  obtain ⟨h1, h2, h3, h4, h5, h6⟩ := hlay
  simp only at h5 h6
  subst h5 h6
  exact ⟨_, explodeCell_layer g0 ⟨g, rest, iq⟩ ⟨k, rest, iq⟩ pos.1 pos.2
    ⟨h1, h2, h3, h4, rfl, rfl⟩, orbExplode_queueOK g0 k pos rest iq hq⟩

theorem isMoveValid_inBounds (g : ChainReactionGame) (r c player : Int)
    (hv : isMoveValid g r c player = true) : InBounds g r c := by
  unfold isMoveValid at hv
  unfold InBounds
  by_contra hcon
  have : r < 0 ∨ r ≥ g.rows ∨ c < 0 ∨ c ≥ g.cols := by omega
  simp [this] at hv

theorem makeMove_stable (fuel : Nat) (g : ChainReactionGame) (r c player : Int) (b : Bool)
    (g' : ChainReactionGame) (hp : player ≠ -1) (hok : CellsOK g.grid) (hst : Stable g)
    (h : makeMove fuel g r c player = some (b, g')) : Stable g' := by
  rcases makeMove_cases fuel g r c player b g' h with ⟨_, _, rfl⟩ | ⟨_, _, hcap, rfl⟩ |
    ⟨hv, _, _, s', hs', rfl⟩
  · exact hst
  · intro r' c' hb'
    have hb : InBounds g r' c' := by unfold InBounds at hb' ⊢; simpa using hb'
    have hcc : getCellCapacity { placeOrb g r c player with movesMade := g.movesMade + 1 } r' c' =
        getCellCapacity g r' c' := getCellCapacity_congr _ _ _ _ (by simp) (by simp)
    rw [hcc]
    simp only [placeOrb_grid]
    unfold setCell
    split_ifs with hx
    · rw [hx.1, hx.2]; exact hcap
    · exact hst r' c' hb
  · have hin := isMoveValid_inBounds g r c player hv
    have hstart : ∃ a, LayerOf g
        ⟨placeOrb g r c player, [(r, c)], setAt (fun _ => false) (flatIndex g r c) true⟩ a ∧
        QueueOK g a := by
      refine ⟨⟨fun r' c' => ((placeOrb g r c player).grid r' c').orbs, [(r, c)],
        setAt (fun _ => false) (flatIndex g r c) true⟩,
        ⟨by simp, by simp, placeOrb_cellsOK g r c player hp hok, fun _ _ => rfl, rfl, rfl⟩,
        ?_, ?_⟩
      · intro r' c' hb' hflag
        simp only [List.mem_singleton, Prod.mk.injEq]
        by_cases hx : flatIndex g r' c' = flatIndex g r c
        · exact flatIndex_inj g _ _ _ _ hb' hin hx
        · simp [setAt, hx] at hflag
      · intro r' c' hb' hov
        simp only [List.mem_singleton, Prod.mk.injEq]
        by_contra hx
        simp only [placeOrb_grid, setCell, hx, if_false] at hov
        have := hst r' c' hb'
        omega
    obtain ⟨a, hlay, hq⟩ := cascadeLoop_queueOK g fuel _ s' hstart hs'
    have hempty := cascadeLoop_queue_empty fuel _ s' hs'
    obtain ⟨h1, h2, _, h4, h5, _⟩ := hlay
    obtain ⟨k1, k2, _, _, k5, _⟩ := clampPlayerScores_frame s'.game
    intro r' c' hb'
    have hb : InBounds g r' c' := by
      unfold InBounds at hb' ⊢
      simp only [k1, k2, h1, h2] at hb'
      exact hb'
    have hcc : getCellCapacity { clampPlayerScores s'.game with
        movesMade := s'.game.movesMade + 1 } r' c' = getCellCapacity g r' c' :=
      getCellCapacity_congr _ _ _ _ (by simp [k1, h1]) (by simp [k2, h2])
    rw [hcc]
    simp only [k5]
    by_contra hcon
    have hov : a.orbs r' c' > getCellCapacity g r' c' := by rw [← h4]; omega
    have := hq.2 r' c' hb hov
    rw [← h5, hempty] at this
    simp at this

theorem Reach.mono {ok ok' : Int → Prop} (hok : ∀ p, ok p → ok' p) {g0 : ChainReactionGame}
    {n : Nat} {g : ChainReactionGame} (h : Reach ok g0 n g) : Reach ok' g0 n g := by
  induction h with
  | start => exact Reach.start
  | accepted fuel r c player _ hp hm ih => exact Reach.accepted fuel r c player ih (hok _ hp) hm
  | rejected fuel r c player _ hp hm ih => exact Reach.rejected fuel r c player ih (hok _ hp) hm

theorem reach_stable (pCount botType rows cols : Int) (n : Nat) (g : ChainReactionGame)
    (h : Reach (fun p => p ≠ -1) (newGame pCount botType rows cols) n g) :
    CellsOK g.grid ∧ Stable g := by
  induction h with
  | start =>
    refine ⟨fun r c => by simp [newGame], fun r c _ => ?_⟩
    have := getCellCapacity_pos (newGame pCount botType rows cols) r c
    simp only [newGame] at this ⊢
    omega
  | accepted fuel r c player _ hp hm ih =>
    exact ⟨makeMove_cellsOK fuel _ r c player _ _ hp ih.1 hm,
      makeMove_stable fuel _ r c player _ _ hp ih.1 ih.2 hm⟩
  | rejected fuel r c player _ hp hm ih =>
    exact ⟨makeMove_cellsOK fuel _ r c player _ _ hp ih.1 hm,
      makeMove_stable fuel _ r c player _ _ hp ih.1 ih.2 hm⟩

/-- C19 (stability after every move): in every state reached from a fresh game by `makeMove`
calls that returned, with player ids in `0..playerCount-1`, every in-bounds cell holds at
most `getCellCapacity` orbs: when the worklist drains no cell is left above capacity. -/
theorem stability (pCount botType rows cols : Int) (n : Nat) (g : ChainReactionGame)
    (h : Reach (fun p => 0 ≤ p ∧ p < pCount) (newGame pCount botType rows cols) n g)
    (r c : Int) (hb : InBounds g r c) :
    (g.grid r c).orbs ≤ getCellCapacity g r c :=
  (reach_stable pCount botType rows cols n g
    (Reach.mono (fun p hp => by omega) h)).2 r c hb

theorem stability_witness :
    ((replay 1 (newGame 2 0 3 3) [(0, 0, 0), (0, 0, 0)]).grid 0 1).orbs ≤
      getCellCapacity (replay 1 (newGame 2 0 3 3) [(0, 0, 0), (0, 0, 0)]) 0 1 :=
  stability 2 0 3 3 2 (replay 1 (newGame 2 0 3 3) [(0, 0, 0), (0, 0, 0)])
    (reach_scenarioB _ (by decide)) 0 1 ⟨by decide, by decide, by decide, by decide⟩

/-! ## The bots: simulated moves that never return -/

theorem orbLoop_never (g0 : ChainReactionGame) (Inv : OrbLayer → Prop)
    (hstep : ∀ a, Inv a → ∃ pos rest, a.q = pos :: rest ∧
      Inv (orbExplode g0 ⟨a.orbs, rest, a.inQueue⟩ pos.1 pos.2)) :
    ∀ (fuel : Nat) (a : OrbLayer), Inv a → orbLoop g0 fuel a = none := by
  intro fuel
  induction fuel with
  | zero =>
    intro a h
    obtain ⟨pos, rest, hq, _⟩ := hstep a h
    obtain ⟨k, q, iq⟩ := a
    simp only at hq
    subst hq
    simp [orbLoop]
  | succ n ih =>
    intro a h
    obtain ⟨pos, rest, hq, hs⟩ := hstep a h
    obtain ⟨k, q, iq⟩ := a
    simp only at hq
    subst hq
    simp only [orbLoop]
    exact ih _ hs

/-- A valid move by a player other than `-1` that overfills its cell never returns when the
orb layer it starts the cascade with satisfies an invariant that keeps the queue non-empty. -/
theorem makeMove_never_returns (g : ChainReactionGame) (r c player : Int)
    (Inv : OrbLayer → Prop)
    (hstep : ∀ a, Inv a → ∃ pos rest, a.q = pos :: rest ∧
      Inv (orbExplode (placeOrb g r c player) ⟨a.orbs, rest, a.inQueue⟩ pos.1 pos.2))
    (hv : isMoveValid g r c player = true) (hp : player ≠ -1) (hok : CellsOK g.grid)
    (hcap : (g.grid r c).orbs + 1 > getCellCapacity g r c)
    (hinit : Inv ⟨fun r' c' => ((placeOrb g r c player).grid r' c').orbs, [(r, c)],
      setAt (fun _ => false) (flatIndex g r c) true⟩) (fuel : Nat) :
    makeMove fuel g r c player = none := by
  refine makeMove_none_of_cascade fuel g r c player hv hcap ?_
  refine cascadeLoop_none_of_layer (placeOrb g r c player) fuel _
    ⟨fun r' c' => ((placeOrb g r c player).grid r' c').orbs, [(r, c)],
      setAt (fun _ => false) (flatIndex g r c) true⟩
    ⟨rfl, rfl, placeOrb_cellsOK g r c player hp hok, fun _ _ => rfl, rfl, rfl⟩ ?_
  exact orbLoop_never _ Inv hstep fuel _ hinit

theorem churning_step (g0 : ChainReactionGame) (hr : g0.rows = 2) (hc : g0.cols = 2)
    (a : OrbLayer) (h : Churning a) :
    ∃ pos rest, a.q = pos :: rest ∧
      Churning (orbExplode g0 ⟨a.orbs, rest, a.inQueue⟩ pos.1 pos.2) := by
  rcases h with h | h | h | h | h | h | h | h
  · obtain ⟨hq, hv, hf⟩ := h
    simp only [List.cons.injEq, and_true] at hv hf
    obtain ⟨h00, h01, h10, h11⟩ := hv
    obtain ⟨f0, f1, f2, f3⟩ := hf
    refine ⟨(0, 1), [], hq, Or.inr (Or.inl ?_)⟩
    simp [Phase, orbExplode, orbFeed, directions, getCellCapacity, flatIndex, setAt, setOrbs,
      hr, hc, h00, h01, h10, h11, f0, f1, f2, f3]
  · obtain ⟨hq, hv, hf⟩ := h
    simp only [List.cons.injEq, and_true] at hv hf
    obtain ⟨h00, h01, h10, h11⟩ := hv
    obtain ⟨f0, f1, f2, f3⟩ := hf
    refine ⟨(1, 1), [(0, 0)], hq, Or.inr (Or.inr (Or.inl ?_))⟩
    simp [Phase, orbExplode, orbFeed, directions, getCellCapacity, flatIndex, setAt, setOrbs,
      hr, hc, h00, h01, h10, h11, f0, f1, f2, f3]
  · obtain ⟨hq, hv, hf⟩ := h
    simp only [List.cons.injEq, and_true] at hv hf
    obtain ⟨h00, h01, h10, h11⟩ := hv
    obtain ⟨f0, f1, f2, f3⟩ := hf
    refine ⟨(0, 0), [(1, 0)], hq, Or.inr (Or.inr (Or.inr (Or.inl ?_)))⟩
    simp [Phase, orbExplode, orbFeed, directions, getCellCapacity, flatIndex, setAt, setOrbs,
      hr, hc, h00, h01, h10, h11, f0, f1, f2, f3]
  · obtain ⟨hq, hv, hf⟩ := h
    simp only [List.cons.injEq, and_true] at hv hf
    obtain ⟨h00, h01, h10, h11⟩ := hv
    obtain ⟨f0, f1, f2, f3⟩ := hf
    refine ⟨(1, 0), [(0, 1)], hq, Or.inr (Or.inr (Or.inr (Or.inr (Or.inl ?_))))⟩
    simp [Phase, orbExplode, orbFeed, directions, getCellCapacity, flatIndex, setAt, setOrbs,
      hr, hc, h00, h01, h10, h11, f0, f1, f2, f3]
  · obtain ⟨hq, hv, hf⟩ := h
    simp only [List.cons.injEq, and_true] at hv hf
    obtain ⟨h00, h01, h10, h11⟩ := hv
    obtain ⟨f0, f1, f2, f3⟩ := hf
    refine ⟨(0, 1), [], hq, Or.inr (Or.inr (Or.inr (Or.inr (Or.inr (Or.inl ?_)))))⟩
    simp [Phase, orbExplode, orbFeed, directions, getCellCapacity, flatIndex, setAt, setOrbs,
      hr, hc, h00, h01, h10, h11, f0, f1, f2, f3]
  · obtain ⟨hq, hv, hf⟩ := h
    simp only [List.cons.injEq, and_true] at hv hf
    obtain ⟨h00, h01, h10, h11⟩ := hv
    obtain ⟨f0, f1, f2, f3⟩ := hf
    refine ⟨(1, 1), [(0, 0)], hq,
      Or.inr (Or.inr (Or.inr (Or.inr (Or.inr (Or.inr (Or.inl ?_))))))⟩
    simp [Phase, orbExplode, orbFeed, directions, getCellCapacity, flatIndex, setAt, setOrbs,
      hr, hc, h00, h01, h10, h11, f0, f1, f2, f3]
  · obtain ⟨hq, hv, hf⟩ := h
    simp only [List.cons.injEq, and_true] at hv hf
    obtain ⟨h00, h01, h10, h11⟩ := hv
    obtain ⟨f0, f1, f2, f3⟩ := hf
    refine ⟨(0, 0), [], hq,
      Or.inr (Or.inr (Or.inr (Or.inr (Or.inr (Or.inr (Or.inr ?_))))))⟩
    simp [Phase, orbExplode, orbFeed, directions, getCellCapacity, flatIndex, setAt, setOrbs,
      hr, hc, h00, h01, h10, h11, f0, f1, f2, f3]
  · obtain ⟨hq, hv, hf⟩ := h
    simp only [List.cons.injEq, and_true] at hv hf
    obtain ⟨h00, h01, h10, h11⟩ := hv
    obtain ⟨f0, f1, f2, f3⟩ := hf
    refine ⟨(1, 0), [(0, 1)], hq, Or.inr (Or.inr (Or.inr (Or.inr (Or.inl ?_))))⟩
    simp [Phase, orbExplode, orbFeed, directions, getCellCapacity, flatIndex, setAt, setOrbs,
      hr, hc, h00, h01, h10, h11, f0, f1, f2, f3]

theorem reach_greedyBoard (ok : Int → Prop) (h0 : ok 0) (h1 : ok 1) :
    Reach ok (newGame 2 2 2 2) 3 (botBoard 2) := by
  have hA : Reach ok (newGame 2 2 2 2) 1
      (replay 0 (newGame 2 2 2 2) [(0, 0, 0)]) :=
    Reach.accepted 0 0 0 0 Reach.start h0
      (show makeMove 0 (newGame 2 2 2 2) 0 0 0 =
        some (true, replay 0 (newGame 2 2 2 2) [(0, 0, 0)]) by rfl)
  have hB : Reach ok (newGame 2 2 2 2) 2
      (replay 0 (newGame 2 2 2 2) [(0, 0, 0), (0, 1, 1)]) :=
    Reach.accepted 0 0 1 1 hA h1
      (show makeMove 0 (replay 0 (newGame 2 2 2 2) [(0, 0, 0)]) 0 1 1 =
        some (true, replay 0 (newGame 2 2 2 2) [(0, 0, 0), (0, 1, 1)]) by rfl)
  exact Reach.accepted 0 1 0 0 hB h0
    (show makeMove 0 (replay 0 (newGame 2 2 2 2) [(0, 0, 0), (0, 1, 1)]) 1 0 0 =
      some (true, botBoard 2) by rfl)

theorem reach_minimaxBoard (ok : Int → Prop) (h0 : ok 0) (h1 : ok 1) :
    Reach ok (newGame 2 3 2 2) 3 (botBoard 3) := by
  have hA : Reach ok (newGame 2 3 2 2) 1
      (replay 0 (newGame 2 3 2 2) [(0, 0, 0)]) :=
    Reach.accepted 0 0 0 0 Reach.start h0
      (show makeMove 0 (newGame 2 3 2 2) 0 0 0 =
        some (true, replay 0 (newGame 2 3 2 2) [(0, 0, 0)]) by rfl)
  have hB : Reach ok (newGame 2 3 2 2) 2
      (replay 0 (newGame 2 3 2 2) [(0, 0, 0), (0, 1, 1)]) :=
    Reach.accepted 0 0 1 1 hA h1
      (show makeMove 0 (replay 0 (newGame 2 3 2 2) [(0, 0, 0)]) 0 1 1 =
        some (true, replay 0 (newGame 2 3 2 2) [(0, 0, 0), (0, 1, 1)]) by rfl)
  exact Reach.accepted 0 1 0 0 hB h0
    (show makeMove 0 (replay 0 (newGame 2 3 2 2) [(0, 0, 0), (0, 1, 1)]) 1 0 0 =
      some (true, botBoard 3) by rfl)

theorem copyGame_copyGame (g : ChainReactionGame) : copyGame (copyGame g) = copyGame g := rfl

/-- On a copy of the cornered 2x2 position of the greedy bot the move `(0,1)` of player 1 never returns. -/
theorem greedyBoard_hangs (fuel : Nat) :
    makeMove fuel (copyGame (botBoard 2)) 0 1 1 = none := by
  refine makeMove_never_returns (copyGame (botBoard 2)) 0 1 1 Spinning
    (spinning_step _ (by rfl) (by rfl)) (by rfl) (by decide)
    (reach_cellsOK 2 2 2 2 3 (botBoard 2)
      (reach_greedyBoard _ (by decide) (by decide))) ?_ (Or.inl ⟨rfl, by rfl, by rfl⟩) fuel
  have h1 : ((copyGame (botBoard 2)).grid 0 1).orbs = 1 := by rfl
  have h2 : getCellCapacity (copyGame (botBoard 2)) 0 1 = 1 := by rfl
  rw [h1, h2]; decide

/-- On a copy of the cornered 2x2 position of the minimax bot the move `(0,1)` of player 1 never returns. -/
theorem minimaxBoard_hangs (fuel : Nat) :
    makeMove fuel (copyGame (botBoard 3)) 0 1 1 = none := by
  refine makeMove_never_returns (copyGame (botBoard 3)) 0 1 1 Spinning
    (spinning_step _ (by rfl) (by rfl)) (by rfl) (by decide)
    (reach_cellsOK 2 3 2 2 3 (botBoard 3)
      (reach_minimaxBoard _ (by decide) (by decide))) ?_ (Or.inl ⟨rfl, by rfl, by rfl⟩) fuel
  have h1 : ((copyGame (botBoard 3)).grid 0 1).orbs = 1 := by rfl
  have h2 : getCellCapacity (copyGame (botBoard 3)) 0 1 = 1 := by rfl
  rw [h1, h2]; decide

theorem reach_crowdedBoard (ok : Int → Prop) (h0 : ok 0) (h1 : ok 1) (h2 : ok 2) :
    Reach ok (newGame 3 2 2 2) 4 crowdedBoard := by
  have hA : Reach ok (newGame 3 2 2 2) 1 (replay 0 (newGame 3 2 2 2) [(0, 0, 0)]) :=
    Reach.accepted 0 0 0 0 Reach.start h0
      (show makeMove 0 (newGame 3 2 2 2) 0 0 0 =
        some (true, replay 0 (newGame 3 2 2 2) [(0, 0, 0)]) by rfl)
  have hB : Reach ok (newGame 3 2 2 2) 2
      (replay 0 (newGame 3 2 2 2) [(0, 0, 0), (0, 1, 1)]) :=
    Reach.accepted 0 0 1 1 hA h1
      (show makeMove 0 (replay 0 (newGame 3 2 2 2) [(0, 0, 0)]) 0 1 1 =
        some (true, replay 0 (newGame 3 2 2 2) [(0, 0, 0), (0, 1, 1)]) by rfl)
  have hC : Reach ok (newGame 3 2 2 2) 3
      (replay 0 (newGame 3 2 2 2) [(0, 0, 0), (0, 1, 1), (1, 0, 2)]) :=
    Reach.accepted 0 1 0 2 hB h2
      (show makeMove 0 (replay 0 (newGame 3 2 2 2) [(0, 0, 0), (0, 1, 1)]) 1 0 2 =
        some (true, replay 0 (newGame 3 2 2 2) [(0, 0, 0), (0, 1, 1), (1, 0, 2)]) by rfl)
  exact Reach.accepted 0 1 1 0 hC h0
    (show makeMove 0 (replay 0 (newGame 3 2 2 2) [(0, 0, 0), (0, 1, 1), (1, 0, 2)]) 1 1 0 =
      some (true, crowdedBoard) by rfl)

/-- On a copy of the crowded 2x2 position the move `(0,1)` of player 1 never returns. -/
theorem crowdedBoard_hangs (fuel : Nat) :
    makeMove fuel (copyGame crowdedBoard) 0 1 1 = none := by
  refine makeMove_never_returns (copyGame crowdedBoard) 0 1 1 Churning
    (churning_step _ (by rfl) (by rfl)) (by rfl) (by decide)
    (reach_cellsOK 3 2 2 2 4 crowdedBoard
      (reach_crowdedBoard _ (by decide) (by decide) (by decide))) ?_
    (Or.inl ⟨rfl, by rfl, by rfl⟩) fuel
  have h1 : ((copyGame crowdedBoard).grid 0 1).orbs = 1 := by rfl
  have h2 : getCellCapacity (copyGame crowdedBoard) 0 1 = 1 := by rfl
  rw [h1, h2]; decide

/-- C12 fails on the code: in a two-player game on a 2x2 board whose player 1 is the greedy
bot, after `(0,0)` by player 0, `(0,1)` by player 1 (the move the bot itself picks there) and
`(1,0)` by player 0, player 1 has the valid moves `(0,1)` and `(1,1)`, and
`GreedyBot::findMove` never returns a move: simulating the first candidate on a copy starts a
cascade that does not end, whatever number of iterations is allowed. -/
theorem greedy_findMove_never_returns :
    Reach (fun p => 0 ≤ p ∧ p < 2) (newGame 2 2 2 2) 3 (botBoard 2) ∧
      (botBoard 2).botStrategies 1 = some 2 ∧
      GreedyBot.findMove 0 (replay 0 (newGame 2 2 2 2) [(0, 0, 0)]) 1 = some (0, 1) ∧
      validMoves (botBoard 2) 1 = [(0, 1), (1, 1)] ∧
      ∀ fuel, GreedyBot.findMove fuel (botBoard 2) 1 = none := by
  refine ⟨reach_greedyBoard _ (by decide) (by decide), by rfl, by rfl, by rfl, fun fuel => ?_⟩
  have hv : validMoves (botBoard 2) 1 = [(0, 1), (1, 1)] := by rfl
  simp only [GreedyBot.findMove, hv, GreedyBot.loop, greedyBoard_hangs]

/-- C13 fails on the code: in a two-player game on a 2x2 board whose player 1 is the minimax
bot, after `(0,0)` by player 0, `(0,1)` by player 1 and `(1,0)` by player 0, player 1 has the
two valid moves `(0,1)` and `(1,1)`, and `MinimaxBot::findMove` never returns a move: the
task of the first candidate plays it on a copy and that cascade does not end, so the wait for
its result does not end either. -/
theorem minimax_findMove_never_returns :
    Reach (fun p => 0 ≤ p ∧ p < 2) (newGame 2 3 2 2) 3 (botBoard 3) ∧
      (botBoard 3).botStrategies 1 = some 3 ∧
      validMoves (botBoard 3) 1 = [(0, 1), (1, 1)] ∧
      ∀ fuel, MinimaxBot.findMove fuel (botBoard 3) 1 = none := by
  refine ⟨reach_minimaxBoard _ (by decide) (by decide), by rfl, by rfl, fun fuel => ?_⟩
  have hv : validMoves (botBoard 3) 1 = [(0, 1), (1, 1)] := by rfl
  have hs : MinimaxBot.searchValue fuel (botBoard 3) 1 (0, 1) = none := by
    simp only [MinimaxBot.searchValue, copyGame_copyGame, minimaxBoard_hangs]
  simp only [MinimaxBot.findMove, hv, List.mapM_cons, hs, Option.bind_eq_bind, Option.none_bind]

/-- C14 fails on the code for the greedy bot: in a three-player game on a 2x2 board whose
player 1 is the greedy bot, after one move of players 0, 1, 2 in turn and a second move of
player 0, the cell `(0,1)` is the only valid move of player 1, and `GreedyBot::findMove`
never returns it: the bot has no shortcut for a single candidate, it simulates the move on a
copy and that cascade does not end. -/
theorem greedy_singleton_never_returns :
    Reach (fun p => 0 ≤ p ∧ p < 3) (newGame 3 2 2 2) 4 crowdedBoard ∧
      crowdedBoard.botStrategies 1 = some 2 ∧
      validMoves crowdedBoard 1 = [(0, 1)] ∧
      ∀ fuel, GreedyBot.findMove fuel crowdedBoard 1 = none := by
  refine ⟨reach_crowdedBoard _ (by decide) (by decide) (by decide), by rfl, by rfl,
    fun fuel => ?_⟩
  have hv : validMoves crowdedBoard 1 = [(0, 1)] := by rfl
  simp only [GreedyBot.findMove, hv, GreedyBot.loop, crowdedBoard_hangs]

/-! ## The serialised grid -/

theorem intercalate_singleton {α : Type} (sep x : List α) : sep.intercalate [x] = x := by
  simp [List.intercalate, List.intersperse]

theorem intercalate_cons_cons {α : Type} (sep x y : List α) (l : List (List α)) :
    sep.intercalate (x :: y :: l) = x ++ sep ++ sep.intercalate (y :: l) := by
  simp [List.intercalate, List.intersperse]

theorem intercalate_append_singleton {α : Type} (sep : List α) (x : List α) :
    ∀ l : List (List α),
      sep.intercalate (l ++ [x]) = (l.map fun y => y ++ sep).flatten ++ x
  | [] => by simp [intercalate_singleton]
  | [y] => by simp [intercalate_cons_cons, intercalate_singleton]
  | y :: z :: l => by
    have ih := intercalate_append_singleton sep x (z :: l)
    simp only [List.cons_append] at ih ⊢
    rw [intercalate_cons_cons, ih]
    simp

/-- A loop that appends `f j` and then, for every index but the last, a separator, emits the
pieces joined by the separator. -/
theorem foldl_emit (f : Nat → List Char) (sep : List Char) (m : Int) :
    ∀ (l : List Nat) (init : List Char), (∀ j ∈ l, (j : Int) < m - 1) →
      l.foldl (fun ss (j : Nat) => if (j : Int) < m - 1 then ss ++ f j ++ sep else ss ++ f j) init =
        init ++ (l.map fun j => f j ++ sep).flatten
  | [], init, _ => by simp
  | j :: l, init, h => by
    have hj : (j : Int) < m - 1 := h j (List.mem_cons_self _ _)
    simp only [List.foldl_cons, hj, if_true]
    rw [foldl_emit f sep m l _ (fun k hk => h k (List.mem_cons_of_mem _ hk))]
    simp

theorem foldl_join (f : Nat → List Char) (sep : List Char) (m : Int) (init : List Char) :
    (List.range m.toNat).foldl
        (fun ss (j : Nat) => if (j : Int) < m - 1 then ss ++ f j ++ sep else ss ++ f j) init =
      init ++ sep.intercalate ((List.range m.toNat).map f) := by
  cases hn : m.toNat with
  | zero => simp [List.intercalate]
  | succ n =>
    have hm' : m = (n : Int) + 1 := by omega
    rw [List.range_succ, List.foldl_append, List.map_append, List.map_singleton,
      intercalate_append_singleton]
    rw [foldl_emit f sep m (List.range n) init
      (fun j hj => by have := List.mem_range.mp hj; omega)]
    have hlast : ¬ ((n : Int) < m - 1) := by omega
    simp [hlast, List.map_map, Function.comp_def]


theorem getGridState_row (g : ChainReactionGame) (i : Nat) (ss : List Char) :
    (List.range g.cols.toNat).foldl
        (fun ss (j : Nat) =>
          let ss := ss ++ showInt (g.grid i j).owner ++ [','] ++ showInt (g.grid i j).orbs
          if (j : Int) < g.cols - 1 then ss ++ [';'] else ss)
        ss = ss ++ rowText g i := by
  have h : (fun ss (j : Nat) =>
        let ss := ss ++ showInt (g.grid i j).owner ++ [','] ++ showInt (g.grid i j).orbs
        if (j : Int) < g.cols - 1 then ss ++ [';'] else ss) =
      (fun ss (j : Nat) =>
        if (j : Int) < g.cols - 1 then ss ++ cellField (g.grid i j) ++ [';']
        else ss ++ cellField (g.grid i j)) := by
    funext ss j
    simp [cellField]
  rw [h, foldl_join]
  rfl

/-- The string built by the two loops is the row texts joined by a bar, each row text being
its cell fields joined by a semicolon. -/
theorem getGridState_data (g : ChainReactionGame) : (getGridState g).data = joinedGrid g := by
  have h := foldl_join (fun i => rowText g i) ['|'] g.rows []
  simp only [List.nil_append] at h
  simp only [getGridState, getGridState_row, joinedGrid]
  exact h

/-! ### Decimal text -/

theorem digitChar_inj (a b : Nat) (ha : a < 10) (hb : b < 10)
    (h : Nat.digitChar a = Nat.digitChar b) : a = b := by
  interval_cases a <;> interval_cases b <;> first | rfl | exact absurd h (by decide)

theorem digitChar_plain (d : Nat) (hd : d < 10) :
    Nat.digitChar d ≠ '-' ∧ Nat.digitChar d ≠ ',' ∧ Nat.digitChar d ≠ ';' ∧
      Nat.digitChar d ≠ '|' := by
  interval_cases d <;> decide

theorem showNat_chars (n : Nat) (ch : Char) (h : ch ∈ showNat n) :
    ch ≠ '-' ∧ ch ≠ ',' ∧ ch ≠ ';' ∧ ch ≠ '|' := by
  unfold showNat at h
  split_ifs at h with h0
  · simp only [List.mem_singleton] at h
    subst h
    decide
  · simp only [List.mem_map, List.mem_reverse] at h
    obtain ⟨d, hd, rfl⟩ := h
    exact digitChar_plain d (Nat.digits_lt_base (by decide) hd)

theorem showNat_ne_nil (n : Nat) : showNat n ≠ [] := by
  unfold showNat
  split_ifs with h0
  · simp
  · simp [Nat.digits_ne_nil_iff_ne_zero, h0]

theorem map_digitChar_inj :
    ∀ (l l' : List Nat), (∀ d ∈ l, d < 10) → (∀ d ∈ l', d < 10) →
      l.map Nat.digitChar = l'.map Nat.digitChar → l = l'
  | [], [], _, _, _ => rfl
  | [], _ :: _, _, _, h => by simp at h
  | _ :: _, [], _, _, h => by simp at h
  | a :: l, b :: l', ha, hb, h => by
    simp only [List.map_cons, List.cons.injEq] at h
    have h1 := digitChar_inj a b (ha a (List.mem_cons_self _ _)) (hb b (List.mem_cons_self _ _))
      h.1
    have h2 := map_digitChar_inj l l' (fun d hd => ha d (List.mem_cons_of_mem _ hd))
      (fun d hd => hb d (List.mem_cons_of_mem _ hd)) h.2
    rw [h1, h2]

theorem digits_text_inj (n m : Nat)
    (h : (Nat.digits 10 n).reverse.map Nat.digitChar =
      (Nat.digits 10 m).reverse.map Nat.digitChar) : n = m := by
  have h1 := map_digitChar_inj _ _
    (fun d hd => Nat.digits_lt_base (by decide) (List.mem_reverse.mp hd))
    (fun d hd => Nat.digits_lt_base (by decide) (List.mem_reverse.mp hd)) h
  exact Nat.digits_inj_iff.mp (List.reverse_injective h1)

theorem digits_text_ne_zero (n : Nat) (hn : n ≠ 0) :
    (Nat.digits 10 n).reverse.map Nat.digitChar ≠ ['0'] := by
  intro h
  have h1 : (Nat.digits 10 n).reverse.map Nat.digitChar = [0].map Nat.digitChar := by
    rw [h]; rfl
  have h2 := map_digitChar_inj _ _
    (fun d hd => Nat.digits_lt_base (by decide) (List.mem_reverse.mp hd))
    (fun d hd => by simp only [List.mem_singleton] at hd; omega) h1
  have h3 : Nat.digits 10 n = [0] := by
    have := congrArg List.reverse h2
    simpa using this
  have h4 := Nat.getLast_digit_ne_zero 10 hn
  simp [h3] at h4

theorem showNat_inj (n m : Nat) (h : showNat n = showNat m) : n = m := by
  unfold showNat at h
  split_ifs at h with hn hm hm
  · rw [hn, hm]
  · exact absurd h.symm (digits_text_ne_zero m hm)
  · exact absurd h (digits_text_ne_zero n hn)
  · exact digits_text_inj n m h

theorem showInt_chars (n : Int) (ch : Char) (h : ch ∈ showInt n) :
    ch ≠ ',' ∧ ch ≠ ';' ∧ ch ≠ '|' := by
  unfold showInt at h
  split_ifs at h
  · rcases List.mem_cons.mp h with h | h
    · subst h; decide
    · exact (showNat_chars _ _ h).2
  · exact (showNat_chars _ _ h).2

theorem showInt_ne_nil (n : Int) : showInt n ≠ [] := by
  unfold showInt
  split_ifs
  · simp
  · exact showNat_ne_nil _

theorem showNat_ne_minus (n : Nat) (l : List Char) : showNat n ≠ '-' :: l := by
  intro h
  have := (showNat_chars n '-' (by rw [h]; exact List.mem_cons_self _ _)).1
  exact this rfl

theorem showInt_inj (n m : Int) (h : showInt n = showInt m) : n = m := by
  unfold showInt at h
  split_ifs at h with hn hm hm
  · have := showNat_inj _ _ (List.cons.inj h).2
    omega
  · exact absurd h.symm (showNat_ne_minus _ _)
  · exact absurd h (showNat_ne_minus _ _)
  · have := showNat_inj _ _ h
    omega

/-! ### Joined texts determine their pieces -/

theorem split_unique {α : Type} (s : α) :
    ∀ (x y A B : List α), s ∉ x → s ∉ y → x ++ s :: A = y ++ s :: B → x = y ∧ A = B
  | [], [], A, B, _, _, h => by simpa using h
  | [], b :: y, A, B, _, hy, h => by
    simp only [List.nil_append, List.cons_append, List.cons.injEq] at h
    exact absurd (List.mem_cons.mpr (Or.inl h.1)) hy
  | a :: x, [], A, B, hx, _, h => by
    simp only [List.nil_append, List.cons_append, List.cons.injEq] at h
    exact absurd (List.mem_cons.mpr (Or.inl h.1.symm)) hx
  | a :: x, b :: y, A, B, hx, hy, h => by
    simp only [List.cons_append, List.cons.injEq] at h
    have := split_unique s x y A B (fun hm => hx (List.mem_cons_of_mem _ hm))
      (fun hm => hy (List.mem_cons_of_mem _ hm)) h.2
    exact ⟨by rw [h.1, this.1], this.2⟩

theorem intercalate_cons_of_ne_nil {α : Type} (sep x : List α) (l : List (List α))
    (hl : l ≠ []) : sep.intercalate (x :: l) = x ++ sep ++ sep.intercalate l := by
  cases l with
  | nil => exact absurd rfl hl
  | cons y l => exact intercalate_cons_cons sep x y l

theorem intercalate_inj {α : Type} (s : α) :
    ∀ (xs ys : List (List α)), (∀ x ∈ xs, s ∉ x) → (∀ y ∈ ys, s ∉ y) →
      xs.length = ys.length → [s].intercalate xs = [s].intercalate ys → xs = ys
  | [], [], _, _, _, _ => rfl
  | [], _ :: _, _, _, hl, _ => by simp at hl
  | _ :: _, [], _, _, hl, _ => by simp at hl
  | x :: xs, y :: ys, hx, hy, hl, h => by
    have hl' : xs.length = ys.length := by simpa using hl
    by_cases hxs : xs = []
    · have hys : ys = [] := by
        rw [hxs] at hl'
        exact List.length_eq_zero.mp hl'.symm
      subst hxs hys
      rw [intercalate_singleton, intercalate_singleton] at h
      rw [h]
    · have hys : ys ≠ [] := by
        intro h0
        rw [h0] at hl'
        exact hxs (List.length_eq_zero.mp hl')
      rw [intercalate_cons_of_ne_nil _ _ _ hxs, intercalate_cons_of_ne_nil _ _ _ hys] at h
      simp only [List.append_assoc, List.singleton_append] at h
      have h1 := split_unique s x y _ _ (hx x (List.mem_cons_self _ _))
        (hy y (List.mem_cons_self _ _)) h
      have h2 := intercalate_inj s xs ys (fun z hz => hx z (List.mem_cons_of_mem _ hz))
        (fun z hz => hy z (List.mem_cons_of_mem _ hz)) hl' h1.2
      rw [h1.1, h2]

theorem mem_intercalate {α : Type} (sep : List α) (a : α) :
    ∀ (xs : List (List α)), a ∈ sep.intercalate xs → a ∈ sep ∨ ∃ x ∈ xs, a ∈ x
  | [], h => by simp [List.intercalate] at h
  | [x], h => by
    rw [intercalate_singleton] at h
    exact Or.inr ⟨x, List.mem_singleton_self _, h⟩
  | x :: y :: l, h => by
    rw [intercalate_cons_cons] at h
    rcases List.mem_append.mp h with h | h
    · rcases List.mem_append.mp h with h | h
      · exact Or.inr ⟨x, List.mem_cons_self _ _, h⟩
      · exact Or.inl h
    · rcases mem_intercalate sep a (y :: l) h with h | ⟨z, hz, hz'⟩
      · exact Or.inl h
      · exact Or.inr ⟨z, List.mem_cons_of_mem _ hz, hz'⟩

theorem count_intercalate {α : Type} [DecidableEq α] (sep : List α) (a : α) (ha : a ∉ sep) :
    ∀ (xs : List (List α)), (sep.intercalate xs).count a = (xs.map (List.count a)).sum
  | [] => by simp [List.intercalate]
  | [x] => by simp [intercalate_singleton]
  | x :: y :: l => by
    rw [intercalate_cons_cons, List.count_append, List.count_append,
      count_intercalate sep a ha (y :: l), List.count_eq_zero_of_not_mem ha]
    simp

theorem head?_intercalate {α : Type} (sep x : List α) (l : List (List α)) (hx : x ≠ []) :
    (sep.intercalate (x :: l)).head? = x.head? := by
  cases x with
  | nil => exact absurd rfl hx
  | cons a x =>
    cases l with
    | nil => rw [intercalate_singleton]
    | cons y l => rw [intercalate_cons_cons]; rfl

theorem getLast?_intercalate {α : Type} (sep x : List α) (l : List (List α)) (hx : x ≠ []) :
    (sep.intercalate (l ++ [x])).getLast? = x.getLast? := by
  rw [intercalate_append_singleton]
  exact List.getLast?_append_of_ne_nil _ hx

/-! ### Cell fields, row texts, the whole grid -/

theorem cellField_chars (cell : Cell) (ch : Char) (h : ch ∈ cellField cell) :
    ch ≠ ';' ∧ ch ≠ '|' := by
  unfold cellField at h
  rcases List.mem_append.mp h with h | h
  · exact (showInt_chars _ _ h).2
  · rcases List.mem_cons.mp h with h | h
    · subst h; decide
    · exact (showInt_chars _ _ h).2

theorem cellField_ne_nil (cell : Cell) : cellField cell ≠ [] := by
  unfold cellField
  simp

theorem cellField_inj (a b : Cell) (h : cellField a = cellField b) : a = b := by
  unfold cellField at h
  have h1 := split_unique ',' _ _ _ _
    (fun hm => (showInt_chars _ _ hm).1 rfl) (fun hm => (showInt_chars _ _ hm).1 rfl) h
  have ho := showInt_inj _ _ h1.1
  have hn := showInt_inj _ _ h1.2
  cases a
  cases b
  simp only at ho hn
  rw [ho, hn]

theorem cellField_count (cell : Cell) : (cellField cell).count ',' = 1 := by
  unfold cellField
  rw [List.count_append, List.count_cons_self,
    List.count_eq_zero_of_not_mem (fun hm => (showInt_chars _ _ hm).1 rfl),
    List.count_eq_zero_of_not_mem (fun hm => (showInt_chars _ _ hm).1 rfl)]

theorem cellField_head (cell : Cell) (ch : Char) (h : (cellField cell).head? = some ch) :
    ch ≠ ';' ∧ ch ≠ '|' :=
  cellField_chars cell ch (List.mem_of_mem_head? h)

theorem cellField_last (cell : Cell) (ch : Char) (h : (cellField cell).getLast? = some ch) :
    ch ≠ ';' ∧ ch ≠ '|' :=
  cellField_chars cell ch (List.mem_of_getLast?_eq_some h)

theorem rowText_chars (g : ChainReactionGame) (i : Nat) (ch : Char) (h : ch ∈ rowText g i) :
    ch ≠ '|' := by
  unfold rowText at h
  rcases mem_intercalate _ _ _ h with h | ⟨x, hx, hch⟩
  · simp only [List.mem_singleton] at h
    subst h; decide
  · obtain ⟨j, _, rfl⟩ := List.mem_map.mp hx
    exact (cellField_chars _ _ hch).2

theorem rowText_count (g : ChainReactionGame) (i : Nat) :
    (rowText g i).count ',' = g.cols.toNat := by
  unfold rowText
  rw [count_intercalate _ _ (by decide), List.map_map]
  have h : (List.count ',' ∘ fun (j : Nat) => cellField (g.grid i j)) = fun _ => 1 := by
    funext j
    exact cellField_count _
  rw [h]
  simp

theorem rowText_ne_nil (g : ChainReactionGame) (i : Nat) (hc : 0 < g.cols) :
    rowText g i ≠ [] := by
  intro h
  have := rowText_count g i
  rw [h] at this
  simp only [List.count_nil] at this
  omega

theorem rowText_head (g : ChainReactionGame) (i : Nat) (ch : Char)
    (h : (rowText g i).head? = some ch) : ch ≠ ';' ∧ ch ≠ '|' := by
  unfold rowText at h
  cases hn : g.cols.toNat with
  | zero => simp [hn, List.intercalate] at h
  | succ n =>
    rw [hn, List.range_succ_eq_map, List.map_cons,
      head?_intercalate _ _ _ (cellField_ne_nil _)] at h
    exact cellField_head _ _ h

theorem rowText_last (g : ChainReactionGame) (i : Nat) (ch : Char)
    (h : (rowText g i).getLast? = some ch) : ch ≠ ';' ∧ ch ≠ '|' := by
  unfold rowText at h
  cases hn : g.cols.toNat with
  | zero => simp [hn, List.intercalate] at h
  | succ n =>
    rw [hn, List.range_succ, List.map_append, List.map_singleton,
      getLast?_intercalate _ _ _ (cellField_ne_nil _)] at h
    exact cellField_last _ _ h

theorem rowText_inj (g g' : ChainReactionGame) (hc : g'.cols = g.cols) (i : Nat)
    (h : rowText g' i = rowText g i) (j : Nat) (hj : j < g.cols.toNat) :
    g'.grid i j = g.grid i j := by
  unfold rowText at h
  rw [hc] at h
  have h1 := intercalate_inj ';' _ _
    (fun x hx => by
      obtain ⟨k, _, rfl⟩ := List.mem_map.mp hx
      exact fun hm => (cellField_chars _ _ hm).1 rfl)
    (fun x hx => by
      obtain ⟨k, _, rfl⟩ := List.mem_map.mp hx
      exact fun hm => (cellField_chars _ _ hm).1 rfl)
    (by simp) h
  exact cellField_inj _ _ (List.map_inj_left.mp h1 j (List.mem_range.mpr hj))

theorem joinedGrid_count (g : ChainReactionGame) :
    (joinedGrid g).count ',' = g.rows.toNat * g.cols.toNat := by
  unfold joinedGrid
  rw [count_intercalate _ _ (by decide), List.map_map]
  have h : (List.count ',' ∘ fun (i : Nat) => rowText g i) = fun _ => g.cols.toNat := by
    funext i
    exact rowText_count g i
  rw [h]
  simp

theorem joinedGrid_head (g : ChainReactionGame) (hc : 0 < g.cols) (ch : Char)
    (h : (joinedGrid g).head? = some ch) : ch ≠ ';' ∧ ch ≠ '|' := by
  unfold joinedGrid at h
  cases hn : g.rows.toNat with
  | zero => simp [hn, List.intercalate] at h
  | succ n =>
    rw [hn, List.range_succ_eq_map, List.map_cons,
      head?_intercalate _ _ _ (rowText_ne_nil g _ hc)] at h
    exact rowText_head _ _ _ h

theorem joinedGrid_last (g : ChainReactionGame) (hc : 0 < g.cols) (ch : Char)
    (h : (joinedGrid g).getLast? = some ch) : ch ≠ ';' ∧ ch ≠ '|' := by
  unfold joinedGrid at h
  cases hn : g.rows.toNat with
  | zero => simp [hn, List.intercalate] at h
  | succ n =>
    rw [hn, List.range_succ, List.map_append, List.map_singleton,
      getLast?_intercalate _ _ _ (rowText_ne_nil g _ hc)] at h
    exact rowText_last _ _ _ h

theorem joinedGrid_inj (g g' : ChainReactionGame) (hr : g'.rows = g.rows)
    (hc : g'.cols = g.cols) (h : joinedGrid g' = joinedGrid g) (r c : Int)
    (hb : InBounds g r c) : g'.grid r c = g.grid r c := by
  unfold joinedGrid at h
  rw [hr] at h
  have h1 := intercalate_inj '|' _ _
    (fun x hx => by
      obtain ⟨k, _, rfl⟩ := List.mem_map.mp hx
      exact fun hm => rowText_chars _ _ _ hm rfl)
    (fun x hx => by
      obtain ⟨k, _, rfl⟩ := List.mem_map.mp hx
      exact fun hm => rowText_chars _ _ _ hm rfl)
    (by simp) h
  obtain ⟨h0r, hrr, h0c, hcc⟩ := hb
  have h2 := List.map_inj_left.mp h1 r.toNat (List.mem_range.mpr (by omega))
  have h3 := rowText_inj g g' hc r.toNat h2 c.toNat (by omega)
  rwa [Int.toNat_of_nonneg h0r, Int.toNat_of_nonneg h0c] at h3

theorem showInt_examples :
    showInt 0 = ['0'] ∧ showInt 1 = ['1'] ∧ showInt (-1) = ['-', '1'] ∧
      showInt 120 = ['1', '2', '0'] := by
  refine ⟨?_, ?_, ?_, ?_⟩ <;> simp [showInt, showNat] <;> decide

/-- A worked example: the 2x2 board after `(0,0)` by player 0 and `(0,1)` by player 1. -/
theorem getGridState_example :
    getGridState (replay 0 (newGame 2 0 2 2) [(0, 0, 0), (0, 1, 1)]) = "0,1;1,1|-1,0;-1,0" := by
  obtain ⟨h1, h2, h3, _⟩ := showInt_examples
  have key : ∀ g : ChainReactionGame, g.rows.toNat = 2 → g.cols.toNat = 2 →
      g.grid 0 0 = ⟨0, 1⟩ → g.grid 0 1 = ⟨1, 1⟩ → g.grid 1 0 = ⟨-1, 0⟩ →
      g.grid 1 1 = ⟨-1, 0⟩ → joinedGrid g = "0,1;1,1|-1,0;-1,0".data := by
    intro g hr hc g00 g01 g10 g11
    simp only [joinedGrid, rowText, hr, hc, cellField]
    simp [List.range_succ, List.intercalate, g00, g01, g10, g11, h1, h2, h3]
  refine String.ext ?_
  rw [getGridState_data]
  exact key _ (by rfl) (by rfl) (by rfl) (by rfl) (by rfl) (by rfl)

/-- C17 fails as stated on a board without columns: with two rows and no column the inner
loop emits nothing and the outer loop emits the row delimiter once, so the whole output is a
single `|`, a delimiter with nothing before or after it. -/
theorem getGridState_bare_delimiter :
    (newGame 2 0 2 0).rows = 2 ∧ (newGame 2 0 2 0).cols = 0 ∧
      getGridState (newGame 2 0 2 0) = "|" ∧
      (getGridState (newGame 2 0 2 0)).data.head? = some '|' := by
  refine ⟨rfl, rfl, ?_, ?_⟩ <;> rfl

/-- C17, amended: on a board with at least one column (and no negative row count)
`getGridState` returns the cell fields `owner,orbs` in row-major order, the fields of a row
joined by `;` and the rows joined by `|`; the string neither starts nor ends with a
delimiter, it holds exactly `rows * cols` commas, one per cell field, and two boards of the
same dimensions with the same string agree on every cell. -/
theorem getGridState_spec (g g' : ChainReactionGame) (hr : 0 ≤ g.rows) (hc : 0 < g.cols) :
    (getGridState g).data = joinedGrid g ∧
      (∀ ch, (getGridState g).data.head? = some ch → ch ≠ ';' ∧ ch ≠ '|') ∧
      (∀ ch, (getGridState g).data.getLast? = some ch → ch ≠ ';' ∧ ch ≠ '|') ∧
      (((getGridState g).data.count ',' : Nat) : Int) = g.rows * g.cols ∧
      (g'.rows = g.rows → g'.cols = g.cols → getGridState g' = getGridState g →
        ∀ r c, InBounds g r c → g'.grid r c = g.grid r c) := by
  refine ⟨getGridState_data g, ?_, ?_, ?_, ?_⟩
  · intro ch h
    rw [getGridState_data] at h
    exact joinedGrid_head g hc ch h
  · intro ch h
    rw [getGridState_data] at h
    exact joinedGrid_last g hc ch h
  · rw [getGridState_data, joinedGrid_count]
    push_cast
    rw [Int.toNat_of_nonneg hr, Int.toNat_of_nonneg (le_of_lt hc)]
  · intro hr' hc' h r c hb
    have h1 : joinedGrid g' = joinedGrid g := by
      rw [← getGridState_data, ← getGridState_data, h]
    exact joinedGrid_inj g g' hr' hc' h1 r c hb

theorem getGridState_spec_witness :
    (getGridState (newGame 2 0 3 3)).data = joinedGrid (newGame 2 0 3 3) ∧
      (∀ ch, (getGridState (newGame 2 0 3 3)).data.head? = some ch → ch ≠ ';' ∧ ch ≠ '|') ∧
      (∀ ch, (getGridState (newGame 2 0 3 3)).data.getLast? = some ch →
        ch ≠ ';' ∧ ch ≠ '|') ∧
      (((getGridState (newGame 2 0 3 3)).data.count ',' : Nat) : Int) =
        (newGame 2 0 3 3).rows * (newGame 2 0 3 3).cols ∧
      ((replay 0 (newGame 2 0 3 3) [(0, 0, 0)]).rows = (newGame 2 0 3 3).rows →
        (replay 0 (newGame 2 0 3 3) [(0, 0, 0)]).cols = (newGame 2 0 3 3).cols →
        getGridState (replay 0 (newGame 2 0 3 3) [(0, 0, 0)]) = getGridState (newGame 2 0 3 3) →
        ∀ r c, InBounds (newGame 2 0 3 3) r c →
          (replay 0 (newGame 2 0 3 3) [(0, 0, 0)]).grid r c = (newGame 2 0 3 3).grid r c) :=
  getGridState_spec (newGame 2 0 3 3) (replay 0 (newGame 2 0 3 3) [(0, 0, 0)])
    (by decide) (by decide)

/-! ## The bots: what they return when every simulated move returns -/

theorem mem_validMoves (g : ChainReactionGame) (player r c : Int) :
    (r, c) ∈ validMoves g player ↔ isMoveValid g r c player = true := by
  constructor
  · intro h
    simp only [validMoves, List.mem_flatMap, List.mem_filterMap, List.mem_range] at h
    obtain ⟨i, _, j, _, hij⟩ := h
    split_ifs at hij with hv
    simp only [Option.some.injEq, Prod.mk.injEq] at hij
    rw [← hij.1, ← hij.2]
    exact hv
  · intro h
    have hb := isMoveValid_inBounds g r c player h
    obtain ⟨h0r, hrr, h0c, hcc⟩ := hb
    simp only [validMoves, List.mem_flatMap, List.mem_filterMap, List.mem_range]
    refine ⟨r.toNat, by omega, c.toNat, by omega, ?_⟩
    rw [Int.toNat_of_nonneg h0r, Int.toNat_of_nonneg h0c, if_pos h]

theorem randomBot_findMove_empty (draw : Nat) (g : ChainReactionGame) (myPlayerId : Int)
    (h : validMoves g myPlayerId = []) : RandomBot.findMove draw g myPlayerId = (-1, -1) := by
  simp [RandomBot.findMove, h]

theorem randomBot_findMove_single (draw : Nat) (g : ChainReactionGame) (myPlayerId : Int)
    (move : Int × Int) (h : validMoves g myPlayerId = [move]) :
    RandomBot.findMove draw g myPlayerId = move := by
  simp [RandomBot.findMove, h, Nat.mod_one]

theorem greedyBot_findMove_empty (fuel : Nat) (g : ChainReactionGame) (myPlayerId : Int)
    (h : validMoves g myPlayerId = []) :
    GreedyBot.findMove fuel g myPlayerId = some (-1, -1) := by
  simp [GreedyBot.findMove, h]

theorem minimaxBot_findMove_empty (fuel : Nat) (g : ChainReactionGame) (myPlayerId : Int)
    (h : validMoves g myPlayerId = []) :
    MinimaxBot.findMove fuel g myPlayerId = some (-1, -1) := by
  simp [MinimaxBot.findMove, h]

theorem minimaxBot_findMove_single (fuel : Nat) (g : ChainReactionGame) (myPlayerId : Int)
    (move : Int × Int) (h : validMoves g myPlayerId = [move]) :
    MinimaxBot.findMove fuel g myPlayerId = some move := by
  simp [MinimaxBot.findMove, h]

/-- The greedy bot returns the single candidate exactly when its simulation returns. -/
theorem greedyBot_findMove_single (fuel : Nat) (g : ChainReactionGame) (myPlayerId : Int)
    (move : Int × Int) (h : validMoves g myPlayerId = [move]) :
    GreedyBot.findMove fuel g myPlayerId =
      (makeMove fuel (copyGame g) move.1 move.2 myPlayerId).map fun _ => move := by
  simp only [GreedyBot.findMove, h, GreedyBot.loop]
  cases makeMove fuel (copyGame g) move.1 move.2 myPlayerId with
  | none => rfl
  | some res =>
    obtain ⟨b, s⟩ := res
    simp only [Option.map_some']
    split_ifs <;> rfl

theorem length_mapM_option {α β : Type} (f : α → Option β) :
    ∀ (l : List α) (r : List β), l.mapM f = some r → r.length = l.length
  | [], r, h => by
    simp only [List.mapM_nil, Option.pure_def, Option.some.injEq] at h
    subst h
    rfl
  | a :: l, r, h => by
    simp only [List.mapM_cons, Option.bind_eq_bind, Option.pure_def] at h
    cases hl : l.mapM f with
    | none =>
      rw [hl] at h
      cases hfa : f a <;> simp [hfa] at h
    | some rest =>
      rw [hl] at h
      cases hfa : f a with
      | none => simp [hfa] at h
      | some b =>
        simp only [hfa, Option.some_bind, Option.some.injEq] at h
        subst h
        simp [length_mapM_option f l rest hl]

theorem firstMax_mem (l : List ((Int × Int) × Int)) (m : Int × Int) (h : FirstMax l m) :
    ∃ w, (m, w) ∈ l := by
  obtain ⟨pre, w, post, heq, _, _⟩ := h
  exact ⟨w, by rw [heq]; simp⟩

theorem collect_firstMax :
    ∀ (l done : List ((Int × Int) × Int)) (best : Int × Int) (bestScore : Int),
      (∃ pre post, done = pre ++ (best, bestScore) :: post ∧ (∀ x ∈ pre, x.2 < bestScore) ∧
        (∀ x ∈ post, x.2 ≤ bestScore)) →
      FirstMax (done ++ l) (MinimaxBot.collect l best bestScore)
  | [], done, best, bestScore, ⟨pre, post, hd, hpre, hpost⟩ => by
    refine ⟨pre, bestScore, post, ?_, hpre, hpost⟩
    simp [MinimaxBot.collect, hd]
  | (move, moveScore) :: l, done, best, bestScore, ⟨pre, post, hd, hpre, hpost⟩ => by
    have hl : done ++ (move, moveScore) :: l = (done ++ [(move, moveScore)]) ++ l := by simp
    rw [hl]
    simp only [MinimaxBot.collect]
    split_ifs with hgt
    · refine collect_firstMax l _ move moveScore ⟨done, [], rfl, ?_, by simp⟩
      intro x hx
      rw [hd] at hx
      rcases List.mem_append.mp hx with hx | hx
      · have := hpre x hx; omega
      · rcases List.mem_cons.mp hx with hx | hx
        · subst hx; simpa using hgt
        · have := hpost x hx; omega
    · refine collect_firstMax l _ best bestScore
        ⟨pre, post ++ [(move, moveScore)], by simp [hd], hpre, ?_⟩
      intro x hx
      rcases List.mem_append.mp hx with hx | hx
      · exact hpost x hx
      · simp only [List.mem_singleton] at hx
        subst hx
        simpa using hgt

/-- Started as both bots start it, with the first candidate and `INT_MIN`, the selection loop
returns the first candidate of maximal score, provided no score is below `INT_MIN`. -/
theorem collect_first (first : Int × Int) (v : Int) (l : List ((Int × Int) × Int))
    (hv : INT_MIN ≤ v) :
    FirstMax ((first, v) :: l) (MinimaxBot.collect ((first, v) :: l) first INT_MIN) := by
  have h : MinimaxBot.collect ((first, v) :: l) first INT_MIN =
      MinimaxBot.collect l first v := by
    simp only [MinimaxBot.collect]
    split_ifs with hgt
    · rfl
    · have : v = INT_MIN := by omega
      rw [this]
  rw [h]
  exact collect_firstMax l [(first, v)] first v ⟨[], [], rfl, by simp, by simp⟩

theorem greedyBot_loop_eq (fuel : Nat) (g : ChainReactionGame) (myPlayerId : Int) :
    ∀ (l : List (Int × Int)) (gains : List Int) (best : Int × Int) (maxScoreGain : Int),
      l.mapM (GreedyBot.gain fuel g myPlayerId) = some gains →
      GreedyBot.loop fuel g myPlayerId (getPlayerScore g myPlayerId) l best maxScoreGain =
        some (MinimaxBot.collect (l.zip gains) best maxScoreGain)
  | [], gains, best, maxScoreGain, h => by
    simp only [List.mapM_nil, Option.pure_def, Option.some.injEq] at h
    subst h
    simp [GreedyBot.loop, MinimaxBot.collect]
  | move :: l, gains, best, maxScoreGain, h => by
    simp only [List.mapM_cons, Option.bind_eq_bind, Option.pure_def] at h
    cases hl : l.mapM (GreedyBot.gain fuel g myPlayerId) with
    | none =>
      rw [hl] at h
      cases hgm : GreedyBot.gain fuel g myPlayerId move <;> simp [hgm] at h
    | some rest =>
      rw [hl] at h
      cases hm : makeMove fuel (copyGame g) move.1 move.2 myPlayerId with
      | none =>
        have hgm : GreedyBot.gain fuel g myPlayerId move = none := by
          simp only [GreedyBot.gain, hm]
        rw [hgm] at h
        simp at h
      | some res =>
        obtain ⟨b, s⟩ := res
        have hgm : GreedyBot.gain fuel g myPlayerId move =
            some (getPlayerScore s myPlayerId - getPlayerScore g myPlayerId) := by
          simp only [GreedyBot.gain, hm]
        rw [hgm] at h
        simp only [Option.some_bind, Option.some.injEq] at h
        subst h
        simp only [GreedyBot.loop, hm, List.zip_cons_cons, MinimaxBot.collect]
        split_ifs
        · exact greedyBot_loop_eq fuel g myPlayerId l rest move _ hl
        · exact greedyBot_loop_eq fuel g myPlayerId l rest best _ hl

/-- When every simulated candidate returns, the greedy bot returns the first valid move, in
row-major order, whose score gain is maximal. -/
theorem greedyBot_findMove_firstMax (fuel : Nat) (g : ChainReactionGame) (myPlayerId : Int)
    (gains : List Int) (hne : validMoves g myPlayerId ≠ [])
    (hg : (validMoves g myPlayerId).mapM (GreedyBot.gain fuel g myPlayerId) = some gains)
    (hmin : ∀ v ∈ gains, INT_MIN ≤ v) :
    ∃ m, GreedyBot.findMove fuel g myPlayerId = some m ∧
      isMoveValid g m.1 m.2 myPlayerId = true ∧
      FirstMax ((validMoves g myPlayerId).zip gains) m := by
  cases hvm : validMoves g myPlayerId with
  | nil => exact absurd hvm hne
  | cons first rest =>
    rw [hvm] at hg
    have hloop := greedyBot_loop_eq fuel g myPlayerId (first :: rest) gains first INT_MIN hg
    cases gains with
    | nil =>
      have hlen := length_mapM_option _ _ _ hg
      simp at hlen
    | cons v vs =>
      have hfm := collect_first first v (rest.zip vs) (hmin v (List.mem_cons_self _ _))
      refine ⟨MinimaxBot.collect ((first, v) :: rest.zip vs) first INT_MIN, ?_, ?_, ?_⟩
      · simp only [GreedyBot.findMove, hvm]
        rw [hloop]
        rfl
      · obtain ⟨w, hmem⟩ := firstMax_mem _ _ hfm
        have hmem2 := (List.of_mem_zip (show (_, w) ∈ (first :: rest).zip (v :: vs) from hmem)).1
        rw [← hvm] at hmem2
        exact (mem_validMoves g myPlayerId _ _).mp hmem2
      · exact hfm

/-- When every task returns, the minimax bot with at least two candidates returns the first
valid move, in row-major order, whose search value is maximal. -/
theorem minimaxBot_findMove_firstMax (fuel : Nat) (g : ChainReactionGame) (myPlayerId : Int)
    (first second : Int × Int) (rest : List (Int × Int)) (scores : List Int)
    (hvm : validMoves g myPlayerId = first :: second :: rest)
    (hs : (validMoves g myPlayerId).mapM (MinimaxBot.searchValue fuel g myPlayerId) =
      some scores)
    (hmin : ∀ v ∈ scores, INT_MIN ≤ v) :
    ∃ m, MinimaxBot.findMove fuel g myPlayerId = some m ∧
      isMoveValid g m.1 m.2 myPlayerId = true ∧
      FirstMax ((validMoves g myPlayerId).zip scores) m := by
  rw [hvm] at hs
  cases scores with
  | nil =>
    have hlen := length_mapM_option _ _ _ hs
    simp at hlen
  | cons v vs =>
    have hfm := collect_first first v ((second :: rest).zip vs)
      (hmin v (List.mem_cons_self _ _))
    refine ⟨MinimaxBot.collect ((first, v) :: (second :: rest).zip vs) first INT_MIN,
      ?_, ?_, ?_⟩
    · simp only [MinimaxBot.findMove, hvm, hs]
      rfl
    · obtain ⟨w, hmem⟩ := firstMax_mem _ _ hfm
      have hmem2 :=
        (List.of_mem_zip (show (_, w) ∈ (first :: second :: rest).zip (v :: vs) from hmem)).1
      rw [← hvm] at hmem2
      exact (mem_validMoves g myPlayerId _ _).mp hmem2
    · rw [hvm]
      exact hfm

/-- A terminal position of the search, depth 0 or a decided game, evaluates to the score of
the bot minus the score of the player `opponentId`, which is `1 - myPlayerId` computed in
32-bit `int`. -/
theorem minimaxBot_minimax_terminal (fuel depth : Nat) (g : ChainReactionGame)
    (alpha beta : Int) (isMaximizingPlayer : Bool) (myPlayerId : Int)
    (h : depth = 0 ∨ getWinner g ≠ -1) :
    MinimaxBot.minimax fuel depth g alpha beta isMaximizingPlayer myPlayerId =
      some (getPlayerScore g myPlayerId - getPlayerScore g (MinimaxBot.opponentId myPlayerId)) := by
  cases depth with
  | zero => simp [MinimaxBot.minimax]
  | succ d =>
    rcases h with h | h
    · omega
    · simp [MinimaxBot.minimax, h]

/-- On a fresh 3x3 board after `(0,0)` by player 0 every simulation returns: the greedy bot
answers `(0,1)` and the minimax bot `(0,2)`. -/
theorem bots_on_open_board :
    GreedyBot.findMove 1 (replay 1 (newGame 2 3 3 3) [(0, 0, 0)]) 1 = some (0, 1) ∧
      MinimaxBot.findMove 1 (replay 1 (newGame 2 3 3 3) [(0, 0, 0)]) 1 = some (0, 2) := by
  constructor <;> rfl

/-! ## Orbs are never created by a cascade -/

theorem fedCell_orbs_le (owner : Int) (cell : Cell) (h : 0 ≤ cell.orbs) :
    (fedCell owner cell).orbs ≤ cell.orbs + 1 := by
  unfold fedCell
  split_ifs
  · simp only; omega
  · simp
  · simp

/-- Feeding one neighbour adds at most one orb to the board, and none when the neighbour is
off the board. -/
theorem feedNeighbor_total_le (r c owner : Int) (s : CascadeState) (d : Int × Int)
    (h0 : ∀ r' c', 0 ≤ (s.game.grid r' c').orbs) :
    totalOrbs (feedNeighbor r c owner s d).game ≤
      totalOrbs s.game +
        (if r + d.1 < 0 ∨ r + d.1 ≥ s.game.rows ∨ c + d.2 < 0 ∨ c + d.2 ≥ s.game.cols then 0
          else 1) := by
  rw [feedNeighbor_game]
  split_ifs with hb
  · simp
  · rw [totalOrbs_setCell s.game _ (r + d.1) (c + d.2) _ (by unfold InBounds; omega) (by simp)
      (by simp) (feedGame_grid r c owner s.game _ _)]
    have := fedCell_orbs_le owner (s.game.grid (r + d.1) (c + d.2)) (h0 _ _)
    omega

theorem feedNeighbor_orbs_nonneg (r c owner : Int) (s : CascadeState) (d : Int × Int)
    (h0 : ∀ r' c', 0 ≤ (s.game.grid r' c').orbs) :
    ∀ r' c', 0 ≤ ((feedNeighbor r c owner s d).game.grid r' c').orbs := by
  intro r' c'
  rw [feedNeighbor_grid]
  split_ifs with hb
  · exact h0 r' c'
  · unfold setCell
    split_ifs
    · exact fedCell_orbs_nonneg owner _ (h0 _ _)
    · exact h0 r' c'

theorem feedFold_total_le (g0 : ChainReactionGame) (r c owner : Int) :
    ∀ (l : List (Int × Int)) (s : CascadeState), s.game.rows = g0.rows →
      s.game.cols = g0.cols → (∀ r' c', 0 ≤ (s.game.grid r' c').orbs) →
      (∀ pos ∈ s.q, InBounds g0 pos.1 pos.2) →
      (l.foldl (feedNeighbor r c owner) s).game.rows = g0.rows ∧
      (l.foldl (feedNeighbor r c owner) s).game.cols = g0.cols ∧
      (∀ r' c', 0 ≤ ((l.foldl (feedNeighbor r c owner) s).game.grid r' c').orbs) ∧
      (∀ pos ∈ (l.foldl (feedNeighbor r c owner) s).q, InBounds g0 pos.1 pos.2) ∧
      totalOrbs (l.foldl (feedNeighbor r c owner) s).game ≤
        totalOrbs s.game + ((l.filter (openDirection g0 r c)).length : Int) := by
  intro l
  induction l with
  | nil => intro s hr hc h0 hq; exact ⟨hr, hc, h0, hq, by simp⟩
  | cons d l ih =>
    intro s hr hc h0 hq
    simp only [List.foldl_cons]
    have hq' : ∀ pos ∈ (feedNeighbor r c owner s d).q, InBounds g0 pos.1 pos.2 := by
      intro pos hpos
      rcases feedNeighbor_q r c owner s d pos hpos with h | ⟨rfl, hb⟩
      · exact hq pos h
      · unfold InBounds at hb ⊢
        rw [hr, hc] at hb
        exact hb
    obtain ⟨j1, j2, i1, i2, i3⟩ := ih (feedNeighbor r c owner s d) (by simp [hr])
      (by simp [hc]) (feedNeighbor_orbs_nonneg r c owner s d h0) hq'
    refine ⟨j1, j2, i1, i2, ?_⟩
    have hstep := feedNeighbor_total_le r c owner s d h0
    rw [hr, hc] at hstep
    by_cases hb : r + d.1 < 0 ∨ r + d.1 ≥ g0.rows ∨ c + d.2 < 0 ∨ c + d.2 ≥ g0.cols
    · have hd : ¬ (openDirection g0 r c d = true) := by simp [openDirection, hb]
      rw [List.filter_cons_of_neg hd]
      simp only [hb, if_true] at hstep
      omega
    · have hd : openDirection g0 r c d = true := by simp only [openDirection, hb]; decide
      rw [List.filter_cons_of_pos hd]
      simp only [hb, if_false] at hstep
      simp only [List.length_cons]
      push_cast
      omega

/-- One pass of the loop body keeps the invariant: a cell that explodes gives up all its
orbs, more than its capacity, and its in-bounds neighbours, at most capacity + 1 of them,
receive at most one orb each. -/
theorem explodeCell_orbsBounded (B : Int) (s : CascadeState) (r c : Int)
    (hb : InBounds s.game r c) (hs : OrbsBounded B s) : OrbsBounded B (explodeCell s r c) := by
  obtain ⟨h0, hq, ht⟩ := hs
  have key : ∀ (g2 : ChainReactionGame) (iq : Int → Bool) (owner : Int),
      g2.rows = s.game.rows → g2.cols = s.game.cols →
      g2.grid = setCell s.game.grid r c ⟨-1, 0⟩ →
      (s.game.grid r c).orbs > getCellCapacity s.game r c →
      OrbsBounded B (directions.foldl (feedNeighbor r c owner) ⟨g2, s.q, iq⟩) := by
    intro g2 iq owner hr hc hg hgt
    obtain ⟨j1, j2, i1, i2, i3⟩ := feedFold_total_le s.game r c owner directions ⟨g2, s.q, iq⟩
      hr hc
      (by
        intro r' c'
        simp only [hg, setCell]
        split_ifs
        · exact le_refl _
        · exact h0 r' c')
      hq
    refine ⟨i1, ?_, ?_⟩
    · intro pos hpos
      have := i2 pos hpos
      unfold InBounds at this ⊢
      rw [j1, j2]
      exact this
    · have hbase : totalOrbs g2 = totalOrbs s.game - (s.game.grid r c).orbs + 0 :=
        totalOrbs_setCell s.game g2 r c ⟨-1, 0⟩ hb hr hc hg
      have hopen := openDirections_le s.game r c hb
      unfold openDirections at hopen
      simp only at i3
      omega
  unfold explodeCell
  simp only
  split_ifs with hc
  · exact ⟨h0, hq, ht⟩
  · exact key _ _ _ (by simp) (by simp) (by simp) (by omega)

theorem cascadeLoop_orbsBounded (B : Int) (fuel : Nat) (s s' : CascadeState)
    (hs : OrbsBounded B s) (hl : cascadeLoop fuel s = some s') : OrbsBounded B s' := by
  refine cascadeLoop_preserves (OrbsBounded B) ?_ fuel s s' hs hl
  intro g pos rest iq h
  refine explodeCell_orbsBounded B ⟨g, rest, iq⟩ pos.1 pos.2
    (h.2.1 pos (List.mem_cons_self _ _)) ⟨h.1, ?_, h.2.2⟩
  intro p hp
  exact h.2.1 p (List.mem_cons_of_mem _ hp)

/-- An accepted call adds at most the placed orb, whatever the state it starts from, as long
as no orb count is negative. -/
theorem makeMove_total_le (fuel : Nat) (g : ChainReactionGame) (r c player : Int)
    (g' : ChainReactionGame) (h0 : ∀ r' c', 0 ≤ (g.grid r' c').orbs)
    (h : makeMove fuel g r c player = some (true, g')) :
    totalOrbs g' ≤ totalOrbs g + 1 := by
  have hmv : ∀ (g0 : ChainReactionGame) (m : Int),
      totalOrbs { g0 with movesMade := m } = totalOrbs g0 := fun _ _ => rfl
  have hplace : ∀ (hv : isMoveValid g r c player = true),
      totalOrbs (placeOrb g r c player) = totalOrbs g + 1 := by
    intro hv
    rw [totalOrbs_setCell g _ r c _ (isMoveValid_inBounds g r c player hv) (by simp) (by simp)
      (placeOrb_grid g r c player)]
    simp only
    ring
  rcases makeMove_cases fuel g r c player true g' h with ⟨_, hb, _⟩ | ⟨hv, _, _, rfl⟩ |
    ⟨hv, _, _, s', hl, rfl⟩
  · exact absurd hb (by decide)
  · rw [hmv, hplace hv]
  · have hinit : OrbsBounded (totalOrbs g + 1)
        ⟨placeOrb g r c player, [(r, c)], setAt (fun _ => false) (flatIndex g r c) true⟩ := by
      refine ⟨?_, ?_, le_of_eq (hplace hv)⟩
      · intro r' c'
        simp only [placeOrb_grid, setCell]
        split_ifs
        · have := h0 r c; simp only; omega
        · exact h0 r' c'
      · intro pos hpos
        simp only [List.mem_singleton] at hpos
        subst hpos
        have := isMoveValid_inBounds g r c player hv
        unfold InBounds at this ⊢
        simpa using this
    have hfin := (cascadeLoop_orbsBounded _ fuel _ s' hinit hl).2.2
    have hfr := clampPlayerScores_frame s'.game
    rw [hmv, totalOrbs_congr s'.game (clampPlayerScores s'.game) hfr.1 hfr.2.1 hfr.2.2.2.2.1]
    exact hfin

/-- C21: orbs are never created by a cascade. For every board size and every state reached
from a fresh game by `makeMove` calls with any player arguments, a `makeMove` call that
returns `true` leaves at most one orb more on the board than there was before the call: the
placed orb. -/
theorem orbs_never_created (pCount botType rows cols : Int) (n : Nat) (g : ChainReactionGame)
    (h : Reach (fun _ => True) (newGame pCount botType rows cols) n g)
    (fuel : Nat) (r c player : Int) (g' : ChainReactionGame)
    (hcall : makeMove fuel g r c player = some (true, g')) :
    totalOrbs g' ≤ totalOrbs g + 1 :=
  makeMove_total_le fuel g r c player g' (reach_nonNeg _ pCount botType rows cols n g h).1 hcall

theorem orbs_never_created_witness :
    totalOrbs (replay 1 (newGame 2 0 3 3) [(0, 0, 0), (0, 0, 0)]) ≤
      totalOrbs (replay 1 (newGame 2 0 3 3) [(0, 0, 0)]) + 1 :=
  orbs_never_created 2 0 3 3 1 (replay 1 (newGame 2 0 3 3) [(0, 0, 0)])
    (reach_scenarioA _ trivial) 1 0 0 0 (replay 1 (newGame 2 0 3 3) [(0, 0, 0), (0, 0, 0)])
    (show makeMove 1 (replay 1 (newGame 2 0 3 3) [(0, 0, 0)]) 0 0 0 =
      some (true, replay 1 (newGame 2 0 3 3) [(0, 0, 0), (0, 0, 0)]) by rfl)

/-! ## Alpha-beta pruning keeps the search value -/

theorem plainMaxLoop_ge (child : ChainReactionGame → Option Int) (fuel : Nat)
    (g : ChainReactionGame) (myPlayerId : Int) :
    ∀ (l : List (Int × Int)) (maxEval V : Int),
      MinimaxBot.plainMaxLoop child fuel g myPlayerId l maxEval = some V → maxEval ≤ V
  | [], maxEval, V, h => by
    simp only [MinimaxBot.plainMaxLoop, Option.some.injEq] at h
    omega
  | move :: rest, maxEval, V, h => by
    simp only [MinimaxBot.plainMaxLoop] at h
    cases hm : makeMove fuel (copyGame g) move.1 move.2 myPlayerId with
    | none => simp [hm] at h
    | some res =>
      obtain ⟨b, cs⟩ := res
      simp only [hm] at h
      cases hc : child cs with
      | none => simp [hc] at h
      | some e =>
        simp only [hc] at h
        have := plainMaxLoop_ge child fuel g myPlayerId rest _ V h
        omega

theorem plainMinLoop_le (child : ChainReactionGame → Option Int) (fuel : Nat)
    (g : ChainReactionGame) (opponentId : Int) :
    ∀ (l : List (Int × Int)) (minEval V : Int),
      MinimaxBot.plainMinLoop child fuel g opponentId l minEval = some V → V ≤ minEval
  | [], minEval, V, h => by
    simp only [MinimaxBot.plainMinLoop, Option.some.injEq] at h
    omega
  | move :: rest, minEval, V, h => by
    simp only [MinimaxBot.plainMinLoop] at h
    cases hm : makeMove fuel (copyGame g) move.1 move.2 opponentId with
    | none => simp [hm] at h
    | some res =>
      obtain ⟨b, cs⟩ := res
      simp only [hm] at h
      cases hc : child cs with
      | none => simp [hc] at h
      | some e =>
        simp only [hc] at h
        have := plainMinLoop_le child fuel g opponentId rest _ V h
        omega

/-- The maximizing loop with cut-off against the loop without: `M` and `alpha` are the
accumulators of the pruned loop, `Mp` is the accumulator of the plain loop, `alpha0` is the
value of `alpha` on entry. -/
theorem maxLoop_failSoft (child : ChainReactionGame → Int → Int → Option Int)
    (pchild : ChainReactionGame → Option Int) (fuel : Nat) (g : ChainReactionGame)
    (myPlayerId alpha0 beta : Int)
    (hchild : ∀ s V, pchild s = some V → ∀ a b, a < b →
      ∃ e, child s a b = some e ∧ FailSoft a b e V) :
    ∀ (l : List (Int × Int)) (M Mp alpha V : Int),
      MinimaxBot.plainMaxLoop pchild fuel g myPlayerId l Mp = some V →
      alpha < beta → alpha0 ≤ alpha → Mp ≤ M → alpha ≤ max alpha0 M → (alpha0 < M → M ≤ Mp) →
      ∃ v, MinimaxBot.maxLoop child fuel g myPlayerId l M alpha beta = some v ∧
        FailSoft alpha0 beta v V
  | [], M, Mp, alpha, V, h, hab, h0, h1, h2, h3 => by
    simp only [MinimaxBot.plainMaxLoop, Option.some.injEq] at h
    subst h
    refine ⟨M, by simp [MinimaxBot.maxLoop], ?_, ?_, ?_⟩
    · intro _; exact h1
    · intro hb; exact h3 (by omega)
    · intro ha _; have := h3 ha; omega
  | move :: rest, M, Mp, alpha, V, h, hab, h0, h1, h2, h3 => by
    simp only [MinimaxBot.plainMaxLoop] at h
    cases hm : makeMove fuel (copyGame g) move.1 move.2 myPlayerId with
    | none => simp [hm] at h
    | some res =>
      obtain ⟨b, cs⟩ := res
      simp only [hm] at h
      cases hc : pchild cs with
      | none => simp [hc] at h
      | some Vc =>
        simp only [hc] at h
        obtain ⟨e, he, f1, f2, f3⟩ := hchild cs Vc hc alpha beta hab
        simp only [MinimaxBot.maxLoop, hm, he]
        have hV := plainMaxLoop_ge pchild fuel g myPlayerId rest _ V h
        by_cases hbr : beta ≤ max alpha e
        · simp only [hbr, if_true]
          have hbe : beta ≤ e := by omega
          have heV := f2 hbe
          refine ⟨_, rfl, ?_, ?_, ?_⟩
          · intro hle; omega
          · intro _
            by_cases hM : alpha0 < M
            · have := h3 hM; omega
            · omega
          · intro _ hlt; omega
        · simp only [hbr, if_false]
          have hlt : e < beta := by omega
          have hVe : Vc ≤ max M e := by
            by_cases hea : e ≤ alpha
            · have := f1 hea; omega
            · have := f3 (by omega) hlt; omega
          refine maxLoop_failSoft child pchild fuel g myPlayerId alpha0 beta hchild rest
            (max M e) (max Mp Vc) (max alpha e) V h (by omega) (by omega) (by omega)
            (by omega) ?_
          intro hM'
          by_cases hME : e ≤ M
          · have : alpha0 < M := by omega
            have := h3 this
            omega
          · have hea : alpha < e := by omega
            have := f3 hea hlt
            omega

/-- The minimizing loop with cut-off against the loop without, the mirror image of
`maxLoop_failSoft`. -/
theorem minLoop_failSoft (child : ChainReactionGame → Int → Int → Option Int)
    (pchild : ChainReactionGame → Option Int) (fuel : Nat) (g : ChainReactionGame)
    (opponentId alpha beta0 : Int)
    (hchild : ∀ s V, pchild s = some V → ∀ a b, a < b →
      ∃ e, child s a b = some e ∧ FailSoft a b e V) :
    ∀ (l : List (Int × Int)) (M Mp beta V : Int),
      MinimaxBot.plainMinLoop pchild fuel g opponentId l Mp = some V →
      alpha < beta → beta ≤ beta0 → M ≤ Mp → min beta0 M ≤ beta → (M < beta0 → Mp ≤ M) →
      ∃ v, MinimaxBot.minLoop child fuel g opponentId l M alpha beta = some v ∧
        FailSoft alpha beta0 v V
  | [], M, Mp, beta, V, h, hab, h0, h1, h2, h3 => by
    simp only [MinimaxBot.plainMinLoop, Option.some.injEq] at h
    subst h
    refine ⟨M, by simp [MinimaxBot.minLoop], ?_, ?_, ?_⟩
    · intro ha; exact h3 (by omega)
    · intro _; exact h1
    · intro _ hb; have := h3 hb; omega
  | move :: rest, M, Mp, beta, V, h, hab, h0, h1, h2, h3 => by
    simp only [MinimaxBot.plainMinLoop] at h
    cases hm : makeMove fuel (copyGame g) move.1 move.2 opponentId with
    | none => simp [hm] at h
    | some res =>
      obtain ⟨b, cs⟩ := res
      simp only [hm] at h
      cases hc : pchild cs with
      | none => simp [hc] at h
      | some Vc =>
        simp only [hc] at h
        obtain ⟨e, he, f1, f2, f3⟩ := hchild cs Vc hc alpha beta hab
        simp only [MinimaxBot.minLoop, hm, he]
        have hV := plainMinLoop_le pchild fuel g opponentId rest _ V h
        by_cases hbr : min beta e ≤ alpha
        · simp only [hbr, if_true]
          have hea : e ≤ alpha := by omega
          have heV := f1 hea
          refine ⟨_, rfl, ?_, ?_, ?_⟩
          · intro _
            by_cases hM : M < beta0
            · have := h3 hM; omega
            · omega
          · intro hle; omega
          · intro hlt _; omega
        · simp only [hbr, if_false]
          have hlt : alpha < e := by omega
          have hVe : min M e ≤ Vc := by
            by_cases heb : beta ≤ e
            · have := f2 heb; omega
            · have := f3 hlt (by omega); omega
          refine minLoop_failSoft child pchild fuel g opponentId alpha beta0 hchild rest
            (min M e) (min Mp Vc) (min beta e) V h (by omega) (by omega) (by omega)
            (by omega) ?_
          intro hM'
          by_cases hME : M ≤ e
          · have : M < beta0 := by omega
            have := h3 this
            omega
          · have heb : e < beta := by omega
            have := f3 hlt heb
            omega

/-- Whatever the window, the pruned search returns whenever the plain search does, and its
result is tied to the plain value by `FailSoft`. -/
theorem minimax_failSoft (fuel : Nat) (myPlayerId : Int) :
    ∀ (depth : Nat) (g : ChainReactionGame) (isMaximizingPlayer : Bool) (V : Int),
      MinimaxBot.plainMinimax fuel depth g isMaximizingPlayer myPlayerId = some V →
      ∀ alpha beta, alpha < beta →
        ∃ v, MinimaxBot.minimax fuel depth g alpha beta isMaximizingPlayer myPlayerId = some v ∧
          FailSoft alpha beta v V
  | 0, g, isMax, V, h, alpha, beta, _ => by
    simp only [MinimaxBot.plainMinimax, Option.some.injEq] at h
    refine ⟨V, by simp [MinimaxBot.minimax, h], ?_, ?_, ?_⟩ <;> intros <;> omega
  | depth + 1, g, isMax, V, h, alpha, beta, hab => by
    simp only [MinimaxBot.plainMinimax] at h
    simp only [MinimaxBot.minimax]
    by_cases hw : getWinner g ≠ -1
    · rw [if_pos hw] at h
      rw [if_pos hw]
      simp only [Option.some.injEq] at h
      refine ⟨V, by rw [h], ?_, ?_, ?_⟩ <;> intros <;> omega
    · cases isMax with
      | true =>
        rw [if_neg hw] at h
        rw [if_neg hw]
        simp only [if_true] at h
        simp only [if_true]
        exact maxLoop_failSoft _ _ fuel g myPlayerId alpha beta
          (fun s Vc hs a b hlt =>
            minimax_failSoft fuel myPlayerId depth (copyGame s) false Vc hs a b hlt)
          _ INT_MIN INT_MIN alpha V h hab (le_refl _) (le_refl _) (by omega) (fun _ => le_refl _)
      | false =>
        rw [if_neg hw] at h
        rw [if_neg hw]
        simp only [Bool.false_eq_true, if_false] at h
        simp only [Bool.false_eq_true, if_false]
        by_cases hemp : validMoves g (MinimaxBot.opponentId myPlayerId) = []
        · simp only [hemp, if_true, Option.some.injEq] at h
          simp only [hemp, if_true]
          refine ⟨V, by rw [h], ?_, ?_, ?_⟩ <;> intros <;> omega
        · simp only [hemp, if_false] at h
          simp only [hemp, if_false]
          exact minLoop_failSoft _ _ fuel g (MinimaxBot.opponentId myPlayerId) alpha beta
            (fun s Vc hs a b hlt =>
              minimax_failSoft fuel myPlayerId depth (copyGame s) true Vc hs a b hlt)
            _ INT_MAX INT_MAX beta V h hab (le_refl _) (le_refl _) (by omega)
            (fun _ => le_refl _)

/-- For every id but the two smallest `int` values the opponent id is `1 - myPlayerId`. -/
theorem opponentId_of_inRange (myPlayerId : Int) (hlo : INT_MIN + 2 ≤ myPlayerId)
    (hhi : myPlayerId ≤ INT_MAX) : MinimaxBot.opponentId myPlayerId = 1 - myPlayerId := by
  unfold MinimaxBot.opponentId wrapInt32
  unfold INT_MIN at hlo
  unfold INT_MAX at hhi
  omega

/-- At the two smallest ids `1 - myPlayerId` leaves the `int` range and wraps: the opponent
of `INT_MIN` is `INT_MIN + 1` and the opponent of `INT_MIN + 1` is `INT_MIN`. -/
theorem opponentId_wraps :
    MinimaxBot.opponentId INT_MIN = INT_MIN + 1 ∧
      MinimaxBot.opponentId (INT_MIN + 1) = INT_MIN := by
  constructor <;> decide

/-- C22: alpha-beta pruning does not change the search value. For every game state, depth,
player id and both values of `isMaximizingPlayer`: when plain minimax (the same recursion
with both cut-offs removed, every one of its simulated moves returning) yields the value `V`,
an `int`, then `minimax` called with `alpha = INT_MIN` and `beta = INT_MAX` returns, and
returns `V`. -/
theorem alpha_beta_keeps_value (fuel depth : Nat) (g : ChainReactionGame)
    (isMaximizingPlayer : Bool) (myPlayerId V : Int)
    (hplain : MinimaxBot.plainMinimax fuel depth g isMaximizingPlayer myPlayerId = some V)
    (hlo : INT_MIN ≤ V) (hhi : V ≤ INT_MAX) :
    MinimaxBot.minimax fuel depth g INT_MIN INT_MAX isMaximizingPlayer myPlayerId = some V := by
  obtain ⟨v, hv, f1, f2, f3⟩ := minimax_failSoft fuel myPlayerId depth g isMaximizingPlayer V
    hplain INT_MIN INT_MAX (by decide)
  rw [hv]
  congr 1
  by_cases h1 : v ≤ INT_MIN
  · have := f1 h1; omega
  · by_cases h2 : INT_MAX ≤ v
    · have := f2 h2; omega
    · exact f3 (by omega) (by omega)

theorem alpha_beta_keeps_value_witness :
    MinimaxBot.minimax 2 2 (replay 1 (newGame 2 3 3 3) [(0, 0, 0)]) INT_MIN INT_MAX true 1 =
      some (-1) :=
  alpha_beta_keeps_value 2 2 (replay 1 (newGame 2 3 3 3) [(0, 0, 0)]) true 1 (-1)
    (by rfl) (by decide) (by decide)

end ChainReaction
